import Mathlib

/-!
Musical tree: a shallow embedding of `motif_node.cc` and `musical_tree.cc`

Objects of class `MotifNode` live in a heap addressed by natural numbers; a
`MotifNode*` is an `Option Nat` (`none` is `nullptr`).  `new` hands out the next
free address, `delete` removes an address from the heap (the class has no
destructor of its own, so deleting a node frees that node only), and
dereferencing a dead address is reported as `Err.null_deref`.  A thrown
`std::invalid_argument` is `Err.invalid_argument`.  Loops whose termination
depends on the shape of the heap (the ancestor walk of `AddChildNode`, the
recursions over child lists) carry a fuel argument and report `Err.out_of_fuel`
when it runs out.  The `double` values of fitness scores and thresholds are
values of `Dbl` (not-a-number, an infinity, or a finite value kept as an exact
rational), compared as IEEE 754 compares them and divided and multiplied with
rounding to the nearest `double` (`rnd`); note durations and the threshold
arithmetic of the prune loops are exact rationals.  `int` values are integers,
with the results of pitch arithmetic wrapped to 32 bits (`toInt32`), and
`rand()` reads from an arbitrary stream of naturals.  The
declarations of `motif_node.hpp` are not part of the sources: the fields of
`Note` and `MotifNode` are taken from their uses, the pitch-range constants are
a parameter (`PitchConsts`).

The file first gives the model (the definitions follow the source functions
line by line), then abstract trees (`MTree`) with the relation `TreeAt` between
heaps and trees and the functional description of pruning (`pruneRoot`), then
the theorems.  `WellFormed` states well-formedness on the heap alone;
`wellFormed_iff` shows it is the same as holding an abstract tree.
-/

namespace MusicTree

/-! ## Data model -/

/-- A `Note` of `motif_node.hpp`: an `int` pitch and a `double` duration. -/
structure Note where
  pitch : Int
  duration : ℚ
deriving DecidableEq

/-! ## Doubles -/

/-- A `double`: not-a-number, minus or plus infinity, or a finite value, kept as
an exact rational.  Zeros are not signed: the program compares doubles and
divides them by positive constants only, so the sign of a zero is never
observed. -/
inductive Dbl where
  | nan
  | ninf
  | pinf
  | fin (q : ℚ)
deriving DecidableEq

/-- The comparison `a < b` of two doubles: false as soon as one of them is NaN. -/
def Dbl.lt : Dbl → Dbl → Bool
  | .fin a, .fin b => decide (a < b)
  | .ninf, .fin _ => true
  | .ninf, .pinf => true
  | .fin _, .pinf => true
  | _, _ => false

/-- The comparison `a <= b` of two doubles: false as soon as one of them is NaN. -/
def Dbl.le : Dbl → Dbl → Bool
  | .fin a, .fin b => decide (a ≤ b)
  | .ninf, .ninf => true
  | .ninf, .fin _ => true
  | .ninf, .pinf => true
  | .fin _, .pinf => true
  | .pinf, .pinf => true
  | _, _ => false

instance : LT Dbl := ⟨fun a b => Dbl.lt a b = true⟩

instance : LE Dbl := ⟨fun a b => Dbl.le a b = true⟩

instance (a b : Dbl) : Decidable (a < b) := inferInstanceAs (Decidable (Dbl.lt a b = true))

instance (a b : Dbl) : Decidable (a ≤ b) := inferInstanceAs (Decidable (Dbl.le a b = true))

instance (n : Nat) : OfNat Dbl n := ⟨.fin (n : ℚ)⟩

/-- The power `2 ^ g` for an integer exponent. -/
def pow2 (g : Int) : ℚ :=
  if 0 ≤ g then ((2 ^ g.toNat : Nat) : ℚ) else 1 / ((2 ^ (-g).toNat : Nat) : ℚ)

/-- The number of binary digits of `n`; the first argument bounds the recursion. -/
def bitLen : Nat → Nat → Nat
  | 0, _ => 0
  | k + 1, n => if n = 0 then 0 else bitLen k (n / 2) + 1

/-- The binary exponent of a nonzero rational: the `e` with `2 ^ e ≤ |x| < 2 ^ (e + 1)`. -/
def ilog2 (x : ℚ) : Int :=
  let e0 : Int := (bitLen x.num.natAbs x.num.natAbs : Int) - (bitLen x.den x.den : Int)
  if pow2 e0 ≤ |x| then e0 else e0 - 1

/-- The natural number nearest to `y ≥ 0`, a tie going to the even neighbour. -/
def roundHalfEven (y : ℚ) : Nat :=
  let f : Nat := (Rat.floor y).toNat
  let r : ℚ := y - (f : ℚ)
  if r < 1 / 2 then f else if 1 / 2 < r then f + 1 else if f % 2 = 0 then f else f + 1

/-- The `double` that an operation with exact result `x` returns: the nearest
binary64 value (53 significant bits, least exponent `-1074`), a tie going to the
even significand, and an infinity when that value would be `2 ^ 1024` or more. -/
def rnd (x : ℚ) : Dbl :=
  if x = 0 then .fin 0
  else
    let g : Int := max (ilog2 x - 52) (-1074)
    let m : Nat := roundHalfEven (|x| / pow2 g)
    let v : ℚ := (m : ℚ) * pow2 g
    if pow2 1024 ≤ v then (if x < 0 then .ninf else .pinf)
    else .fin (if x < 0 then -v else v)

/-- The quotient `a / b` of two doubles. -/
def Dbl.div : Dbl → Dbl → Dbl
  | .nan, _ => .nan
  | _, .nan => .nan
  | .fin a, .fin b =>
    if b = 0 then (if a = 0 then .nan else if a < 0 then .ninf else .pinf) else rnd (a / b)
  | .fin _, .ninf => .fin 0
  | .fin _, .pinf => .fin 0
  | .pinf, .fin b => if b < 0 then .ninf else .pinf
  | .ninf, .fin b => if b < 0 then .pinf else .ninf
  | _, _ => .nan

/-- The product `a * b` of two doubles. -/
def Dbl.mul : Dbl → Dbl → Dbl
  | .nan, _ => .nan
  | _, .nan => .nan
  | .fin a, .fin b => rnd (a * b)
  | .fin a, .pinf => if a = 0 then .nan else if a < 0 then .ninf else .pinf
  | .fin a, .ninf => if a = 0 then .nan else if a < 0 then .pinf else .ninf
  | .pinf, .fin b => if b = 0 then .nan else if b < 0 then .ninf else .pinf
  | .ninf, .fin b => if b = 0 then .nan else if b < 0 then .pinf else .ninf
  | .pinf, .pinf => .pinf
  | .ninf, .ninf => .pinf
  | _, _ => .ninf

/-- The result of `std::max(a, b)` on doubles: `b` when `a < b`, otherwise `a`. -/
def Dbl.max (a b : Dbl) : Dbl := if a < b then b else a

/-- The data members of class `MotifNode`.  A child list holds addresses only:
`AddChildNode` and `ReplaceChildNode` reject `nullptr`, so it never contains
it, and the null tests on children in the recursive helpers always pass. -/
structure MotifNode where
  motif_ : List Note
  parent_ : Option Nat
  children_ : List Nat
  fitness_score_ : Dbl
deriving DecidableEq

/-- The heap: which addresses hold a live `MotifNode`. -/
abbrev Heap := Nat → Option MotifNode

/-- Overwrite the object stored at address `i`. -/
def Heap.set (h : Heap) (i : Nat) (nd : MotifNode) : Heap :=
  fun j => if j = i then some nd else h j

/-- The effect of `delete` on address `i`. -/
def Heap.free (h : Heap) (i : Nat) : Heap :=
  fun j => if j = i then none else h j

/-- How a call can fail: a thrown `std::invalid_argument`, a dereference of a
null or dead pointer, or exhaustion of the fuel of the model. -/
inductive Err where
  | invalid_argument
  | null_deref
  | out_of_fuel
deriving DecidableEq

/-- Result of a `MotifNode` member function: on failure the heap as it was when
the failure happened is kept, so that writes made before a throw stay visible. -/
abbrev HRes (α : Type) := Except (Err × Heap) α

/-- The data members of class `MusicalTree`. -/
structure MusicalTree where
  root_ : Option Nat
  size_ : Int
  verbose_ : Bool
deriving DecidableEq

/-- The pitch-range constants declared in `motif_node.hpp`. -/
structure PitchConsts where
  kMinAcceptablePitch : Int
  kMaxAcceptablePitch : Int
  kExtrMinAcceptablePitch : Int
  kExtrMaxAcceptablePitch : Int

/-- The process state used by code that allocates nodes: the heap, the next
address handed out by `new`, and the future results of `rand()`. -/
structure Mem where
  heap : Heap
  next : Nat
  rng : Nat → Nat

/-! ## motif_node.cc -/

/-- The value an `int` computation stores when its mathematical result is `x`:
`x` itself when it fits in 32 bits, otherwise `x` wrapped around (two's
complement). -/
def toInt32 (x : Int) : Int := (x + 2147483648) % 4294967296 - 2147483648

/-- One call of `rand()`: the next draw and the remaining stream. -/
def rand (r : Nat → Nat) : Nat × (Nat → Nat) := (r 0, fun i => r (i + 1))

/-- First loop of `CalculateHarmonicScore`: scale membership of each note. -/
def scaleLoop : List Note → Int → (Nat → Nat) → Int × (Nat → Nat)
  | [], score, r => (score, r)
  | n :: ns, score, r =>
    let note_ := Int.tmod n.pitch 12
    let d := rand r
    if note_ = 0 ∨ note_ = 2 ∨ note_ = 4 ∨ note_ = 5 ∨ note_ = 7 ∨ note_ = 9 ∨ note_ = 11 then
      scaleLoop ns (score + (d.1 % 10 : Nat)) d.2
    else
      scaleLoop ns (score - (d.1 % 10 : Nat)) d.2

/-- Second loop of `CalculateHarmonicScore`: the interval between each note
and its predecessor `prev`.  The difference and its absolute value are `int`
computations and are wrapped to 32 bits. -/
def intervalLoop : Int → List Note → Int → (Nat → Nat) → Int × (Nat → Nat)
  | _, [], score, r => (score, r)
  | prev, n :: ns, score, r =>
    let interval := Int.tmod (toInt32 |toInt32 (n.pitch - prev)|) 12
    if interval = 1 ∨ interval = 6 ∨ interval = 10 then
      let d := rand r
      intervalLoop n.pitch ns (score - (d.1 % 10 : Nat)) d.2
    else if interval = 7 ∨ interval = 5 ∨ interval = 4 then
      let d := rand r
      intervalLoop n.pitch ns (score + (d.1 % 10 : Nat)) d.2
    else
      intervalLoop n.pitch ns score r

/-- Third loop of `CalculateHarmonicScore`: the two range penalties. -/
def rangeLoop (K : PitchConsts) : List Note → Int → (Nat → Nat) → Int × (Nat → Nat)
  | [], score, r => (score, r)
  | n :: ns, score, r =>
    let s1 : Int × (Nat → Nat) :=
      if n.pitch < K.kMinAcceptablePitch ∨ n.pitch > K.kMaxAcceptablePitch then
        (score - ((rand r).1 % 5 : Nat), (rand r).2)
      else (score, r)
    let s2 : Int × (Nat → Nat) :=
      if n.pitch < K.kExtrMinAcceptablePitch ∨ n.pitch > K.kExtrMaxAcceptablePitch then
        (s1.1 - ((rand s1.2).1 % 5 : Nat), (rand s1.2).2)
      else s1
    rangeLoop K ns s2.1 s2.2

/-- Model of `CalculateHarmonicScore`: the raw score (an integer-valued
`double`, kept as an integer: every sum is exact while the score stays below
`2 ^ 53` in absolute value, as it does for every motif an `int` index can run
through) and the random stream left over. -/
def CalculateHarmonicScore (K : PitchConsts) (motif : List Note) (r : Nat → Nat) :
    Int × (Nat → Nat) :=
  let a := scaleLoop motif 0 r
  let b : Int × (Nat → Nat) :=
    match motif with
    | [] => a
    | n :: ns => intervalLoop n.pitch ns a.1 a.2
  rangeLoop K motif b.1 b.2

/-- Model of `CalculateFitnessScore`: the rescale of the harmonic score in
`double` arithmetic.  The harmonic score and the two bounds are integer-valued
doubles, so the two differences are exact; the quotient and the product are
rounded. -/
def CalculateFitnessScore (K : PitchConsts) (motif : List Note) (r : Nat → Nat) :
    Dbl × (Nat → Nat) :=
  let hs := CalculateHarmonicScore K motif r
  let worst_score_possible : ℚ := -100
  let best_score_possible : ℚ := 100
  (Dbl.mul
    (Dbl.div (.fin ((hs.1 : ℚ) - worst_score_possible))
      (.fin (best_score_possible - worst_score_possible)))
    (.fin 100),
    hs.2)

/-- Model of `new MotifNode(motif)`: a fresh address holding a parentless,
childless node whose fitness is computed at construction. -/
def newMotifNode (K : PitchConsts) (m : Mem) (motif : List Note) : Nat × Mem :=
  let fs := CalculateFitnessScore K motif m.rng
  (m.next,
    { heap := m.heap.set m.next
        { motif_ := motif, parent_ := none, children_ := [], fitness_score_ := fs.1 },
      next := m.next + 1,
      rng := fs.2 })

/-- The ancestor walk of `AddChildNode`: starting at `ancestor`, follow parent
pointers until `nullptr`; answer whether `new_child` was met. -/
def onParentChain : Nat → Heap → Option Nat → Nat → Except Err Bool
  | _, _, none, _ => .ok false
  | 0, _, some _, _ => .error .out_of_fuel
  | k + 1, h, some a, c =>
    if a = c then .ok true
    else
      match h a with
      | none => .error .null_deref
      | some nd => onParentChain k h nd.parent_ c

/-- Model of `MotifNode::AddChildNode`, called on the node at address `self`. -/
def AddChildNode (w : Nat) (h : Heap) (self : Nat) (new_child : Option Nat) : HRes Heap :=
  match new_child with
  | none => .error (.invalid_argument, h)
  | some c =>
    match h self with
    | none => .error (.null_deref, h)
    | some sd =>
      if c ∈ sd.children_ then .error (.invalid_argument, h)
      else
        match onParentChain w h (some self) c with
        | .error e => .error (e, h)
        | .ok true => .error (.invalid_argument, h)
        | .ok false =>
          let h1 := h.set self { sd with children_ := sd.children_ ++ [c] }
          match h1 c with
          | none => .error (.null_deref, h1)
          | some cd => .ok (h1.set c { cd with parent_ := some self })

/-- Replace the first occurrence of `old` in a child list by `new`
(the effect of `*it = new_child` with `it = find(begin, end, old_child)`). -/
def replaceFirst (old new : Nat) : List Nat → List Nat
  | [] => []
  | x :: xs => if x = old then new :: xs else x :: replaceFirst old new xs

/-- Model of `MotifNode::ReplaceChildNode`, called on the node at `self`. -/
def ReplaceChildNode (h : Heap) (self : Nat) (new_child old_child : Option Nat) :
    HRes (Heap × Bool) :=
  match new_child, old_child with
  | some nc, some oc =>
    match h self with
    | none => .error (.null_deref, h)
    | some sd =>
      if oc ∈ sd.children_ then
        let h1 := h.set self { sd with children_ := replaceFirst oc nc sd.children_ }
        match h1 nc with
        | none => .error (.null_deref, h1)
        | some nd =>
          let h2 := h1.set nc { nd with parent_ := some self }
          match h2 oc with
          | none => .error (.null_deref, h2)
          | some od => .ok (h2.set oc { od with parent_ := none }, true)
      else .ok (h, false)
  | _, _ => .error (.invalid_argument, h)

/-- Model of `MotifNode::RemoveChildNode`, called on the node at `self`. -/
def RemoveChildNode (h : Heap) (self : Nat) (node : Option Nat) : HRes (Heap × Bool) :=
  match node with
  | none => .error (.invalid_argument, h)
  | some n =>
    match h self with
    | none => .error (.null_deref, h)
    | some sd =>
      if n ∈ sd.children_ then
        let h1 := h.set self { sd with children_ := sd.children_.erase n }
        match h1 n with
        | none => .error (.null_deref, h1)
        | some nd => .ok (h1.set n { nd with parent_ := none }, true)
      else .ok (h, false)

/-- Model of `MotifNode::SetNullParent`. -/
def SetNullParent (h : Heap) (self : Nat) : HRes Heap :=
  match h self with
  | none => .error (.null_deref, h)
  | some sd => .ok (h.set self { sd with parent_ := none })

/-- Model of `MotifNode::GetMotif`: the motif, or the static empty vector when
the motif is empty. -/
def GetMotif (nd : MotifNode) : List Note :=
  if nd.motif_.isEmpty then [] else nd.motif_

/-- Forget the heap carried by a failed node operation. -/
def liftH {α : Type} : HRes α → Except Err α
  | .ok a => .ok a
  | .error e => .error e.1

/-! ## musical_tree.cc -/

/-- Model of `CountNodes`. -/
def CountNodes : Nat → Heap → Option Nat → Except Err Int
  | _, _, none => .ok 0
  | 0, _, some _ => .error .out_of_fuel
  | fuel + 1, h, some n =>
    match h n with
    | none => .error .null_deref
    | some nd =>
      nd.children_.foldlM
        (fun count child => do
          let k ← CountNodes fuel h (some child)
          pure (count + k))
        1

/-- Model of `MusicalTree::TraverseTree`; the heap is threaded through and
returned so that the absence of writes is visible in the result. -/
def TraverseTree : Nat → Heap → Option Nat → List Note → Except Err (Heap × List Note)
  | _, h, none, melody => .ok (h, melody)
  | 0, _, some _, _ => .error .out_of_fuel
  | fuel + 1, h, some n, melody =>
    match h n with
    | none => .error .null_deref
    | some nd =>
      nd.children_.foldlM
        (fun st child => TraverseTree fuel st.1 (some child) st.2)
        (h, melody ++ GetMotif nd)

/-- Model of `MusicalTree::GenerateMelody`. -/
def GenerateMelody (fuel : Nat) (h : Heap) (tr : MusicalTree) :
    Except Err (Heap × List Note) :=
  TraverseTree fuel h tr.root_ []

/-- The adoption loop of `PruneNodes`: every child other than `last` is added
below `last`. -/
def adoptLoop (w : Nat) (last : Nat) (children : List Nat) (h : Heap) : Except Err Heap :=
  children.foldlM
    (fun hh child => if child ≠ last then liftH (AddChildNode w hh last (some child)) else pure hh)
    h

/-- Model of `MusicalTree::PruneNodes`.  `fuel` bounds the recursion depth, `w`
is the fuel handed to every ancestor walk. -/
def PruneNodes : Nat → Nat → Heap × MusicalTree → Option Nat → Dbl →
    Except Err (Heap × MusicalTree)
  | _, _, st, none, _ => .ok st
  | 0, _, _, some _, _ => .error .out_of_fuel
  | fuel + 1, w, st, some n, threshold =>
    match st.1 n with
    | none => .error .null_deref
    | some nd =>
      if nd.parent_ = none ∧ nd.children_ = [] then .ok st
      else do
        let st1 ← nd.children_.foldlM
          (fun s child => PruneNodes fuel w s (some child) threshold) st
        match st1.1 n with
        | none => .error .null_deref
        | some nd1 =>
          let children := nd1.children_
          if nd1.fitness_score_ < threshold then
            match children.getLast? with
            | some lastAddedChild => do
              let r2 ← liftH (RemoveChildNode st1.1 n (some lastAddedChild))
              let h3 ← adoptLoop w lastAddedChild children r2.1
              match h3 n with
              | none => .error .null_deref
              | some nd3 =>
                match nd3.parent_ with
                | some p => do
                  let h4 ← liftH (AddChildNode w h3 p (some lastAddedChild))
                  match h4 n with
                  | none => .error .null_deref
                  | some nd4 =>
                    match nd4.parent_ with
                    | none => .error .null_deref
                    | some p2 => do
                      let r5 ← liftH (RemoveChildNode h4 p2 (some n))
                      pure (r5.1.free n, { st1.2 with size_ := st1.2.size_ - 1 })
                | none => do
                  let h4 ← liftH (SetNullParent h3 lastAddedChild)
                  pure (h4.free n,
                    { st1.2 with root_ := some lastAddedChild, size_ := st1.2.size_ - 1 })
            | none =>
              match nd1.parent_ with
              | some p => do
                let r2 ← liftH (RemoveChildNode st1.1 p (some n))
                pure (r2.1.free n, { st1.2 with size_ := st1.2.size_ - 1 })
              | none => pure st1
          else pure st1

/-- Model of `MotifNode::SetFitnessScore`. -/
def SetFitnessScore (h : Heap) (self : Nat) (val : Dbl) : HRes Heap :=
  match h self with
  | none => .error (.null_deref, h)
  | some sd => .ok (h.set self { sd with fitness_score_ := val })

/-- Model of the helper `CopyNode`: the address of the copy (`none` for a null
argument) and the memory after the copy was built. -/
def CopyNode (K : PitchConsts) : Nat → Nat → Mem → Option Nat → Except Err (Option Nat × Mem)
  | _, _, m, none => .ok (none, m)
  | 0, _, _, some _ => .error .out_of_fuel
  | fuel + 1, w, m, some n =>
    match m.heap n with
    | none => .error .null_deref
    | some nd =>
      let a := newMotifNode K m (GetMotif nd)
      match a.2.heap n with
      | none => .error .null_deref
      | some nd1 => do
        let h2 ← liftH (SetFitnessScore a.2.heap a.1 nd1.fitness_score_)
        let m3 ← nd1.children_.foldlM
          (fun mm child => do
            let c ← CopyNode K fuel w mm (some child)
            let h ← liftH (AddChildNode w c.2.heap a.1 c.1)
            pure { c.2 with heap := h })
          { a.2 with heap := h2 }
        pure (some a.1, m3)

/-- Model of the helper `DeleteNodeRecursively`. -/
def DeleteNodeRecursively : Nat → Heap → Option Nat → Except Err Heap
  | _, h, none => .ok h
  | 0, _, some _ => .error .out_of_fuel
  | fuel + 1, h, some n =>
    match h n with
    | none => .error .null_deref
    | some nd => do
      let h1 ← nd.children_.foldlM (fun hh child => DeleteNodeRecursively fuel hh (some child)) h
      pure (h1.free n)

/-- Model of the copy constructor `MusicalTree(const MusicalTree& another)`. -/
def copyConstruct (K : PitchConsts) (fuel w : Nat) (m : Mem) (another : MusicalTree) :
    Except Err (MusicalTree × Mem) := do
  let c ← CopyNode K fuel w m another.root_
  pure ({ root_ := c.1, size_ := another.size_, verbose_ := another.verbose_ }, c.2)

/-- Model of `MusicalTree::operator=`; `same` tells whether `this == &another`. -/
def assign (K : PitchConsts) (fuel w : Nat) (m : Mem) (this another : MusicalTree)
    (same : Bool) : Except Err (MusicalTree × Mem) :=
  if same then .ok (this, m)
  else do
    let h1 ← DeleteNodeRecursively fuel m.heap this.root_
    let c ← CopyNode K fuel w { m with heap := h1 } another.root_
    pure ({ root_ := c.1, size_ := another.size_, verbose_ := another.verbose_ }, c.2)

/-! ## Abstract trees and the heap shapes that hold them -/

/-- A finite tree of nodes: address, motif, fitness score and child subtrees in
child-list order. -/
inductive MTree where
  | node (id : Nat) (motif : List Note) (fit : Dbl) (kids : List MTree)

namespace MTree

/-- Address of the root of the tree. -/
def id : MTree → Nat
  | node i _ _ _ => i

/-- Motif stored at the root. -/
def motif : MTree → List Note
  | node _ m _ _ => m

/-- Fitness score stored at the root. -/
def fit : MTree → Dbl
  | node _ _ f _ => f

/-- Child subtrees of the root. -/
def kids : MTree → List MTree
  | node _ _ _ cs => cs

mutual
/-- All nodes of a tree in preorder, as (address, motif, fitness). -/
def nodes : MTree → List (Nat × List Note × Dbl)
  | node i m f cs => (i, m, f) :: nodesL cs
/-- All nodes of a list of trees, tree after tree. -/
def nodesL : List MTree → List (Nat × List Note × Dbl)
  | [] => []
  | c :: cs => nodes c ++ nodesL cs
end

/-- Addresses of all nodes of a tree, in preorder. -/
def ids (t : MTree) : List Nat := (nodes t).map Prod.fst

/-- Addresses of all nodes of a list of trees. -/
def idsL (l : List MTree) : List Nat := (nodesL l).map Prod.fst

/-- Number of nodes of a tree. -/
def size (t : MTree) : Nat := (nodes t).length

/-- Number of nodes whose fitness is below the threshold. -/
def countBelow (thr : Dbl) (t : MTree) : Nat :=
  ((nodes t).filter (fun x => decide (x.2.2 < thr))).length

mutual
/-- Preorder concatenation of the motifs of a tree. -/
def melody : MTree → List Note
  | node _ m _ cs => m ++ melodyL cs
/-- Concatenation of the melodies of a list of trees. -/
def melodyL : List MTree → List Note
  | [] => []
  | c :: cs => melody c ++ melodyL cs
end

mutual
/-- What `PruneNodes` leaves in place of a subtree that hangs below a parent:
nothing, the subtree with its root kept, or the surviving last child that
adopted its former siblings. -/
def pruneSub (thr : Dbl) : MTree → Option MTree
  | node i m f cs =>
    if f < thr then
      match (keptKids thr cs ++ movedKids thr cs).getLast? with
      | none => none
      | some l => some (node l.id l.motif l.fit
          (l.kids ++ (keptKids thr cs ++ movedKids thr cs).dropLast))
    else some (node i m f (keptKids thr cs ++ movedKids thr cs))
/-- The children that stay at their place in the parent's child list. -/
def keptKids (thr : Dbl) : List MTree → List MTree
  | [] => []
  | c :: cs =>
    if c.fit < thr then keptKids thr cs else (pruneSub thr c).toList ++ keptKids thr cs
/-- The survivors appended to the end of the parent's child list. -/
def movedKids (thr : Dbl) : List MTree → List MTree
  | [] => []
  | c :: cs =>
    if c.fit < thr then (pruneSub thr c).toList ++ movedKids thr cs else movedKids thr cs
end

/-- The tree that `PruneNodes(root_, thr)` leaves behind. -/
def pruneRoot (thr : Dbl) : MTree → MTree
  | node i m f cs =>
    if f < thr then
      match (keptKids thr cs ++ movedKids thr cs).getLast? with
      | none => node i m f []
      | some l => node l.id l.motif l.fit
          (l.kids ++ (keptKids thr cs ++ movedKids thr cs).dropLast)
    else node i m f (keptKids thr cs ++ movedKids thr cs)

end MTree

/-- The heap holds the tree `t` below parent pointer `p`: the record at the root
address carries the motif, the fitness, parent `p` and the addresses of the
child subtrees in order, and every child subtree is held below the root. -/
inductive TreeAt (h : Heap) : Option Nat → MTree → Prop
  | mk (p : Option Nat) (i : Nat) (m : List Note) (f : Dbl) (cs : List MTree) :
      h i = some { motif_ := m, parent_ := p, children_ := cs.map MTree.id,
                   fitness_score_ := f } →
      (∀ c ∈ cs, TreeAt h (some i) c) →
      TreeAt h p (MTree.node i m f cs)

/-- The parent chain starting at pointer `a` visits exactly the live addresses
`l` and ends at `nullptr`. -/
inductive Chain (h : Heap) : Option Nat → List Nat → Prop
  | nil : Chain h none []
  | cons (a : Nat) (nd : MotifNode) (l : List Nat) :
      h a = some nd → Chain h nd.parent_ l → Chain h (some a) (a :: l)

/-- The tree object `tr` owns the well-formed tree `t` in heap `h`: the heap
holds `t` at `root_` below an absent parent (so every child's parent reference
points to the node listing it) and no address occurs twice in `t`. -/
def HoldsTree (h : Heap) (tr : MusicalTree) (t : MTree) : Prop :=
  TreeAt h none t ∧ tr.root_ = some t.id ∧ t.ids.Nodup

/-- Node `b` is listed in the child list of the live node `a`. -/
def Child (h : Heap) (a b : Nat) : Prop :=
  ∃ nd, h a = some nd ∧ b ∈ nd.children_

/-- Node `b` is reachable from `a` by following child lists. -/
def Reach (h : Heap) (a b : Nat) : Prop := Relation.ReflTransGen (Child h) a b

/-- Node `b` is a proper descendant of `a`. -/
def Descendant (h : Heap) (a b : Nat) : Prop := Relation.TransGen (Child h) a b

/-! ## Back-reference consistency and sample heaps -/

/-- Back-reference consistency of a heap: (i) every node with a parent is
listed exactly once in that parent's child list, and (ii) every child listed
by a node names that node as its parent. -/
def BackRef (h : Heap) : Prop :=
  (∀ n nd p, h n = some nd → nd.parent_ = some p →
      ∃ pd, h p = some pd ∧ pd.children_.count n = 1) ∧
  (∀ p pd c, h p = some pd → c ∈ pd.children_ →
      ∃ cd, h c = some cd ∧ cd.parent_ = some p)

/-- A sample node whose motif is the single note of pitch `60 + i`. -/
def exNode (i : Nat) (p : Option Nat) (cs : List Nat) (f : Dbl) : MotifNode :=
  { motif_ := [{ pitch := 60 + (i : Int), duration := 1 / 2 }], parent_ := p,
    children_ := cs, fitness_score_ := f }

/-- A sample heap: the tree `0 → [1 → [3, 4], 2]` and a detached node `5`. -/
def exHeap : Heap := fun i =>
  match i with
  | 0 => some (exNode 0 none [1, 2] 5)
  | 1 => some (exNode 1 (some 0) [3, 4] 5)
  | 2 => some (exNode 2 (some 0) [] 50)
  | 3 => some (exNode 3 (some 1) [] 50)
  | 4 => some (exNode 4 (some 1) [] 5)
  | 5 => some (exNode 5 none [] 70)
  | _ => none

/-- The tree held by `exHeap` at address `0`. -/
def exTree : MTree :=
  .node 0 [{ pitch := 60, duration := 1 / 2 }] 5
    [.node 1 [{ pitch := 61, duration := 1 / 2 }] 5
      [.node 3 [{ pitch := 63, duration := 1 / 2 }] 50 [],
       .node 4 [{ pitch := 64, duration := 1 / 2 }] 5 []],
     .node 2 [{ pitch := 62, duration := 1 / 2 }] 50 []]

/-- The tree object owning `exTree`. -/
def exObj : MusicalTree := { root_ := some 0, size_ := 5, verbose_ := false }

/-- The parent reference stored at address `n` (absent for a dead address). -/
def parOf (h : Heap) (n : Nat) : Option Nat :=
  match h n with
  | some nd => nd.parent_
  | none => none

/-- The child list stored at address `p` (empty for a dead address). -/
def kidsOf (h : Heap) (p : Nat) : List Nat :=
  match h p with
  | some pd => pd.children_
  | none => []

/-- Three freshly constructed nodes `0`, `1`, `2`: parentless and childless. -/
def freshHeap : Heap := fun i =>
  if i < 3 then some (exNode i none [] 50) else none

namespace MTree

mutual
/-- The tree built by `CopyNode` when the next free address is `a`: the same
motifs, fitness scores and child order, at the addresses `new` hands out in
preorder. -/
def relabel : Nat → MTree → MTree
  | a, node _ m f cs => node a m f (relabelL (a + 1) cs)
/-- Copies of a list of trees at consecutive address ranges. -/
def relabelL : Nat → List MTree → List MTree
  | _, [] => []
  | a, c :: cs => relabel a c :: relabelL (a + c.size) cs
end

mutual
/-- Shape and content of a tree with the addresses forgotten. -/
def shape : MTree → MTree
  | node _ m f cs => node 0 m f (shapeL cs)
/-- Shapes of a list of trees. -/
def shapeL : List MTree → List MTree
  | [] => []
  | c :: cs => shape c :: shapeL cs
end

end MTree

/-- No address from `next` on is live: `new` always returns a free address. -/
def Fresh (m : Mem) : Prop := ∀ i, m.next ≤ i → m.heap i = none

/-- Sample pitch-range constants. -/
def exConsts : PitchConsts :=
  { kMinAcceptablePitch := 40, kMaxAcceptablePitch := 90,
    kExtrMinAcceptablePitch := 20, kExtrMaxAcceptablePitch := 110 }

/-- The sample heap as process memory, with `6` the next free address. -/
def exMem (r : Nat → Nat) : Mem := { heap := exHeap, next := 6, rng := r }

/-- What it means for the tree object `tr'` with tree `t'` to be a deep copy of
`another` with tree `t` in heap `h`: both trees are held and well-formed, they
have the same shape and content, they share no address, `size_` and `verbose_`
are copied, and `GenerateMelody` and `CountNodes` agree on the two. -/
def IsDeepCopy (fuel : Nat) (h : Heap) (tr' another : MusicalTree) (t' t : MTree) : Prop :=
  HoldsTree h tr' t' ∧ HoldsTree h another t ∧ t'.shape = t.shape ∧
  (∀ x ∈ t'.ids, x ∉ t.ids) ∧
  tr'.size_ = another.size_ ∧ tr'.verbose_ = another.verbose_ ∧
  GenerateMelody fuel h tr' = .ok (h, t.melody) ∧
  GenerateMelody fuel h another = .ok (h, t.melody) ∧
  CountNodes fuel h tr'.root_ = .ok (t.size : Int) ∧
  CountNodes fuel h another.root_ = .ok (t.size : Int)

/-! ## Well-formedness stated on the heap alone -/

/-- Node `b` is reached from `a` by following child lists exactly `n` times. -/
inductive ReachIn (h : Heap) : Nat → Nat → Nat → Prop
  | zero (a : Nat) : ReachIn h 0 a a
  | succ {n a b c : Nat} : ReachIn h n a b → Child h b c → ReachIn h (n + 1) a c

/-- The tree rooted at `r` is well-formed: the root is live and parentless,
every child listed by a reachable node is live and names that node as its
parent, no reachable node lists a child twice, and every path of child links
from the root is shorter than some bound (the tree is finite and acyclic). -/
def WellFormed (h : Heap) (r : Nat) : Prop :=
  (∃ rd, h r = some rd ∧ rd.parent_ = none) ∧
  (∀ x c, Reach h r x → Child h x c → ∃ cd, h c = some cd ∧ cd.parent_ = some x) ∧
  (∀ x nd, Reach h r x → h x = some nd → nd.children_.Nodup) ∧
  (∃ N, ∀ n x, ReachIn h n r x → n < N)

/-- The tree read off the heap at address `x`, down to depth `k`. -/
def buildTree : Nat → Heap → Nat → MTree
  | 0, _, x => .node x [] 0 []
  | k + 1, h, x =>
    match h x with
    | none => .node x [] 0 []
    | some nd => .node x nd.motif_ nd.fitness_score_ (nd.children_.map (buildTree k h))

end MusicTree

namespace MusicTree

/-! ## musical_tree.cc: selection, mutation and the generation loop

The trace output written to `cout` (and the flag `is_first_call` that only
steers it) is left out.  `RAND_MAX` is the constant of `<cstdlib>` and is a
parameter. -/

/-- Model of `MusicalTree::TraverseAndSelect`.  The state is the heap (never
written, returned so that this is visible), the vector `selected_nodes` and the
random stream.  The quotients, `std::max` and the comparison are those of
`double`; `0.10` is the double nearest to one tenth, and `rand()` and `RAND_MAX`
are converted to `double`. -/
def TraverseAndSelect (RAND_MAX : Nat) : Nat → Option Nat → Heap × List Nat × (Nat → Nat) →
    Except Err (Heap × List Nat × (Nat → Nat))
  | _, none, st => .ok st
  | 0, some _, _ => .error .out_of_fuel
  | fuel + 1, some n, st =>
    match st.1 n with
    | none => .error .null_deref
    | some nd =>
      let fitness_score := nd.fitness_score_
      let selection_prob : Dbl := Dbl.max (Dbl.div fitness_score (.fin 100)) (rnd (1 / 10))
      let d := rand st.2.2
      let random_prob : Dbl := Dbl.div (rnd (d.1 : ℚ)) (rnd (RAND_MAX : ℚ))
      let selected_nodes := if random_prob < selection_prob then st.2.1 ++ [n] else st.2.1
      nd.children_.foldlM (fun s child => TraverseAndSelect RAND_MAX fuel (some child) s)
        (st.1, selected_nodes, d.2)

/-- The loop of `MutateMotif` over the notes still to be read, with the vector
`mutated_motif` built so far.  `new_pitch` is an `int`: the sum is wrapped to 32
bits before it is clamped. -/
def mutateLoop : List Note → List Note → (Nat → Nat) → List Note × (Nat → Nat)
  | [], mutated_motif, r => (mutated_motif, r)
  | note :: rest, mutated_motif, r =>
    let d1 := rand r
    let new_pitch : Int := toInt32 (note.pitch + (((d1.1 % 5 : Nat) : Int) - 2))
    let d2 := rand d1.2
    let new_duration : ℚ := note.duration + ((((d2.1 % 21 : Nat) : Int) - 10 : Int) : ℚ) / 100
    let new_pitch1 : Int := max 0 (min new_pitch 127)
    let new_duration1 : ℚ := max (1 / 10) (min new_duration (7 / 10))
    mutateLoop rest (mutated_motif ++ [{ pitch := new_pitch1, duration := new_duration1 }]) d2.2

/-- Model of `MusicalTree::MutateMotif`: the mutated motif and the random stream
left over. -/
def MutateMotif (motif : List Note) (r : Nat → Nat) : List Note × (Nat → Nat) :=
  mutateLoop motif [] r

/-- The seed motif of the constructor. -/
def initial_motif : List Note :=
  [{ pitch := 50, duration := 1 / 10 }, { pitch := 78, duration := 7 / 10 },
   { pitch := 84, duration := 7 / 10 }, { pitch := 61, duration := 2 / 5 },
   { pitch := 67, duration := 1 / 10 }, { pitch := 78, duration := 1 / 10 }]

/-- Model of the constructor `MusicalTree(bool verbose)`. -/
def construct (K : PitchConsts) (m : Mem) (verbose : Bool) : Mem × MusicalTree :=
  let a := newMotifNode K m initial_motif
  (a.2, { root_ := some a.1, size_ := 1, verbose_ := verbose })

/-- One round of the pre-evolve phase of `GeneticAlgorithm`: select, then for
every selected node mutate its motif and attach the mutated motif as a new
child.  `size_` is not touched. -/
def preEvolveRound (K : PitchConsts) (RAND_MAX fuel w : Nat) (s : Mem × MusicalTree) :
    Except Err (Mem × MusicalTree) := do
  let sel ← TraverseAndSelect RAND_MAX fuel s.2.root_ (s.1.heap, [], s.1.rng)
  sel.2.1.foldlM
    (fun s node =>
      match s.1.heap node with
      | none => .error .null_deref
      | some nd => do
        let mutated_motif := MutateMotif (GetMotif nd) s.1.rng
        let ptr := newMotifNode K { s.1 with rng := mutated_motif.2 } mutated_motif.1
        let h ← liftH (AddChildNode w ptr.2.heap node (some ptr.1))
        pure ({ ptr.2 with heap := h }, s.2))
    ({ s.1 with heap := sel.1, rng := sel.2.2 }, s.2)

/-- One round of the main evolution loop of `GeneticAlgorithm`: as in the
pre-evolve phase, with `size_++` for every selected node. -/
def evolveRound (K : PitchConsts) (RAND_MAX fuel w : Nat) (s : Mem × MusicalTree) :
    Except Err (Mem × MusicalTree) := do
  let sel ← TraverseAndSelect RAND_MAX fuel s.2.root_ (s.1.heap, [], s.1.rng)
  sel.2.1.foldlM
    (fun s node =>
      match s.1.heap node with
      | none => .error .null_deref
      | some nd => do
        let mutated_motif := MutateMotif (GetMotif nd) s.1.rng
        let tr1 : MusicalTree := { s.2 with size_ := s.2.size_ + 1 }
        let ptr := newMotifNode K { s.1 with rng := mutated_motif.2 } mutated_motif.1
        let h ← liftH (AddChildNode w ptr.2.heap node (some ptr.1))
        pure ({ ptr.2 with heap := h }, tr1))
    ({ s.1 with heap := sel.1, rng := sel.2.2 }, s.2)

/-- The two prune loops of `GeneticAlgorithm`,
`while (size_ > b) { PruneNodes(root_, prune); size_ = CountNodes(root_); prune += step; }`,
with `b = 200`, `step = 1.0` in a generation and `b = 2`, `step = 0.01` at the
end.  The first argument bounds the number of tests of the loop condition.  The
threshold is kept as an exact rational and `prune += step` is exact. -/
def pruneWhile (b : Int) (step : ℚ) : Nat → Nat → Nat → Heap × MusicalTree → ℚ →
    Except Err ((Heap × MusicalTree) × ℚ)
  | 0, _, _, _, _ => .error .out_of_fuel
  | k + 1, fuel, w, st, prune =>
    if st.2.size_ > b then do
      let st1 ← PruneNodes fuel w st st.2.root_ (.fin prune)
      let c ← CountNodes fuel st1.1 st1.2.root_
      pruneWhile b step k fuel w (st1.1, { st1.2 with size_ := c }) (prune + step)
    else .ok (st, prune)

/-- Model of `MusicalTree::GeneticAlgorithm`.  `k` bounds the passes of each
prune loop, `fuel` the depth of every recursion over the tree, `w` every
ancestor walk. -/
def GeneticAlgorithm (K : PitchConsts) (RAND_MAX k fuel w : Nat) (s : Mem × MusicalTree)
    (numGenerations : Int) : Except Err (Mem × MusicalTree) := do
  let s1 ← (List.range 4).foldlM (fun s _ => preEvolveRound K RAND_MAX fuel w s) s
  let g ← (List.range numGenerations.toNat).foldlM
    (fun (g : (Mem × MusicalTree) × ℚ) _ => do
      let s2 ← (List.range 4).foldlM (fun s _ => evolveRound K RAND_MAX fuel w s) g.1
      let p ← pruneWhile 200 1 k fuel w (s2.1.heap, s2.2) 10
      pure (({ s2.1 with heap := p.1.1 }, p.1.2), p.2))
    (s1, 10)
  let f ← pruneWhile 2 (1 / 100) k fuel w (g.1.1.heap, g.1.2) g.2
  pure ({ g.1.1 with heap := f.1.1 }, f.1.2)

/-! ## Descriptions used by the statements -/

/-- The fitness score that `CalculateFitnessScore` computes from the harmonic
score `raw`. -/
def rescale (raw : Int) : Dbl :=
  Dbl.mul (Dbl.div (.fin ((raw : ℚ) - (-100))) (.fin (100 - (-100)))) (.fin 100)

/-- The test of the claim on `TraverseAndSelect`, evaluated as the code
evaluates it, in `double`: `draw / RAND_MAX < max(fitness / 100, 0.10)`. -/
def drawBelow (RAND_MAX draw : Nat) (fitness : Dbl) : Bool :=
  decide (Dbl.div (rnd (draw : ℚ)) (rnd (RAND_MAX : ℚ)) <
    Dbl.max (Dbl.div fitness (.fin 100)) (rnd (1 / 10)))

/-- The selection the claim on `TraverseAndSelect` describes, for the nodes of a
tree listed in preorder: the `i`-th node gets the `i`-th draw of the stream and
is kept when `draw / RAND_MAX` is strictly below `max(fitness / 100, 0.10)`; the
kept addresses are listed in the order of the nodes. -/
def selectSpec (RAND_MAX : Nat) (r : Nat → Nat) (nodes : List (Nat × List Note × Dbl)) :
    List Nat :=
  nodes.enum.filterMap (fun p =>
    if drawBelow RAND_MAX (r p.1) p.2.2.2 then some p.2.1 else none)

/-- The same test read over the reals, for a finite fitness `f`:
`draw / RAND_MAX < max(f / 100, 1 / 10)` without any rounding. -/
def drawBelowExact (RAND_MAX draw : Nat) (f : ℚ) : Bool :=
  decide ((draw : ℚ) / (RAND_MAX : ℚ) < max (f / 100) (1 / 10))

/-- The random stream on which every call of `rand()` returns `0`. -/
def zeroStream : Nat → Nat := fun _ => 0

/-- An empty heap, with address `0` handed out next, on the stream `r`. -/
def emptyMem (r : Nat → Nat) : Mem := { heap := fun _ => none, next := 0, rng := r }

/-- Every live node is as its constructor leaves it: parentless and childless. -/
def FreshNodes (h : Heap) : Prop :=
  ∀ n nd, h n = some nd → nd.parent_ = none ∧ nd.children_ = []

/-- The heap after a sequence of calls `self->AddChildNode(c)`; a call that
throws leaves the heap as it was at the throw. -/
def attachSeq (w : Nat) : Heap → List (Nat × Option Nat) → Heap
  | h, [] => h
  | h, call :: rest =>
    match AddChildNode w h call.1 call.2 with
    | .ok h' => attachSeq w h' rest
    | .error e => attachSeq w e.2 rest

/-- In the tree, node `x` (if present) has fitness below `thr` and at least one
child, and every other node has fitness at least `thr`. -/
inductive OnlyBad (thr : Dbl) (x : Nat) : MTree → Prop
  | mk (i : Nat) (m : List Note) (f : Dbl) (cs : List MTree) :
      (i = x → f < thr ∧ cs ≠ []) → (i ≠ x → thr ≤ f) →
      (∀ c ∈ cs, OnlyBad thr x c) → OnlyBad thr x (MTree.node i m f cs)

/-- A sample heap with a root of fitness `50` and one child whose fitness was
set to NaN (`SetFitnessScore` is public and takes any `double`). -/
def nanHeap : Heap := fun i =>
  match i with
  | 0 => some (exNode 0 none [1] 50)
  | 1 => some (exNode 1 (some 0) [] .nan)
  | _ => none

/-- The tree object owning the tree of `nanHeap`. -/
def nanObj : MusicalTree := { root_ := some 0, size_ := 2, verbose_ := false }

/-- The tree held by `nanHeap` at address `0`. -/
def nanTree : MTree :=
  .node 0 [{ pitch := 60, duration := 1 / 2 }] 50
    [.node 1 [{ pitch := 61, duration := 1 / 2 }] .nan []]

/-- A second sample heap: the tree `0 → [1 → [3, 4], 2]` in which only node `1`
has a low fitness. -/
def exHeap2 : Heap := fun i =>
  match i with
  | 0 => some (exNode 0 none [1, 2] 50)
  | 1 => some (exNode 1 (some 0) [3, 4] 5)
  | 2 => some (exNode 2 (some 0) [] 50)
  | 3 => some (exNode 3 (some 1) [] 50)
  | 4 => some (exNode 4 (some 1) [] 60)
  | _ => none

/-- The tree held by `exHeap2` at address `0`. -/
def exTree2 : MTree :=
  .node 0 [{ pitch := 60, duration := 1 / 2 }] 50
    [.node 1 [{ pitch := 61, duration := 1 / 2 }] 5
      [.node 3 [{ pitch := 63, duration := 1 / 2 }] 50 [],
       .node 4 [{ pitch := 64, duration := 1 / 2 }] 60 []],
     .node 2 [{ pitch := 62, duration := 1 / 2 }] 50 []]

namespace MTree

/-- What the claim on re-parenting says takes the place of a pruned node with
children `c1..ck`: the last child `ck`, whose child list is its former children
followed by `c1..c(k-1)`. -/
def survivorOf : MTree → MTree
  | node i m f cs =>
    match cs.getLast? with
    | none => node i m f cs
    | some ck => node ck.id ck.motif ck.fit (ck.kids ++ cs.dropLast)

mutual
/-- The re-parenting of node `x` in a tree whose root is another node: the
parent of `x` loses `x` from its child list and gets the survivor appended at
the end; everything else stays. -/
def reparentBelow (x : Nat) : MTree → MTree
  | node i m f cs =>
    match cs.find? (fun c => c.id == x) with
    | some X => node i m f (cs.filter (fun c => c.id != x) ++ [survivorOf X])
    | none => node i m f (reparentBelowL x cs)
/-- Re-parenting of `x` within a list of subtrees. -/
def reparentBelowL (x : Nat) : List MTree → List MTree
  | [] => []
  | c :: cs => reparentBelow x c :: reparentBelowL x cs
end

/-- The tree the claim on re-parenting describes after node `x` was pruned. -/
def reparent (x : Nat) (t : MTree) : MTree :=
  if t.id = x then survivorOf t else reparentBelow x t

end MTree

end MusicTree

namespace MusicTree

/-! ## Heap updates -/

@[simp] theorem Heap.set_same (h : Heap) (i : Nat) (nd : MotifNode) : (h.set i nd) i = some nd := by
  simp [Heap.set]

@[simp] theorem Heap.set_ne (h : Heap) {i j : Nat} (nd : MotifNode) (hne : j ≠ i) :
    (h.set i nd) j = h j := by
  simp [Heap.set, hne]

@[simp] theorem Heap.free_same (h : Heap) (i : Nat) : (h.free i) i = none := by
  simp [Heap.free]

@[simp] theorem Heap.free_ne (h : Heap) {i j : Nat} (hne : j ≠ i) : (h.free i) j = h j := by
  simp [Heap.free, hne]

/-! ## The ancestor walk -/

theorem Chain.head_mem {h : Heap} {a : Nat} {l : List Nat} (hc : Chain h (some a) l) : a ∈ l := by
  cases hc; simp

theorem onParentChain_not_mem {h : Heap} {c : Nat} :
    ∀ {a : Option Nat} {l : List Nat}, Chain h a l → c ∉ l → ∀ w, l.length ≤ w →
      onParentChain w h a c = .ok false := by
  intro a l hc
  induction hc with
  | nil => intro _ w _; cases w <;> rfl
  | cons a nd l ha _ ih =>
    intro hnot w hw
    cases w with
    | zero => simp at hw
    | succ k =>
      have hne : a ≠ c := by
        intro e; apply hnot; simp [e]
      have hnot2 : c ∉ l := fun hm => hnot (List.mem_cons_of_mem _ hm)
      have hk : l.length ≤ k := by simpa using hw
      simp [onParentChain, hne, ha, ih hnot2 k hk]

theorem onParentChain_mem {h : Heap} {c : Nat} :
    ∀ {a : Option Nat} {l : List Nat}, Chain h a l → c ∈ l → ∀ w, l.length ≤ w →
      onParentChain w h a c = .ok true := by
  intro a l hc
  induction hc with
  | nil => intro hm; cases hm
  | cons a nd l ha _ ih =>
    intro hm w hw
    cases w with
    | zero => simp at hw
    | succ k =>
      by_cases e : a = c
      · simp [onParentChain, e]
      · have hm2 : c ∈ l := by
          rcases List.mem_cons.mp hm with h1 | h1
          · exact absurd h1.symm e
          · exact h1
        have hk : l.length ≤ k := by simpa using hw
        simp [onParentChain, e, ha, ih hm2 k hk]

theorem Chain.congr {h h' : Heap} :
    ∀ {a : Option Nat} {l : List Nat}, Chain h a l →
      (∀ x ∈ l, ∀ nd, h x = some nd → ∃ nd', h' x = some nd' ∧ nd'.parent_ = nd.parent_) →
      Chain h' a l := by
  intro a l hc
  induction hc with
  | nil => intro _; exact Chain.nil
  | cons a nd l ha _ ih =>
    intro hx
    obtain ⟨nd', h1, h2⟩ := hx a (by simp) nd ha
    refine Chain.cons a nd' l h1 ?_
    rw [h2]
    exact ih (fun x hm => hx x (List.mem_cons_of_mem _ hm))

end MusicTree

namespace MusicTree

/-! ## Node operations -/

theorem AddChildNode_ok {w : Nat} {h : Heap} {self c : Nat} {sd cd : MotifNode} {l : List Nat}
    (hself : h self = some sd) (hc : h c = some cd) (hchain : Chain h (some self) l)
    (hw : l.length ≤ w) (hnew : c ∉ sd.children_) (hcyc : c ∉ l) :
    AddChildNode w h self (some c) =
      .ok ((h.set self { sd with children_ := sd.children_ ++ [c] }).set c
        { cd with parent_ := some self }) := by
  have hne : c ≠ self := fun e => hcyc (e ▸ hchain.head_mem)
  simp [AddChildNode, hself, hnew, onParentChain_not_mem hchain hcyc w hw, hne, hc]

theorem RemoveChildNode_ok {h : Heap} {self n : Nat} {sd nd : MotifNode}
    (hself : h self = some sd) (hn : h n = some nd) (hne : n ≠ self) (hmem : n ∈ sd.children_) :
    RemoveChildNode h self (some n) =
      .ok ((h.set self { sd with children_ := sd.children_.erase n }).set n
        { nd with parent_ := none }, true) := by
  simp [RemoveChildNode, hself, hmem, hne, hn]

theorem replaceFirst_eq_set (old new : Nat) (l : List Nat) :
    replaceFirst old new l = l.set (l.indexOf old) new := by
  induction l with
  | nil => simp [replaceFirst]
  | cons x xs ih =>
    by_cases e : x = old
    · simp [replaceFirst, e]
    · simp [replaceFirst, e, List.indexOf_cons_ne _ e, ih]

/-- C5 (as amended): contract of `AddChildNode` on a live node whose parent
chain `l` (the node itself and its ancestors) ends at `nullptr`, given fuel `w`
for the whole walk: it returns, and it throws `invalid_argument`
exactly when the new child is null, already listed, or on the chain; a throw
leaves the heap as it was; otherwise the child is appended to the child list,
its parent becomes the node, and nothing else changes. -/
theorem AddChildNode_contract (w : Nat) (h : Heap) (self : Nat) (sd : MotifNode) (l : List Nat)
    (new_child : Option Nat)
    (hself : h self = some sd) (hchain : Chain h (some self) l) (hw : l.length ≤ w)
    (hlive : ∀ c, new_child = some c → ∃ cd, h c = some cd) :
    ((∃ h', AddChildNode w h self new_child = .error (.invalid_argument, h')) ↔
        (new_child = none ∨ ∃ c, new_child = some c ∧ (c ∈ sd.children_ ∨ c ∈ l))) ∧
    (∀ e h', AddChildNode w h self new_child = .error (e, h') →
        e = .invalid_argument ∧ h' = h) ∧
    (∀ c, new_child = some c → c ∉ sd.children_ → c ∉ l →
        ∃ cd h', h c = some cd ∧ AddChildNode w h self new_child = .ok h' ∧
          h' self = some { sd with children_ := sd.children_ ++ [c] } ∧
          h' c = some { cd with parent_ := some self } ∧
          ∀ x, x ≠ self → x ≠ c → h' x = h x) := by
  cases new_child with
  | none => simp [AddChildNode]
  | some c =>
    obtain ⟨cd, hc⟩ := hlive c rfl
    by_cases h1 : c ∈ sd.children_
    · simp [AddChildNode, hself, h1]
    · by_cases h2 : c ∈ l
      · simp [AddChildNode, hself, h1, h2, onParentChain_mem hchain h2 w hw]
      · have hne : c ≠ self := fun e => h2 (e ▸ hchain.head_mem)
        rw [AddChildNode_ok hself hc hchain hw h1 h2]
        refine ⟨by simp [h1, h2], by simp, ?_⟩
        intro c' hc' _ _
        cases hc'
        refine ⟨cd, _, hc, rfl, ?_, ?_, ?_⟩
        · simp [Heap.set_ne _ _ hne.symm]
        · simp
        · intro x hx1 hx2
          simp [Heap.set_ne _ _ hx1, Heap.set_ne _ _ hx2]

end MusicTree

namespace MusicTree

theorem exHeap_cases (n : Nat) (nd : MotifNode) (hn : exHeap n = some nd) :
    (n = 0 ∧ nd = exNode 0 none [1, 2] 5) ∨ (n = 1 ∧ nd = exNode 1 (some 0) [3, 4] 5) ∨
    (n = 2 ∧ nd = exNode 2 (some 0) [] 50) ∨ (n = 3 ∧ nd = exNode 3 (some 1) [] 50) ∨
    (n = 4 ∧ nd = exNode 4 (some 1) [] 5) ∨ (n = 5 ∧ nd = exNode 5 none [] 70) := by
  match n, hn with
  | 0, hn => simp [exHeap] at hn; simp [hn]
  | 1, hn => simp [exHeap] at hn; simp [hn]
  | 2, hn => simp [exHeap] at hn; simp [hn]
  | 3, hn => simp [exHeap] at hn; simp [hn]
  | 4, hn => simp [exHeap] at hn; simp [hn]
  | 5, hn => simp [exHeap] at hn; simp [hn]
  | k + 6, hn => simp [exHeap] at hn

theorem exHeap_backRef : BackRef exHeap := by
  constructor
  · intro n nd p hn hp
    rcases exHeap_cases n nd hn with ⟨rfl, rfl⟩ | ⟨rfl, rfl⟩ | ⟨rfl, rfl⟩ | ⟨rfl, rfl⟩ |
      ⟨rfl, rfl⟩ | ⟨rfl, rfl⟩ <;> simp [exNode] at hp <;> subst hp <;>
      simp [exHeap, exNode]
  · intro p pd c hp hc
    rcases exHeap_cases p pd hp with ⟨rfl, rfl⟩ | ⟨rfl, rfl⟩ | ⟨rfl, rfl⟩ | ⟨rfl, rfl⟩ |
      ⟨rfl, rfl⟩ | ⟨rfl, rfl⟩ <;> simp [exNode] at hc <;>
      (try rcases hc with rfl | rfl) <;> simp [exHeap, exNode]

end MusicTree

namespace MusicTree

/-- C8 (as amended): contract of `ReplaceChildNode` on a live node with live
arguments.  It throws `invalid_argument` exactly when an argument is null; when
the old child is not listed it returns false and changes nothing; when the old
child is listed and differs from the new child it returns true, the child list
is the old list with the first occurrence of the old child overwritten by the
new child at the same position, the new child's parent is the node and the old
child's parent is absent. -/
theorem ReplaceChildNode_contract (h : Heap) (self : Nat) (sd : MotifNode)
    (new_child old_child : Option Nat)
    (hself : h self = some sd)
    (hlive : ∀ c, new_child = some c ∨ old_child = some c → ∃ cd, h c = some cd) :
    ((∃ h', ReplaceChildNode h self new_child old_child = .error (.invalid_argument, h')) ↔
        (new_child = none ∨ old_child = none)) ∧
    (∀ nc oc, new_child = some nc → old_child = some oc → oc ∉ sd.children_ →
        ReplaceChildNode h self new_child old_child = .ok (h, false)) ∧
    (∀ nc oc, new_child = some nc → old_child = some oc → oc ∈ sd.children_ → nc ≠ oc →
        ∃ h', ReplaceChildNode h self new_child old_child = .ok (h', true) ∧
          (∃ nd, h' self = some nd ∧
            nd.children_ = sd.children_.set (sd.children_.indexOf oc) nc) ∧
          (∃ nd, h' nc = some nd ∧ nd.parent_ = some self) ∧
          (∃ nd, h' oc = some nd ∧ nd.parent_ = none)) := by
  cases new_child with
  | none => simp [ReplaceChildNode]
  | some nc =>
    cases old_child with
    | none => simp [ReplaceChildNode]
    | some oc =>
      obtain ⟨nd, hnc⟩ := hlive nc (Or.inl rfl)
      obtain ⟨od, hoc⟩ := hlive oc (Or.inr rfl)
      by_cases hmem : oc ∈ sd.children_
      · refine ⟨?_, ?_, ?_⟩
        · simp only [ReplaceChildNode, hself, hmem, if_true]
          by_cases e1 : nc = self
          · by_cases e2 : oc = nc
            · simp [e1, e2]
            · simp [e1]
              have : oc ≠ self := by rw [← e1]; exact e2
              simp [Heap.set_ne _ _ this, hoc]
          · simp [Heap.set_ne _ _ e1, hnc]
            by_cases e2 : oc = nc
            · simp [e2]
            · simp [Heap.set_ne _ _ e2]
              by_cases e3 : oc = self
              · simp [e3]
              · simp [Heap.set_ne _ _ e3, hoc]
        · intro nc' oc' h1 h2 h3
          cases h1; cases h2
          exact absurd hmem h3
        · intro nc' oc' h1 h2 _ hne
          cases h1; cases h2
          have hne' : oc ≠ nc := fun e => hne e.symm
          simp only [ReplaceChildNode, hself, hmem, if_true, replaceFirst_eq_set]
          by_cases e1 : nc = self
          · subst e1
            by_cases e3 : oc = nc
            · exact absurd e3 hne'
            · simp [Heap.set_ne _ _ e3, hoc, Heap.set_ne _ _ hne]
          · by_cases e3 : oc = self
            · subst e3
              simp [Heap.set_ne _ _ e1, hnc, Heap.set_ne _ _ hne', Heap.set_ne _ _ hne]
            · simp [Heap.set_ne _ _ e1, hnc, Heap.set_ne _ _ hne', Heap.set_ne _ _ e3, hoc,
                Heap.set_ne _ _ hne, Heap.set_ne _ _ (Ne.symm e3), Heap.set_ne _ _ (Ne.symm e1)]
      · simp [ReplaceChildNode, hself, hmem]

/-- C8 witness: replacing child `2` of node `0` by the detached node `5`. -/
theorem ReplaceChildNode_contract_witness :
    ∃ h', ReplaceChildNode exHeap 0 (some 5) (some 2) = .ok (h', true) ∧
      (∃ nd, h' 0 = some nd ∧ nd.children_ = [1, 5]) ∧
      (∃ nd, h' 5 = some nd ∧ nd.parent_ = some 0) ∧
      (∃ nd, h' 2 = some nd ∧ nd.parent_ = none) := by
  have hlive : ∀ c, some 5 = some c ∨ some 2 = some c → ∃ cd, exHeap c = some cd := by
    intro c hc
    rcases hc with hc | hc <;> cases hc <;> simp [exHeap]
  have key := (ReplaceChildNode_contract exHeap 0 (exNode 0 none [1, 2] 5) (some 5) (some 2)
    rfl hlive).2.2 5 2 rfl rfl (by simp [exNode]) (by decide)
  simpa [exNode, List.indexOf_cons] using key

/-- C8 counterexample: when the new child and the old child are the same listed
node, the call returns true and leaves that node listed but with an absent
parent, so the new child's parent is not the node. -/
theorem ReplaceChildNode_alias_counterexample :
    ∃ h' nd, ReplaceChildNode exHeap 0 (some 1) (some 1) = .ok (h', true) ∧
      h' 1 = some nd ∧ nd.parent_ = none ∧ nd.parent_ ≠ some 0 ∧
      ∃ rd, h' 0 = some rd ∧ 1 ∈ rd.children_ := by
  simp [ReplaceChildNode, exHeap, exNode, replaceFirst, Heap.set]

end MusicTree

namespace MusicTree

theorem backRef_iff (h : Heap) :
    BackRef h ↔ ((∀ n p, parOf h n = some p ↔ n ∈ kidsOf h p) ∧ ∀ p, (kidsOf h p).Nodup) := by
  constructor
  · rintro ⟨h1, h2⟩
    have hB : ∀ n p, parOf h n = some p ↔ n ∈ kidsOf h p := by
      intro n p
      constructor
      · intro hp
        unfold parOf at hp
        cases hn : h n with
        | none => simp [hn] at hp
        | some nd =>
          simp [hn] at hp
          obtain ⟨pd, hpd, hcnt⟩ := h1 n nd p hn hp
          simp only [kidsOf, hpd]
          exact List.count_pos_iff.mp (by omega)
      · intro hm
        unfold kidsOf at hm
        cases hp : h p with
        | none => simp [hp] at hm
        | some pd =>
          simp [hp] at hm
          obtain ⟨cd, hcd, hpar⟩ := h2 p pd n hp hm
          simp [parOf, hcd, hpar]
    refine ⟨hB, ?_⟩
    intro p
    rw [List.nodup_iff_count_le_one]
    intro a
    by_cases ha : a ∈ kidsOf h p
    · have hpa := (hB a p).mpr ha
      unfold parOf at hpa
      cases hn : h a with
      | none => simp [hn] at hpa
      | some nd =>
        simp [hn] at hpa
        obtain ⟨pd, hpd, hcnt⟩ := h1 a nd p hn hpa
        simp [kidsOf, hpd, hcnt]
    · simp [List.count_eq_zero_of_not_mem ha]
  · rintro ⟨hB, hA⟩
    constructor
    · intro n nd p hn hp
      have hm : n ∈ kidsOf h p := (hB n p).mp (by simp [parOf, hn, hp])
      unfold kidsOf at hm
      cases hpd : h p with
      | none => simp [hpd] at hm
      | some pd =>
        simp [hpd] at hm
        refine ⟨pd, rfl, ?_⟩
        have hnd := hA p
        simp only [kidsOf, hpd] at hnd
        exact List.count_eq_one_of_mem hnd hm
    · intro p pd c hp hc
      have hpar : parOf h c = some p := (hB c p).mpr (by simp [kidsOf, hp, hc])
      unfold parOf at hpar
      cases hcd : h c with
      | none => simp [hcd] at hpar
      | some cd =>
        simp [hcd] at hpar
        exact ⟨cd, rfl, hpar⟩

/-- Effect of a successful `AddChildNode` on parent references and child lists. -/
theorem AddChildNode_eff {w : Nat} {h h' : Heap} {self c : Nat}
    (hok : AddChildNode w h self (some c) = .ok h') :
    c ≠ self ∧ c ∉ kidsOf h self ∧
    (∀ n, parOf h' n = if n = c then some self else parOf h n) ∧
    (∀ p, kidsOf h' p = if p = self then kidsOf h self ++ [c] else kidsOf h p) := by
  unfold AddChildNode at hok
  cases hs : h self with
  | none => simp [hs] at hok
  | some sd =>
    simp only [hs] at hok
    by_cases hm : c ∈ sd.children_
    · simp [hm] at hok
    · simp only [hm, if_false] at hok
      have hne : c ≠ self := by
        intro e
        subst e
        cases w <;> simp [onParentChain] at hok
      cases hchain : onParentChain w h (some self) c with
      | error e => simp [hchain] at hok
      | ok b =>
        cases b with
        | true => simp [hchain] at hok
        | false =>
          simp only [hchain, Heap.set_ne _ _ hne] at hok
          cases hc : h c with
          | none => simp [hc] at hok
          | some cd =>
            simp only [hc] at hok
            cases hok
            refine ⟨hne, by simpa [kidsOf, hs] using hm, ?_, ?_⟩
            · intro n
              by_cases e1 : n = c
              · subst e1; simp [parOf]
              · by_cases e2 : n = self
                · subst e2; simp [parOf, Heap.set_ne _ _ e1, hs, e1]
                · simp [parOf, Heap.set_ne _ _ e1, Heap.set_ne _ _ e2, e1]
            · intro p
              by_cases e2 : p = self
              · subst e2; simp [kidsOf, Heap.set_ne _ _ hne.symm, hs]
              · by_cases e1 : p = c
                · subst e1; simp [kidsOf, e2, hc]
                · simp [kidsOf, Heap.set_ne _ _ e1, Heap.set_ne _ _ e2, e2]

/-- Effect of a successful `RemoveChildNode`. -/
theorem RemoveChildNode_eff {h h' : Heap} {self n : Nat} {b : Bool}
    (hok : RemoveChildNode h self (some n) = .ok (h', b)) :
    (n ∉ kidsOf h self ∧ h' = h ∧ b = false) ∨
    (n ∈ kidsOf h self ∧ b = true ∧
      (∀ x, parOf h' x = if x = n then none else parOf h x) ∧
      (∀ p, kidsOf h' p = if p = self then (kidsOf h self).erase n else kidsOf h p)) := by
  unfold RemoveChildNode at hok
  cases hs : h self with
  | none => simp [hs] at hok
  | some sd =>
    simp only [hs] at hok
    by_cases hm : n ∈ sd.children_
    · right
      simp only [hm, if_true] at hok
      by_cases e : n = self
      · subst e
        simp at hok
        obtain ⟨rfl, rfl⟩ := hok
        refine ⟨by simpa [kidsOf, hs] using hm, rfl, ?_, ?_⟩
        · intro x
          by_cases e1 : x = n
          · subst e1; simp [parOf]
          · simp [parOf, Heap.set_ne _ _ e1, e1]
        · intro p
          by_cases e1 : p = n
          · subst e1; simp [kidsOf, hs]
          · simp [kidsOf, Heap.set_ne _ _ e1, e1]
      · simp only [Heap.set_ne _ _ e] at hok
        cases hn : h n with
        | none => simp [hn] at hok
        | some nd =>
          simp [hn] at hok
          obtain ⟨rfl, rfl⟩ := hok
          refine ⟨by simpa [kidsOf, hs] using hm, rfl, ?_, ?_⟩
          · intro x
            by_cases e1 : x = n
            · subst e1; simp [parOf]
            · by_cases e2 : x = self
              · subst e2; simp [parOf, Heap.set_ne _ _ e1, e1, hs]
              · simp [parOf, Heap.set_ne _ _ e1, Heap.set_ne _ _ e2, e1]
          · intro p
            by_cases e2 : p = self
            · subst e2; simp [kidsOf, Heap.set_ne _ _ (Ne.symm e), hs]
            · by_cases e1 : p = n
              · subst e1; simp [kidsOf, e2, hn]
              · simp [kidsOf, Heap.set_ne _ _ e1, Heap.set_ne _ _ e2, e2]
    · left
      simp [hm] at hok
      exact ⟨by simpa [kidsOf, hs] using hm, hok.1.symm, hok.2⟩

end MusicTree

namespace MusicTree

theorem parOf_setParent {h : Heap} {i : Nat} {nd : MotifNode} (v : Option Nat)
    (_hi : h i = some nd) (x : Nat) :
    parOf (h.set i { nd with parent_ := v }) x = if x = i then v else parOf h x := by
  by_cases e : x = i
  · subst e; simp [parOf]
  · simp [parOf, Heap.set_ne _ _ e, e]

theorem kidsOf_setParent {h : Heap} {i : Nat} {nd : MotifNode} (v : Option Nat)
    (hi : h i = some nd) (p : Nat) :
    kidsOf (h.set i { nd with parent_ := v }) p = kidsOf h p := by
  by_cases e : p = i
  · subst e; simp [kidsOf, hi]
  · simp [kidsOf, Heap.set_ne _ _ e]

theorem parOf_setChildren {h : Heap} {i : Nat} {nd : MotifNode} (l : List Nat)
    (hi : h i = some nd) (x : Nat) :
    parOf (h.set i { nd with children_ := l }) x = parOf h x := by
  by_cases e : x = i
  · subst e; simp [parOf, hi]
  · simp [parOf, Heap.set_ne _ _ e]

theorem kidsOf_setChildren {h : Heap} {i : Nat} {nd : MotifNode} (l : List Nat)
    (_hi : h i = some nd) (p : Nat) :
    kidsOf (h.set i { nd with children_ := l }) p = if p = i then l else kidsOf h p := by
  by_cases e : p = i
  · subst e; simp [kidsOf]
  · simp [kidsOf, Heap.set_ne _ _ e, e]

/-- Effect of a successful `ReplaceChildNode`. -/
theorem ReplaceChildNode_eff {h h' : Heap} {self nc oc : Nat} {b : Bool}
    (hok : ReplaceChildNode h self (some nc) (some oc) = .ok (h', b)) :
    (oc ∉ kidsOf h self ∧ h' = h ∧ b = false) ∨
    (oc ∈ kidsOf h self ∧ b = true ∧
      (∀ x, parOf h' x = if x = oc then none else if x = nc then some self else parOf h x) ∧
      (∀ p, kidsOf h' p = if p = self then replaceFirst oc nc (kidsOf h self)
        else kidsOf h p)) := by
  unfold ReplaceChildNode at hok
  cases hs : h self with
  | none => simp [hs] at hok
  | some sd =>
    simp only [hs] at hok
    by_cases hm : oc ∈ sd.children_
    · right
      simp only [hm, if_true] at hok
      generalize hh1 : h.set self { sd with children_ := replaceFirst oc nc sd.children_ } = h1
        at hok
      have hp1 : ∀ x, parOf h1 x = parOf h x := by
        intro x; rw [← hh1]; exact parOf_setChildren _ hs x
      have hk1 : ∀ p, kidsOf h1 p = if p = self then replaceFirst oc nc sd.children_
          else kidsOf h p := by
        intro p; rw [← hh1]; exact kidsOf_setChildren _ hs p
      cases hn : h1 nc with
      | none => simp [hn] at hok
      | some nd =>
        simp only [hn] at hok
        generalize hh2 : h1.set nc { nd with parent_ := some self } = h2 at hok
        have hp2 : ∀ x, parOf h2 x = if x = nc then some self else parOf h1 x := by
          intro x; rw [← hh2]; exact parOf_setParent _ hn x
        have hk2 : ∀ p, kidsOf h2 p = kidsOf h1 p := by
          intro p; rw [← hh2]; exact kidsOf_setParent _ hn p
        cases ho : h2 oc with
        | none => simp [ho] at hok
        | some od =>
          simp [ho] at hok
          obtain ⟨rfl, rfl⟩ := hok
          refine ⟨by simpa [kidsOf, hs] using hm, rfl, ?_, ?_⟩
          · intro x
            rw [parOf_setParent _ ho x, hp2, hp1]
          · intro p
            rw [kidsOf_setParent _ ho p, hk2, hk1]
            simp [kidsOf, hs]
    · left
      simp [hm] at hok
      exact ⟨by simpa [kidsOf, hs] using hm, hok.1.symm, hok.2⟩

theorem replaceFirst_mem_nodup {old new : Nat} :
    ∀ l : List Nat, old ∈ l → new ∉ l → l.Nodup →
      (∀ x, x ∈ replaceFirst old new l ↔ (x = new ∨ (x ∈ l ∧ x ≠ old))) ∧
        (replaceFirst old new l).Nodup := by
  intro l
  induction l with
  | nil => intro h; cases h
  | cons y ys ih =>
    intro hold hnew hnd
    have hy : y ∉ ys := (List.nodup_cons.mp hnd).1
    have hys : ys.Nodup := (List.nodup_cons.mp hnd).2
    have hnew1 : new ≠ y := fun e => hnew (by simp [e])
    have hnew2 : new ∉ ys := fun hm => hnew (List.mem_cons_of_mem _ hm)
    by_cases e : y = old
    · subst e
      simp only [replaceFirst, if_true]
      refine ⟨?_, List.nodup_cons.mpr ⟨hnew2, hys⟩⟩
      intro x
      constructor
      · intro hx
        rcases List.mem_cons.mp hx with h1 | h1
        · exact Or.inl h1
        · exact Or.inr ⟨List.mem_cons_of_mem _ h1, fun e => hy (e ▸ h1)⟩
      · rintro (h1 | ⟨h1, h2⟩)
        · simp [h1]
        · rcases List.mem_cons.mp h1 with h3 | h3
          · exact absurd h3 h2
          · exact List.mem_cons_of_mem _ h3
    · have hold2 : old ∈ ys := by
        rcases List.mem_cons.mp hold with h1 | h1
        · exact absurd h1.symm e
        · exact h1
      obtain ⟨ih1, ih2⟩ := ih hold2 hnew2 hys
      simp only [replaceFirst, e, if_false]
      constructor
      · intro x
        constructor
        · intro hx
          rcases List.mem_cons.mp hx with h1 | h1
          · exact Or.inr ⟨by simp [h1], by rw [h1]; exact e⟩
          · rcases (ih1 x).mp h1 with h2 | ⟨h2, h3⟩
            · exact Or.inl h2
            · exact Or.inr ⟨List.mem_cons_of_mem _ h2, h3⟩
        · rintro (h1 | ⟨h1, h2⟩)
          · exact List.mem_cons_of_mem _ ((ih1 x).mpr (Or.inl h1))
          · rcases List.mem_cons.mp h1 with h3 | h3
            · simp [h3]
            · exact List.mem_cons_of_mem _ ((ih1 x).mpr (Or.inr ⟨h3, h2⟩))
      · refine List.nodup_cons.mpr ⟨?_, ih2⟩
        intro hm
        rcases (ih1 y).mp hm with h1 | ⟨h1, _⟩
        · exact hnew1 h1.symm
        · exact hy h1

end MusicTree

namespace MusicTree

/-- C7 (as amended): back-reference consistency is preserved by every
successful `RemoveChildNode`, and by every successful `AddChildNode` and
`ReplaceChildNode` whose new child has no parent beforehand. -/
theorem backRef_preserved (w : Nat) (h h' : Heap) (self : Nat) (hbr : BackRef h) :
    (∀ c, parOf h c = none → AddChildNode w h self (some c) = .ok h' → BackRef h') ∧
    (∀ nc oc b, parOf h nc = none →
        ReplaceChildNode h self (some nc) (some oc) = .ok (h', b) → BackRef h') ∧
    (∀ n b, RemoveChildNode h self (some n) = .ok (h', b) → BackRef h') := by
  obtain ⟨hB, hA⟩ := (backRef_iff h).mp hbr
  refine ⟨?_, ?_, ?_⟩
  · intro c hpar hok
    obtain ⟨hne, hnk, hp', hk'⟩ := AddChildNode_eff hok
    have hfree : ∀ p, c ∉ kidsOf h p := fun p hm => by
      have := (hB c p).mpr hm
      rw [hpar] at this
      cases this
    rw [backRef_iff]
    constructor
    · intro n p
      rw [hp', hk']
      by_cases e1 : n = c
      · subst e1
        by_cases e2 : p = self
        · subst e2; simp
        · simp [e2, hfree p, Ne.symm e2]
      · by_cases e2 : p = self
        · subst e2; simp [e1, hB]
        · simp [e1, e2, hB]
    · intro p
      rw [hk']
      by_cases e2 : p = self
      · subst e2
        simp only [if_true]
        refine List.Nodup.append (hA p) (List.nodup_singleton c) ?_
        intro a ha hac
        simp at hac
        exact hnk (hac ▸ ha)
      · simp [e2, hA p]
  · intro nc oc b hpar hok
    rcases ReplaceChildNode_eff hok with ⟨_, rfl, _⟩ | ⟨hm, _, hp', hk'⟩
    · exact hbr
    · have hfree : ∀ p, nc ∉ kidsOf h p := fun p hmem => by
        have := (hB nc p).mpr hmem
        rw [hpar] at this
        cases this
      have hoc : parOf h oc = some self := (hB oc self).mpr hm
      have hne : nc ≠ oc := fun e => hfree self (e ▸ hm)
      obtain ⟨hmem, hnd⟩ := replaceFirst_mem_nodup (kidsOf h self) hm (hfree self) (hA self)
      rw [backRef_iff]
      constructor
      · intro n p
        rw [hp', hk']
        by_cases e1 : n = oc
        · subst e1
          by_cases e2 : p = self
          · subst e2; simp [hmem, Ne.symm hne]
          · have : n ∉ kidsOf h p := fun hx => by
              have := (hB n p).mpr hx
              rw [hoc] at this
              exact e2 (Option.some.inj this).symm
            simp [e2, this]
        · by_cases e3 : n = nc
          · subst e3
            by_cases e2 : p = self
            · subst e2; simp [e1, hmem]
            · simp [e1, e2, hfree p, Ne.symm e2]
          · by_cases e2 : p = self
            · subst e2; simp [e1, e3, hmem, hB]
            · simp [e1, e3, e2, hB]
      · intro p
        rw [hk']
        by_cases e2 : p = self
        · subst e2; simpa using hnd
        · simp [e2, hA p]
  · intro n b hok
    rcases RemoveChildNode_eff hok with ⟨_, rfl, _⟩ | ⟨hm, _, hp', hk'⟩
    · exact hbr
    · have hn : parOf h n = some self := (hB n self).mpr hm
      rw [backRef_iff]
      constructor
      · intro x p
        rw [hp', hk']
        by_cases e1 : x = n
        · subst e1
          by_cases e2 : p = self
          · subst e2
            simp [List.Nodup.mem_erase_iff (hA p)]
          · have : x ∉ kidsOf h p := fun hx => by
              have := (hB x p).mpr hx
              rw [hn] at this
              exact e2 (Option.some.inj this).symm
            simp [e2, this]
        · by_cases e2 : p = self
          · subst e2; simp [e1, List.mem_erase_of_ne e1, hB]
          · simp [e1, e2, hB]
      · intro p
        rw [hk']
        by_cases e2 : p = self
        · subst e2; simpa using (hA p).erase n
        · simp [e2, hA p]

/-- C7 witness: attaching the detached node `5` below node `2` of the sample
heap keeps the back-references consistent. -/
theorem backRef_preserved_witness :
    BackRef exHeap ∧ ∃ h', AddChildNode 3 exHeap 2 (some 5) = .ok h' ∧ BackRef h' := by
  refine ⟨exHeap_backRef, ?_⟩
  have hok : AddChildNode 3 exHeap 2 (some 5) =
      .ok ((exHeap.set 2 { exNode 2 (some 0) [] 50 with children_ := [] ++ [5] }).set 5
        { exNode 5 none [] 70 with parent_ := some 2 }) := by
    simp [AddChildNode, exHeap, exNode, onParentChain, Heap.set]
  exact ⟨_, hok, (backRef_preserved 3 exHeap _ 2 exHeap_backRef).1 5 (by simp [parOf, exHeap, exNode])
    hok⟩

/-- C7 counterexample: in the consistent sample heap, node `5` successfully
adds node `2`, which is still listed by its parent `0`; afterwards node `0`
lists a child whose parent reference names node `5`, so condition (ii) fails. -/
theorem backRef_attach_counterexample :
    BackRef exHeap ∧ ∃ h', AddChildNode 3 exHeap 5 (some 2) = .ok h' ∧ ¬ BackRef h' := by
  refine ⟨exHeap_backRef, ?_⟩
  have hok : AddChildNode 3 exHeap 5 (some 2) =
      .ok ((exHeap.set 5 { exNode 5 none [] 70 with children_ := [] ++ [2] }).set 2
        { exNode 2 (some 0) [] 50 with parent_ := some 5 }) := by
    simp [AddChildNode, exHeap, exNode, onParentChain, Heap.set]
  refine ⟨_, hok, ?_⟩
  rintro ⟨_, h2⟩
  obtain ⟨cd, hcd, hpar⟩ := h2 0 (exNode 0 none [1, 2] 5) 2
    (by simp [Heap.set, exHeap]) (by simp [exNode])
  simp [Heap.set] at hcd
  subst hcd
  simp at hpar

end MusicTree

namespace MusicTree

/-! ## Abstract trees -/

namespace MTree

theorem ind {P : MTree → Prop}
    (step : ∀ i m f cs, (∀ c ∈ cs, P c) → P (node i m f cs)) : ∀ t, P t := by
  intro t
  refine MTree.rec (motive_1 := P) (motive_2 := fun l => ∀ c ∈ l, P c) ?_ ?_ ?_ t
  · intro i m f cs ih; exact step i m f cs ih
  · intro c hc; cases hc
  · intro hd tl ih1 ih2 c hc
    rcases List.mem_cons.mp hc with rfl | h'
    · exact ih1
    · exact ih2 c h'

@[simp] theorem id_node (i m f cs) : (node i m f cs).id = i := rfl
@[simp] theorem motif_node (i m f cs) : (node i m f cs).motif = m := rfl
@[simp] theorem fit_node (i m f cs) : (node i m f cs).fit = f := rfl
@[simp] theorem kids_node (i m f cs) : (node i m f cs).kids = cs := rfl

theorem eta (t : MTree) : node t.id t.motif t.fit t.kids = t := by
  cases t; rfl

@[simp] theorem nodes_node (i m f cs) : (node i m f cs).nodes = (i, m, f) :: nodesL cs := by
  simp [nodes]

@[simp] theorem nodesL_nil : nodesL [] = [] := by simp [nodesL]

@[simp] theorem nodesL_cons (c : MTree) (cs : List MTree) :
    nodesL (c :: cs) = c.nodes ++ nodesL cs := by simp [nodesL]

@[simp] theorem nodesL_append (l1 l2 : List MTree) :
    nodesL (l1 ++ l2) = nodesL l1 ++ nodesL l2 := by
  induction l1 with
  | nil => simp
  | cons c cs ih => simp [ih]

@[simp] theorem ids_node (i m f cs) : (node i m f cs).ids = i :: idsL cs := by
  simp [ids, idsL]

@[simp] theorem idsL_nil : idsL [] = [] := by simp [idsL]

@[simp] theorem idsL_cons (c : MTree) (cs : List MTree) :
    idsL (c :: cs) = c.ids ++ idsL cs := by simp [idsL, ids]

@[simp] theorem idsL_append (l1 l2 : List MTree) : idsL (l1 ++ l2) = idsL l1 ++ idsL l2 := by
  simp [idsL]

theorem id_mem_ids (t : MTree) : t.id ∈ t.ids := by
  cases t; simp

theorem ids_subset_idsL {c : MTree} {cs : List MTree} (hc : c ∈ cs) :
    ∀ x ∈ c.ids, x ∈ idsL cs := by
  induction cs with
  | nil => cases hc
  | cons d ds ih =>
    intro x hx
    rcases List.mem_cons.mp hc with rfl | h'
    · simp [hx]
    · simp [ih h' x hx]

theorem mem_idsL {cs : List MTree} {x : Nat} : x ∈ idsL cs ↔ ∃ c ∈ cs, x ∈ c.ids := by
  induction cs with
  | nil => simp
  | cons d ds ih => simp [ih]

theorem map_id_subset_idsL (cs : List MTree) : ∀ x ∈ cs.map MTree.id, x ∈ idsL cs := by
  intro x hx
  obtain ⟨c, hc, rfl⟩ := List.mem_map.mp hx
  exact ids_subset_idsL hc _ (id_mem_ids c)

@[simp] theorem size_node (i m f cs) : (node i m f cs).size = (nodesL cs).length + 1 := by
  simp [size]

theorem size_le_of_mem {c : MTree} {cs : List MTree} (hc : c ∈ cs) :
    c.size ≤ (nodesL cs).length := by
  induction cs with
  | nil => cases hc
  | cons d ds ih =>
    rcases List.mem_cons.mp hc with rfl | h'
    · simp [size]
    · have := ih h'
      simp
      omega

theorem size_pos (t : MTree) : 0 < t.size := by
  cases t; simp

@[simp] theorem melody_node (i m f cs) : (node i m f cs).melody = m ++ melodyL cs := by
  simp [melody]

@[simp] theorem melodyL_nil : melodyL [] = [] := by simp [melodyL]

@[simp] theorem melodyL_cons (c : MTree) (cs : List MTree) :
    melodyL (c :: cs) = c.melody ++ melodyL cs := by simp [melodyL]

theorem melody_length : ∀ t : MTree,
    t.melody.length = (t.nodes.map (fun x => x.2.1.length)).sum := by
  apply ind
  intro i m f cs ih
  have hL : ∀ l : List MTree, (∀ c ∈ l, c.melody.length = (c.nodes.map (fun x => x.2.1.length)).sum) →
      (melodyL l).length = ((nodesL l).map (fun x => x.2.1.length)).sum := by
    intro l
    induction l with
    | nil => intro _; simp
    | cons d ds ihd =>
      intro hall
      simp [hall d (by simp), ihd (fun c hc => hall c (List.mem_cons_of_mem _ hc))]
  simp [hL cs ih]

end MTree

theorem GetMotif_eq (nd : MotifNode) : GetMotif nd = nd.motif_ := by
  unfold GetMotif
  cases h : nd.motif_ <;> simp

theorem TreeAt.root {h : Heap} {p : Option Nat} {t : MTree} (ht : TreeAt h p t) :
    h t.id = some { motif_ := t.motif, parent_ := p, children_ := t.kids.map MTree.id,
                    fitness_score_ := t.fit } := by
  cases ht with
  | mk p i m f cs h1 _ => simpa using h1

theorem TreeAt.kid {h : Heap} {p : Option Nat} {t : MTree} (ht : TreeAt h p t) :
    ∀ c ∈ t.kids, TreeAt h (some t.id) c := by
  cases ht with
  | mk p i m f cs _ h2 => simpa using h2

/-- Frame rule: a heap that agrees with `h` on the addresses of `t` holds `t` too. -/
theorem TreeAt.frame {h h' : Heap} {p : Option Nat} {t : MTree} (ht : TreeAt h p t)
    (hagree : ∀ x ∈ t.ids, h' x = h x) : TreeAt h' p t := by
  induction ht with
  | mk p i m f cs h1 _ ih =>
    refine TreeAt.mk p i m f cs ?_ ?_
    · rw [hagree i (by simp)]; exact h1
    · intro c hc
      exact ih c hc (fun x hx => hagree x (by
        simp only [MTree.ids_node, List.mem_cons]
        exact Or.inr (MTree.ids_subset_idsL hc x hx)))

theorem TreeAt.alive {h : Heap} {p : Option Nat} {t : MTree} (ht : TreeAt h p t) :
    ∀ x ∈ t.ids, ∃ nd, h x = some nd := by
  induction ht with
  | mk p i m f cs h1 _ ih =>
    intro x hx
    simp only [MTree.ids_node, List.mem_cons] at hx
    rcases hx with rfl | hx
    · exact ⟨_, h1⟩
    · obtain ⟨c, hc, hxc⟩ := MTree.mem_idsL.mp hx
      exact ih c hc x hxc

/-! ## Melody -/

theorem TraverseTree_spec (h : Heap) :
    ∀ fuel (t : MTree) (p : Option Nat) (mel : List Note), TreeAt h p t → t.size ≤ fuel →
      TraverseTree fuel h (some t.id) mel = .ok (h, mel ++ t.melody) := by
  intro fuel
  induction fuel with
  | zero =>
    intro t p mel _ hs
    have := t.size_pos
    omega
  | succ k ih =>
    intro t p mel ht hs
    cases ht with
    | mk p i m f cs h1 h2 =>
      have hloop : ∀ (l : List MTree) (mel : List Note), (∀ c ∈ l, c ∈ cs) →
          List.foldlM (fun st child => TraverseTree k st.1 (some child) st.2) (h, mel)
            (l.map MTree.id) = .ok (h, mel ++ MTree.melodyL l) := by
        intro l
        induction l with
        | nil => intro mel _; simp [pure, Except.pure]
        | cons d ds ihd =>
          intro mel hsub
          have hd : d ∈ cs := hsub d (by simp)
          have hsz : d.size ≤ k := by
            have := MTree.size_le_of_mem hd
            simp at hs
            omega
          simp only [List.map_cons, List.foldlM_cons]
          rw [ih d (some i) mel (h2 d hd) hsz]
          simp only [bind, Except.bind]
          rw [ihd (mel ++ d.melody) (fun c hc => hsub c (List.mem_cons_of_mem _ hc))]
          simp
      simp only [MTree.id_node, TraverseTree, h1, GetMotif_eq]
      rw [hloop cs (mel ++ m) (fun c hc => hc)]
      simp

theorem GenerateMelody_preorder_aux (fuel : Nat) (h : Heap) (tr : MusicalTree) (t : MTree)
    (p : Option Nat) (ht : TreeAt h p t) (hroot : tr.root_ = some t.id)
    (hfuel : t.size ≤ fuel) : GenerateMelody fuel h tr = .ok (h, t.melody) := by
  unfold GenerateMelody
  rw [hroot, TraverseTree_spec h fuel t p [] ht hfuel]
  simp

end MusicTree

namespace MusicTree

/-! ## Comparison of doubles -/

theorem Dbl.lt_def (a b : Dbl) : a < b ↔ Dbl.lt a b = true := Iff.rfl

theorem Dbl.le_def (a b : Dbl) : a ≤ b ↔ Dbl.le a b = true := Iff.rfl

@[simp] theorem Dbl.fin_lt_fin (a b : ℚ) : (Dbl.fin a < Dbl.fin b) ↔ a < b := by
  simp [Dbl.lt_def, Dbl.lt]

@[simp] theorem Dbl.fin_le_fin (a b : ℚ) : (Dbl.fin a ≤ Dbl.fin b) ↔ a ≤ b := by
  simp [Dbl.le_def, Dbl.le]

@[simp] theorem Dbl.not_nan_lt (b : Dbl) : ¬ Dbl.nan < b := by
  cases b <;> simp [Dbl.lt_def, Dbl.lt]

@[simp] theorem Dbl.not_lt_nan (a : Dbl) : ¬ a < Dbl.nan := by
  cases a <;> simp [Dbl.lt_def, Dbl.lt]

@[simp] theorem Dbl.not_nan_le (b : Dbl) : ¬ Dbl.nan ≤ b := by
  cases b <;> simp [Dbl.le_def, Dbl.le]

@[simp] theorem Dbl.not_le_nan (a : Dbl) : ¬ a ≤ Dbl.nan := by
  cases a <;> simp [Dbl.le_def, Dbl.le]

/-- A comparison `b <= a` that holds excludes `a < b`. -/
theorem Dbl.not_lt_of_le {a b : Dbl} (h : b ≤ a) : ¬ a < b := by
  cases a <;> cases b <;> simp_all [Dbl.lt_def, Dbl.le_def, Dbl.lt, Dbl.le]

/-- On doubles other than NaN, `b <= a` is the negation of `a < b`. -/
theorem Dbl.not_lt_iff_le {a b : Dbl} (ha : a ≠ .nan) (hb : b ≠ .nan) : ¬ a < b ↔ b ≤ a := by
  cases a <;> cases b <;> simp_all [Dbl.lt_def, Dbl.le_def, Dbl.lt, Dbl.le]

theorem Dbl.ne_nan_of_lt_left {a b : Dbl} (h : a < b) : a ≠ .nan := by
  rintro rfl; exact Dbl.not_nan_lt b h

theorem Dbl.ne_nan_of_lt_right {a b : Dbl} (h : a < b) : b ≠ .nan := by
  rintro rfl; exact Dbl.not_lt_nan a h

theorem Dbl.ne_nan_of_le_left {a b : Dbl} (h : a ≤ b) : a ≠ .nan := by
  rintro rfl; exact Dbl.not_nan_le b h

theorem Dbl.ne_nan_of_le_right {a b : Dbl} (h : a ≤ b) : b ≠ .nan := by
  rintro rfl; exact Dbl.not_le_nan a h

@[simp] theorem Dbl.ofNat_eq (n : Nat) : (OfNat.ofNat n : Dbl) = Dbl.fin (n : ℚ) := rfl

namespace MTree

/-! ## The functional description of pruning -/

@[simp] theorem keptKids_nil (thr : Dbl) : keptKids thr [] = [] := by simp [keptKids]

@[simp] theorem movedKids_nil (thr : Dbl) : movedKids thr [] = [] := by simp [movedKids]

theorem keptKids_cons (thr : Dbl) (c : MTree) (cs : List MTree) :
    keptKids thr (c :: cs) =
      if c.fit < thr then keptKids thr cs else (pruneSub thr c).toList ++ keptKids thr cs := by
  simp [keptKids]

theorem movedKids_cons (thr : Dbl) (c : MTree) (cs : List MTree) :
    movedKids thr (c :: cs) =
      if c.fit < thr then (pruneSub thr c).toList ++ movedKids thr cs else movedKids thr cs := by
  simp [movedKids]

theorem pruneSub_ge {thr : Dbl} {i m f cs} (hf : ¬ f < thr) :
    pruneSub thr (node i m f cs) = some (node i m f (keptKids thr cs ++ movedKids thr cs)) := by
  rw [pruneSub]; simp only [hf, if_false]

theorem pruneSub_lt_nil {thr : Dbl} {i m f cs} (hf : f < thr)
    (he : keptKids thr cs ++ movedKids thr cs = []) :
    pruneSub thr (node i m f cs) = none := by
  rw [pruneSub]; simp only [hf, if_true, he]; rfl

theorem pruneSub_lt_concat {thr : Dbl} {i m f cs} {L : List MTree} {b : MTree} (hf : f < thr)
    (he : keptKids thr cs ++ movedKids thr cs = L ++ [b]) :
    pruneSub thr (node i m f cs) = some (node b.id b.motif b.fit (b.kids ++ L)) := by
  rw [pruneSub]; simp only [hf, if_true, he]; simp

theorem pruneRoot_ge {thr : Dbl} {i m f cs} (hf : ¬ f < thr) :
    pruneRoot thr (node i m f cs) = node i m f (keptKids thr cs ++ movedKids thr cs) := by
  rw [pruneRoot]; simp only [hf, if_false]

theorem pruneRoot_lt_nil {thr : Dbl} {i m f cs} (hf : f < thr)
    (he : keptKids thr cs ++ movedKids thr cs = []) :
    pruneRoot thr (node i m f cs) = node i m f [] := by
  rw [pruneRoot]; simp only [hf, if_true, he]; rfl

theorem pruneRoot_lt_concat {thr : Dbl} {i m f cs} {L : List MTree} {b : MTree} (hf : f < thr)
    (he : keptKids thr cs ++ movedKids thr cs = L ++ [b]) :
    pruneRoot thr (node i m f cs) = node b.id b.motif b.fit (b.kids ++ L) := by
  rw [pruneRoot]; simp only [hf, if_true, he]; simp

theorem pruneSub_of_not_lt {thr : Dbl} {t : MTree} (hf : ¬ t.fit < thr) :
    pruneSub thr t =
      some (node t.id t.motif t.fit (keptKids thr t.kids ++ movedKids thr t.kids)) := by
  cases t with
  | node i m f cs => exact pruneSub_ge hf

theorem nodes_eq (b : MTree) : b.nodes = (b.id, b.motif, b.fit) :: nodesL b.kids := by
  cases b; simp

/-- The nodes kept by pruning the children of a node are, up to order, the
nodes below the children whose fitness is not below the threshold. -/
theorem kids_nodes_perm (thr : Dbl) : ∀ l : List MTree,
    (∀ c ∈ l, List.Perm (nodesL (pruneSub thr c).toList)
        (c.nodes.filter (fun x => !decide (x.2.2 < thr)))) →
    List.Perm (nodesL (keptKids thr l ++ movedKids thr l))
      ((nodesL l).filter (fun x => !decide (x.2.2 < thr))) := by
  intro l
  induction l with
  | nil => intro _; simp
  | cons d ds ihd =>
    intro hall
    have h1 := hall d (by simp)
    have h2 := ihd (fun c hc => hall c (List.mem_cons_of_mem _ hc))
    simp only [nodesL_append] at h2
    by_cases hd : d.fit < thr
    · simp only [keptKids_cons, movedKids_cons, hd, if_true, nodesL_append, nodesL_cons,
        List.filter_append]
      have h4 : List.Perm
          (nodesL (keptKids thr ds) ++
            (nodesL (pruneSub thr d).toList ++ nodesL (movedKids thr ds)))
          (nodesL (pruneSub thr d).toList ++
            (nodesL (keptKids thr ds) ++ nodesL (movedKids thr ds))) := by
        rw [← List.append_assoc, ← List.append_assoc]
        exact List.Perm.append_right _ List.perm_append_comm
      exact h4.trans (List.Perm.append h1 h2)
    · simp only [keptKids_cons, movedKids_cons, hd, if_false, nodesL_append, nodesL_cons,
        List.filter_append, List.append_assoc]
      exact List.Perm.append h1 h2

/-- The nodes kept by pruning a subtree are, up to order, the nodes of the
subtree whose fitness is not below the threshold. -/
theorem pruneSub_nodes_perm (thr : Dbl) : ∀ t : MTree,
    List.Perm (nodesL (pruneSub thr t).toList)
      (t.nodes.filter (fun x => !decide (x.2.2 < thr))) := by
  apply ind
  intro i m f cs ih
  have h3 := kids_nodes_perm thr cs ih
  by_cases hf : f < thr
  · have hnf : ¬ ¬ f < thr := not_not.mpr hf
    rcases List.eq_nil_or_concat (keptKids thr cs ++ movedKids thr cs) with he | ⟨L, b, he⟩
    · rw [pruneSub_lt_nil hf he]
      rw [he] at h3
      simpa [hnf] using h3
    · rw [List.concat_eq_append] at he
      rw [pruneSub_lt_concat hf he]
      rw [he] at h3
      simp only [Option.toList_some, nodesL_cons, nodes_node, nodesL_nil, List.append_nil,
        nodesL_append, List.filter_cons, hf, decide_True, Bool.not_true, Bool.false_eq_true,
        if_false] at h3 ⊢
      refine List.Perm.trans ?_ h3
      rw [nodes_eq b]
      exact (@List.perm_append_comm _ (nodesL L)
        ((b.id, b.motif, b.fit) :: nodesL b.kids)).symm.trans (by simp)
  · have hnf : ¬ f < thr := hf
    rw [pruneSub_ge hf]
    simp only [Option.toList_some, nodesL_cons, nodes_node, nodesL_nil, List.append_nil,
      List.filter_cons, hnf, decide_False, Bool.not_false, if_true]
    exact List.Perm.cons _ h3

theorem kids_nodes_perm' (thr : Dbl) (l : List MTree) :
    List.Perm (nodesL (keptKids thr l ++ movedKids thr l))
      ((nodesL l).filter (fun x => !decide (x.2.2 < thr))) :=
  kids_nodes_perm thr l (fun c _ => pruneSub_nodes_perm thr c)

/-- The nodes of the pruned tree when some node of the tree passes the threshold. -/
theorem pruneRoot_nodes_perm (thr : Dbl) (t : MTree) (hex : ∃ x ∈ t.nodes, ¬ x.2.2 < thr) :
    List.Perm (pruneRoot thr t).nodes (t.nodes.filter (fun x => !decide (x.2.2 < thr))) := by
  cases t with
  | node i m f cs =>
    have h3 := kids_nodes_perm' thr cs
    by_cases hf : f < thr
    · have hnf : ¬ ¬ f < thr := not_not.mpr hf
      rcases List.eq_nil_or_concat (keptKids thr cs ++ movedKids thr cs) with he | ⟨L, b, he⟩
      · exfalso
        rw [he] at h3
        simp only [nodesL_nil] at h3
        have h4 := h3.symm.eq_nil
        obtain ⟨x, hx, hxf⟩ := hex
        simp only [nodes_node, List.mem_cons] at hx
        rcases hx with rfl | hx
        · exact hnf hxf
        · have : x ∈ List.filter (fun x => !decide (x.2.2 < thr)) (nodesL cs) := by
            simp [List.mem_filter, hx, hxf]
          rw [h4] at this
          cases this
      · rw [List.concat_eq_append] at he
        rw [pruneRoot_lt_concat hf he]
        rw [he] at h3
        simp only [nodesL_cons, nodes_node, nodesL_nil, List.append_nil,
          nodesL_append, List.filter_cons, hf, decide_True, Bool.not_true, Bool.false_eq_true,
        if_false] at h3 ⊢
        refine List.Perm.trans ?_ h3
        rw [nodes_eq b]
        exact (@List.perm_append_comm _ (nodesL L)
          ((b.id, b.motif, b.fit) :: nodesL b.kids)).symm.trans (by simp)
    · have hnf : ¬ f < thr := hf
      rw [pruneRoot_ge hf]
      simp only [nodes_node, List.filter_cons, hnf, decide_False, Bool.not_false, if_true]
      exact List.Perm.cons _ h3

/-- When no node passes the threshold, pruning leaves the original root alone. -/
theorem pruneRoot_alone (thr : Dbl) (t : MTree) (hno : ∀ x ∈ t.nodes, x.2.2 < thr) :
    pruneRoot thr t = node t.id t.motif t.fit [] := by
  cases t with
  | node i m f cs =>
    have h3 := kids_nodes_perm' thr cs
    have hf : f < thr := hno (i, m, f) (by simp)
    have hnil : (nodesL cs).filter (fun x => !decide (x.2.2 < thr)) = [] := by
      rw [List.filter_eq_nil_iff]
      intro x hx
      have := hno x (by simp [hx])
      simp [this]
    rw [hnil] at h3
    have h4 := h3.eq_nil
    rcases List.eq_nil_or_concat (keptKids thr cs ++ movedKids thr cs) with he | ⟨L, b, he⟩
    · simp [pruneRoot_lt_nil hf he]
    · rw [he] at h4
      simp [nodes_eq b] at h4

end MTree
end MusicTree

namespace MusicTree

theorem TreeAt.reparent {h h' : Heap} {q q' : Option Nat} {t : MTree} (ht : TreeAt h q t)
    (hroot : h' t.id = some { motif_ := t.motif, parent_ := q', children_ := t.kids.map MTree.id,
                              fitness_score_ := t.fit })
    (hagree : ∀ x ∈ MTree.idsL t.kids, h' x = h x) : TreeAt h' q' t := by
  cases ht with
  | mk p i m f cs h1 h2 =>
    refine TreeAt.mk q' i m f cs (by simpa using hroot) ?_
    intro c hc
    exact (h2 c hc).frame (fun x hx => hagree x (MTree.ids_subset_idsL hc x hx))

theorem liftH_ok {α : Type} (a : α) : liftH (Except.ok a : HRes α) = Except.ok a := rfl

theorem bind_ok {ε α β : Type} (a : α) (f : α → Except ε β) :
    (Except.ok a >>= f) = f a := rfl

/-- The adoption loop on a list of live nodes that are neither `last` nor
already below it. -/
theorem adoptLoop_spec (w : Nat) (hw : 1 ≤ w) (last : Nat) :
    ∀ (todo : List Nat) (hh : Heap) (ld : MotifNode),
      hh last = some ld → ld.parent_ = none →
      (∀ c ∈ todo, c ≠ last ∧ c ∉ ld.children_ ∧ ∃ cd, hh c = some cd) → todo.Nodup →
      ∃ h3, adoptLoop w last todo hh = .ok h3 ∧
        h3 last = some { ld with children_ := ld.children_ ++ todo } ∧
        (∀ c ∈ todo, ∀ cd, hh c = some cd → h3 c = some { cd with parent_ := some last }) ∧
        (∀ x, x ≠ last → x ∉ todo → h3 x = hh x) := by
  intro todo
  induction todo with
  | nil =>
    intro hh ld hl _ _ _
    exact ⟨hh, by simp [adoptLoop, pure, Except.pure], by simpa using hl, by simp, by simp⟩
  | cons c cs ih =>
    intro hh ld hl hpar hall hnd
    obtain ⟨hc1, hc2, cd, hcd⟩ := hall c (by simp)
    have hchain : Chain hh (some last) [last] := by
      refine Chain.cons last ld [] hl ?_
      rw [hpar]; exact Chain.nil
    have hstep := AddChildNode_ok (w := w) hl hcd hchain (by simpa using hw) hc2
      (by simpa using hc1)
    have hcs : c ∉ cs := (List.nodup_cons.mp hnd).1
    set h1 : Heap := (hh.set last { ld with children_ := ld.children_ ++ [c] }).set c
      { cd with parent_ := some last } with hh1
    have hl1 : h1 last = some { ld with children_ := ld.children_ ++ [c] } := by
      simp [hh1, Heap.set_ne _ _ (Ne.symm hc1)]
    obtain ⟨h3, e3, a3, b3, c3⟩ := ih h1 { ld with children_ := ld.children_ ++ [c] } hl1 hpar
      (by
        intro d hd
        obtain ⟨hd1, hd2, dd, hdd⟩ := hall d (List.mem_cons_of_mem _ hd)
        have hdc : d ≠ c := fun e => hcs (e ▸ hd)
        refine ⟨hd1, ?_, dd, ?_⟩
        · simp [hd2, hdc]
        · simp [hh1, Heap.set_ne _ _ hdc, Heap.set_ne _ _ hd1, hdd])
      (List.nodup_cons.mp hnd).2
    refine ⟨h3, ?_, ?_, ?_, ?_⟩
    · unfold adoptLoop at e3 ⊢
      simp only [List.foldlM_cons, hc1, ne_eq, not_false_eq_true, if_true, hstep, liftH_ok,
        bind_ok]
      exact e3
    · simpa using a3
    · intro d hd dd hdd
      rcases List.mem_cons.mp hd with rfl | hd'
      · rw [hcd] at hdd
        cases hdd
        rw [c3 d hc1 hcs]
        simp [hh1]
      · have hdc : d ≠ c := fun e => hcs (e ▸ hd')
        have hd1 := (hall d hd).1
        exact b3 d hd' dd (by simp [hh1, Heap.set_ne _ _ hdc, Heap.set_ne _ _ hd1, hdd])
    · intro x hx1 hx2
      have hxc : x ≠ c := fun e => hx2 (by simp [e])
      have hxcs : x ∉ cs := fun hm => hx2 (List.mem_cons_of_mem _ hm)
      rw [c3 x hx1 hxcs]
      simp [hh1, Heap.set_ne _ _ hxc, Heap.set_ne _ _ hx1]

/-- The adoption loop run over a child list that ends with `last` itself. -/
theorem adoptLoop_snoc (w : Nat) (last : Nat) (todo : List Nat) (hh h3 : Heap)
    (hloop : adoptLoop w last todo hh = .ok h3) :
    adoptLoop w last (todo ++ [last]) hh = .ok h3 := by
  unfold adoptLoop at hloop ⊢
  rw [List.foldlM_append, hloop]
  simp [bind_ok, pure, Except.pure]

end MusicTree

namespace MusicTree
namespace MTree

theorem map_id_sublist_idsL : ∀ cs : List MTree, List.Sublist (cs.map MTree.id) (idsL cs) := by
  intro cs
  induction cs with
  | nil => simp
  | cons d ds ih =>
    cases d with
    | node i m f ks =>
      simp only [List.map_cons, id_node, idsL_cons, ids_node, List.cons_append]
      exact List.Sublist.cons₂ _ (List.Sublist.trans ih (List.sublist_append_right _ _))

theorem kid_id_not_root {cs : List MTree} (hnd : (idsL cs).Nodup) {c : MTree} (hc : c ∈ cs)
    {x : Nat} (hx : x ∈ idsL c.kids) : x ∉ cs.map MTree.id := by
  induction cs with
  | nil => cases hc
  | cons d ds ih =>
    simp only [idsL_cons, List.nodup_append] at hnd
    obtain ⟨hd1, hd2, hdis⟩ := hnd
    intro hm
    simp only [List.map_cons, List.mem_cons] at hm
    rcases List.mem_cons.mp hc with rfl | hc'
    · have hxc : x ∈ c.ids := by
        cases c; simp at hx ⊢; exact Or.inr hx
      rcases hm with rfl | hm
      · cases c with
        | node i m f ks =>
          simp only [ids_node, List.nodup_cons, id_node, kids_node] at hd1 hx
          exact hd1.1 hx
      · exact hdis hxc (map_id_subset_idsL ds x hm)
    · have hxc : x ∈ c.ids := by
        cases c; simp at hx ⊢; exact Or.inr hx
      rcases hm with rfl | hm
      · exact hdis (id_mem_ids d) (ids_subset_idsL hc' _ hxc)
      · exact ih hd2 hc' hm

end MTree
end MusicTree

namespace MusicTree

/-- The last child `lt` of node `n` is detached and adopts its former siblings
`init`: afterwards the heap holds the survivor tree with an absent parent. -/
theorem survivor_spec (w : Nat) (hw : 1 ≤ w) (h : Heap) (n : Nat) (nd : MotifNode)
    (init : List MTree) (lt : MTree)
    (hn : h n = some nd) (hkids : nd.children_ = (init ++ [lt]).map MTree.id)
    (hts : ∀ c ∈ init ++ [lt], TreeAt h (some n) c)
    (hnd : (n :: MTree.idsL (init ++ [lt])).Nodup) :
    ∃ h2 h3, RemoveChildNode h n (some lt.id) = .ok (h2, true) ∧
      adoptLoop w lt.id nd.children_ h2 = .ok h3 ∧
      h3 n = some { nd with children_ := init.map MTree.id } ∧
      TreeAt h3 none (MTree.node lt.id lt.motif lt.fit (lt.kids ++ init)) ∧
      (∀ x, x ≠ n → x ∉ MTree.idsL (init ++ [lt]) → h3 x = h x) := by
  -- distinctness facts
  simp only [MTree.idsL_append, MTree.idsL_cons, MTree.idsL_nil, List.append_nil,
    List.nodup_cons, List.mem_append, not_or, List.nodup_append] at hnd
  obtain ⟨⟨hn1, hn2⟩, hndi, hndl, hdis⟩ := hnd
  have hlt : TreeAt h (some n) lt := hts lt (by simp)
  have hltn : lt.id ≠ n := fun e => hn2 (e ▸ MTree.id_mem_ids lt)
  have hroots : ∀ c ∈ init, c.id ≠ n ∧ c.id ≠ lt.id ∧ c.id ∉ lt.kids.map MTree.id := by
    intro c hc
    have hci : c.id ∈ MTree.idsL init := MTree.ids_subset_idsL hc _ (MTree.id_mem_ids c)
    refine ⟨fun e => hn1 (e ▸ hci), fun e => hdis hci (e ▸ MTree.id_mem_ids lt), ?_⟩
    intro hm
    have : c.id ∈ lt.ids := by
      rw [← MTree.eta lt]
      simp only [MTree.ids_node, List.mem_cons]
      exact Or.inr (MTree.map_id_subset_idsL _ _ hm)
    exact hdis hci this
  have hltroots : lt.id ∉ init.map MTree.id := by
    intro hm
    obtain ⟨c, hc, e⟩ := List.mem_map.mp hm
    exact (hroots c hc).2.1 e
  have hlkids : ∀ x ∈ MTree.idsL lt.kids, x ≠ lt.id ∧ x ≠ n ∧ x ∉ init.map MTree.id := by
    intro x hx
    have hxl : x ∈ lt.ids := by
      rw [← MTree.eta lt]; simp only [MTree.ids_node, List.mem_cons]; exact Or.inr hx
    refine ⟨?_, fun e => hn2 (e ▸ hxl), fun hm => hdis (MTree.map_id_subset_idsL _ _ hm) hxl⟩
    intro e
    rw [← MTree.eta lt] at hndl
    simp only [MTree.ids_node, List.nodup_cons] at hndl
    exact hndl.1 (e ▸ hx)
  -- the removal
  have herase : nd.children_.erase lt.id = init.map MTree.id := by
    rw [hkids, List.map_append, List.erase_append_right _ hltroots]
    simp
  have hrem := RemoveChildNode_ok hn hlt.root hltn (by rw [hkids]; simp)
  rw [herase] at hrem
  set h2 : Heap := (h.set n { nd with children_ := init.map MTree.id }).set lt.id
    { motif_ := lt.motif, parent_ := none, children_ := lt.kids.map MTree.id,
      fitness_score_ := lt.fit } with hh2
  have hh2l : h2 lt.id = some
      { motif_ := lt.motif, parent_ := none, children_ := lt.kids.map MTree.id,
        fitness_score_ := lt.fit } := by
    simp [hh2]
  have hh2o : ∀ x, x ≠ n → x ≠ lt.id → h2 x = h x := by
    intro x h1 h2'
    simp [hh2, Heap.set_ne _ _ h1, Heap.set_ne _ _ h2']
  have hh2n : h2 n = some { nd with children_ := init.map MTree.id } := by
    simp [hh2, Heap.set_ne _ _ (Ne.symm hltn)]
  -- the adoption
  obtain ⟨h3, e3, a3, b3, c3⟩ := adoptLoop_spec w hw lt.id (init.map MTree.id) h2 _ hh2l rfl
    (by
      intro c hc
      obtain ⟨t, ht, rfl⟩ := List.mem_map.mp hc
      obtain ⟨r1, r2, r3⟩ := hroots t ht
      refine ⟨r2, r3, ?_⟩
      rw [hh2o _ r1 r2]
      exact ⟨_, (hts t (by simp [ht])).root⟩)
    ((MTree.map_id_sublist_idsL init).nodup hndi)
  have e3' := adoptLoop_snoc w lt.id _ h2 h3 e3
  refine ⟨h2, h3, hrem, ?_, ?_, ?_, ?_⟩
  · rw [hkids, List.map_append]
    simpa using e3'
  · rw [c3 n (Ne.symm hltn) (by
      intro hm
      obtain ⟨c, hc, e⟩ := List.mem_map.mp hm
      exact (hroots c hc).1 e)]
    exact hh2n
  · refine TreeAt.mk none lt.id lt.motif lt.fit (lt.kids ++ init) (by simpa using a3) ?_
    intro c hc
    rcases List.mem_append.mp hc with hc | hc
    · refine (hlt.kid c hc).frame ?_
      intro x hx
      obtain ⟨x1, x2, x3⟩ := hlkids x (MTree.ids_subset_idsL hc x hx)
      rw [c3 x x1 x3, hh2o x x2 x1]
    · have hct : TreeAt h (some n) c := hts c (by simp [hc])
      obtain ⟨r1, r2, r3⟩ := hroots c hc
      refine hct.reparent ?_ ?_
      · have := b3 c.id (List.mem_map_of_mem _ hc) _ (by rw [hh2o _ r1 r2]; exact hct.root)
        simpa using this
      · intro x hx
        have hxc : x ∈ c.ids := by
          rw [← MTree.eta c]; simp only [MTree.ids_node, List.mem_cons]; exact Or.inr hx
        have hxi : x ∈ MTree.idsL init := MTree.ids_subset_idsL hc x hxc
        have x1 : x ≠ lt.id := fun e => hdis hxi (e ▸ MTree.id_mem_ids lt)
        have x2 : x ≠ n := fun e => hn1 (e ▸ hxi)
        have x3 : x ∉ init.map MTree.id := MTree.kid_id_not_root hndi hc hx
        rw [c3 x x1 x3, hh2o x x2 x1]
  · intro x hx1 hx2
    simp only [MTree.idsL_append, MTree.idsL_cons, MTree.idsL_nil, List.append_nil,
      List.mem_append, not_or] at hx2
    have x1 : x ≠ lt.id := fun e => hx2.2 (e ▸ MTree.id_mem_ids lt)
    have x3 : x ∉ init.map MTree.id := fun hm => hx2.1 (MTree.map_id_subset_idsL _ _ hm)
    rw [c3 x x1 x3, hh2o x hx1 x1]

end MusicTree

namespace MusicTree
namespace MTree

theorem ids_sub_of_perm_filter {A B : List (Nat × List Note × Dbl)} {P : Nat × List Note × Dbl → Bool}
    (hp : List.Perm A (B.filter P)) :
    (∀ x ∈ A.map Prod.fst, x ∈ B.map Prod.fst) ∧
      ((B.map Prod.fst).Nodup → (A.map Prod.fst).Nodup) := by
  constructor
  · intro x hx
    obtain ⟨y, hy, rfl⟩ := List.mem_map.mp hx
    have := (hp.mem_iff (a := y)).mp hy
    exact List.mem_map_of_mem _ (List.mem_filter.mp this).1
  · intro hnd
    have h1 : ((B.filter P).map Prod.fst).Nodup :=
      List.Nodup.sublist ((List.filter_sublist B).map Prod.fst) hnd
    exact (hp.map Prod.fst).nodup_iff.mpr h1

theorem pruneSub_ids_sub (thr : Dbl) (t : MTree) :
    ∀ x ∈ idsL (pruneSub thr t).toList, x ∈ t.ids :=
  (ids_sub_of_perm_filter (pruneSub_nodes_perm thr t)).1

theorem pruneSub_ids_nodup (thr : Dbl) (t : MTree) (hnd : t.ids.Nodup) :
    (idsL (pruneSub thr t).toList).Nodup :=
  (ids_sub_of_perm_filter (pruneSub_nodes_perm thr t)).2 hnd

theorem kids_ids_sub (thr : Dbl) (cs : List MTree) :
    ∀ x ∈ idsL (keptKids thr cs ++ movedKids thr cs), x ∈ idsL cs :=
  (ids_sub_of_perm_filter (kids_nodes_perm' thr cs)).1

theorem kids_ids_nodup (thr : Dbl) (cs : List MTree) (hnd : (idsL cs).Nodup) :
    (idsL (keptKids thr cs ++ movedKids thr cs)).Nodup :=
  (ids_sub_of_perm_filter (kids_nodes_perm' thr cs)).2 hnd

theorem pruneSub_keeps_root {thr : Dbl} {t : MTree} (hf : ¬ t.fit < thr) :
    ∃ c, pruneSub thr t = some c ∧ c.id = t.id :=
  ⟨_, pruneSub_of_not_lt hf, rfl⟩

theorem countBelow_node (thr : Dbl) (i m f cs) :
    countBelow thr (node i m f cs) =
      (if f < thr then 1 else 0) + ((nodesL cs).filter (fun x => decide (x.2.2 < thr))).length := by
  unfold countBelow
  by_cases hf : f < thr
  · simp [List.filter_cons, hf]; omega
  · simp [List.filter_cons, hf]

end MTree

/-- Two disjointness facts for lists without repetition. -/
theorem nodup_swap_in {A B C R : List Nat} (h : (A ++ (C ++ B)).Nodup) (hR : R.Nodup)
    (hsub : ∀ x ∈ R, x ∈ C) : (A ++ (R ++ B)).Nodup ∧ (A ++ (B ++ R)).Nodup := by
  simp only [List.nodup_append, List.disjoint_append_right, List.disjoint_append_left] at h ⊢
  obtain ⟨hA, ⟨hC, hB, hCB⟩, hAC, hAB⟩ := h
  refine ⟨⟨hA, ⟨hR, hB, ?_⟩, ?_, hAB⟩, ⟨hA, ⟨hB, hR, ?_⟩, hAB, ?_⟩⟩
  · intro x hx hxb; exact hCB (hsub x hx) hxb
  · intro x hx hxr; exact hAC hx (hsub x hxr)
  · intro x hx hxr; exact hCB (hsub x hxr) hx
  · intro x hx hxr; exact hAC hx (hsub x hxr)

end MusicTree

namespace MusicTree

theorem MusicalTree.size_sub_zero (tr : MusicalTree) :
    ({ tr with size_ := tr.size_ - ((0 : Nat) : Int) } : MusicalTree) = tr := by
  cases tr; simp

/-- The recursion of `PruneNodes` over the children of node `n`, given the
behaviour of `PruneNodes` on each child subtree. -/
theorem prune_loop (k w : Nat) (thr : Dbl)
    (IH : ∀ (t : MTree) (p : Nat) (pd : MotifNode) (l : List Nat) (h : Heap) (tr : MusicalTree),
      t.size ≤ k → TreeAt h (some p) t → t.ids.Nodup → h p = some pd → t.id ∈ pd.children_ →
      (∀ x ∈ t.ids, x ∈ pd.children_ → x = t.id) →
      Chain h (some p) l → (∀ x ∈ t.ids, x ∉ l) → l.length + t.size ≤ w →
      ∃ h', PruneNodes k w (h, tr) (some t.id) thr =
          .ok (h', { tr with size_ := tr.size_ - (MTree.countBelow thr t : Nat) }) ∧
        (∀ x, x ∉ t.ids → x ≠ p → h' x = h x) ∧
        h' p = some { pd with children_ :=
          if t.fit < thr then
            pd.children_.erase t.id ++ (MTree.pruneSub thr t).toList.map MTree.id
          else pd.children_ } ∧
        (∀ r ∈ (MTree.pruneSub thr t).toList, TreeAt h' (some p) r))
    (n : Nat) (m : List Note) (par : Option Nat) (f : Dbl) (ln : List Nat) :
    ∀ (suf ka mv : List MTree) (h : Heap) (tr : MusicalTree),
      h n = some ⟨m, par, (ka ++ suf ++ mv).map MTree.id, f⟩ →
      (∀ c ∈ ka ++ suf ++ mv, TreeAt h (some n) c) →
      (MTree.idsL (ka ++ suf ++ mv)).Nodup →
      Chain h (some n) ln → (∀ x ∈ MTree.idsL (ka ++ suf ++ mv), x ∉ ln) →
      (∀ c ∈ suf, c.size ≤ k ∧ ln.length + c.size ≤ w) →
      ∃ h', List.foldlM (fun s c => PruneNodes k w s (some c) thr) (h, tr)
            (suf.map MTree.id) =
          .ok (h', { tr with size_ := tr.size_ -
            (((MTree.nodesL suf).filter (fun x => decide (x.2.2 < thr))).length : Nat) }) ∧
        h' n = some ⟨m, par,
          (ka ++ MTree.keptKids thr suf ++ mv ++ MTree.movedKids thr suf).map MTree.id, f⟩ ∧
        (∀ c ∈ ka ++ MTree.keptKids thr suf ++ mv ++ MTree.movedKids thr suf,
          TreeAt h' (some n) c) ∧
        (∀ x, x ∉ MTree.idsL suf → x ≠ n → h' x = h x) := by
  intro suf
  induction suf with
  | nil =>
    intro ka mv h tr hn hts _ _ _ _
    refine ⟨h, ?_, ?_, ?_, ?_⟩
    · simp [pure, Except.pure, MusicalTree.size_sub_zero]
    · simpa using hn
    · simpa using hts
    · intro x _ _; rfl
  | cons c suf ih =>
    intro ka mv h tr hn hts hnd hch hdis hsz
    have hnln : n ∈ ln := hch.head_mem
    -- distinctness, split around the subtree `c`
    have hnd' : (MTree.idsL ka ++ (c.ids ++ (MTree.idsL suf ++ MTree.idsL mv))).Nodup := by
      simpa [List.append_assoc] using hnd
    have hnd0 := hnd'
    simp only [List.nodup_append, List.disjoint_append_right] at hnd0
    obtain ⟨hA, ⟨hC, hB, hCB⟩, hAC, hAB⟩ := hnd0
    have hcmem : c ∈ ka ++ c :: suf ++ mv := by simp
    have hcids : ∀ x ∈ c.ids, x ∉ ln := fun x hx =>
      hdis x (by simp [hx])
    -- the call on `c`
    obtain ⟨h1, e1, fr1, hp1, ht1⟩ := IH c n _ ln h tr (hsz c (by simp)).1 (hts c hcmem) hC hn
      (by simp) (by
        intro x hx hxm
        simp only [List.map_append, List.map_cons, List.mem_append, List.mem_cons,
          List.mem_map] at hxm
        rcases hxm with (⟨d, hd, rfl⟩ | rfl | ⟨d, hd, rfl⟩) | ⟨d, hd, rfl⟩
        · exact absurd hx (fun hx => hAC (MTree.ids_subset_idsL hd _ (MTree.id_mem_ids d)) hx)
        · rfl
        · exact absurd (MTree.ids_subset_idsL hd _ (MTree.id_mem_ids d))
            (fun hm => hCB.1 hx hm)
        · exact absurd (MTree.ids_subset_idsL hd _ (MTree.id_mem_ids d))
            (fun hm => hCB.2 hx hm))
      hch hcids (hsz c (by simp)).2
    have hrsub := MTree.pruneSub_ids_sub thr c
    have hrnd := MTree.pruneSub_ids_nodup thr c hC
    obtain ⟨hsw1, hsw2⟩ := nodup_swap_in hnd' hrnd hrsub
    have hcka : c.id ∉ ka.map MTree.id := fun hm =>
      hAC (MTree.map_id_subset_idsL _ _ hm) (MTree.id_mem_ids c)
    -- old trees are untouched
    have hold : ∀ d, d ∈ ka ∨ d ∈ suf ∨ d ∈ mv → TreeAt h1 (some n) d := by
      intro d hd
      have hdm : d ∈ ka ++ c :: suf ++ mv := by
        rcases hd with hd | hd | hd <;> simp [hd]
      refine (hts d hdm).frame ?_
      intro x hx
      have hxc : x ∉ c.ids := by
        intro hxc
        rcases hd with hd | hd | hd
        · exact hAC (MTree.ids_subset_idsL hd x hx) hxc
        · exact hCB.1 hxc (MTree.ids_subset_idsL hd x hx)
        · exact hCB.2 hxc (MTree.ids_subset_idsL hd x hx)
      have hxn : x ≠ n := fun e =>
        hdis x (MTree.ids_subset_idsL hdm x hx) (e ▸ hnln)
      exact fr1 x hxc hxn
    have hch1 : Chain h1 (some n) ln := by
      refine hch.congr ?_
      intro x hx nd hxnd
      by_cases e : x = n
      · subst e
        rw [hn] at hxnd
        cases hxnd
        exact ⟨_, hp1, rfl⟩
      · refine ⟨nd, ?_, rfl⟩
        rw [fr1 x (fun hxc => hcids x hxc hx) e]
        exact hxnd
    have hsz' : ∀ d ∈ suf, d.size ≤ k ∧ ln.length + d.size ≤ w := fun d hd =>
      hsz d (List.mem_cons_of_mem _ hd)
    by_cases hf : c.fit < thr
    · -- `c` is pruned: it leaves the list, its survivor is appended
      have hp1' : h1 n = some ⟨m, par,
          (ka ++ suf ++ (mv ++ (MTree.pruneSub thr c).toList)).map MTree.id, f⟩ := by
        rw [hp1]
        simp only [hf, if_true, List.map_append, List.map_cons, List.append_assoc,
          List.cons_append]
        rw [List.erase_append_right _ hcka]
        simp [List.append_assoc]
      obtain ⟨h2, e2, hp2, ht2, fr2⟩ := ih ka (mv ++ (MTree.pruneSub thr c).toList) h1
        { tr with size_ := tr.size_ - (MTree.countBelow thr c : Nat) } hp1'
        (by
          intro d hd
          simp only [List.mem_append] at hd
          rcases hd with (hd | hd) | hd | hd
          · exact hold d (Or.inl hd)
          · exact hold d (Or.inr (Or.inl hd))
          · exact hold d (Or.inr (Or.inr hd))
          · exact ht1 d hd)
        (by simpa [List.append_assoc] using hsw2)
        hch1
        (by
          intro x hx
          simp only [MTree.idsL_append, List.mem_append] at hx
          apply hdis x
          simp only [MTree.idsL_append, MTree.idsL_cons, List.mem_append]
          rcases hx with (hx | hx) | hx | hx
          · exact Or.inl (Or.inl hx)
          · exact Or.inl (Or.inr (Or.inr hx))
          · exact Or.inr hx
          · exact Or.inl (Or.inr (Or.inl (hrsub x hx))))
        hsz'
      refine ⟨h2, ?_, ?_, ?_, ?_⟩
      · simp only [List.map_cons, List.foldlM_cons, e1, bind_ok]
        rw [e2]
        simp only [MTree.nodesL_cons, List.filter_append, List.length_append, MTree.countBelow]
        congr 2
        simp only [Nat.cast_add]
        ring_nf
      · rw [hp2]
        simp [MTree.keptKids_cons, MTree.movedKids_cons, hf, List.append_assoc]
      · intro d hd
        apply ht2
        simpa [MTree.keptKids_cons, MTree.movedKids_cons, hf, List.append_assoc] using hd
      · intro x hx hxn
        simp only [MTree.idsL_cons, List.mem_append, not_or] at hx
        rw [fr2 x hx.2 hxn, fr1 x hx.1 hxn]
    · -- `c` is kept at its place
      obtain ⟨c', hc', hid'⟩ := MTree.pruneSub_keeps_root hf
      have hp1' : h1 n = some ⟨m, par,
          (ka ++ (MTree.pruneSub thr c).toList ++ suf ++ mv).map MTree.id, f⟩ := by
        rw [hp1]
        simp [hf, hc', hid']
      obtain ⟨h2, e2, hp2, ht2, fr2⟩ := ih (ka ++ (MTree.pruneSub thr c).toList) mv h1
        { tr with size_ := tr.size_ - (MTree.countBelow thr c : Nat) } hp1'
        (by
          intro d hd
          simp only [List.mem_append] at hd
          rcases hd with ((hd | hd) | hd) | hd
          · exact hold d (Or.inl hd)
          · exact ht1 d hd
          · exact hold d (Or.inr (Or.inl hd))
          · exact hold d (Or.inr (Or.inr hd)))
        (by simpa [List.append_assoc] using hsw1)
        hch1
        (by
          intro x hx
          simp only [MTree.idsL_append, List.mem_append] at hx
          apply hdis x
          simp only [MTree.idsL_append, MTree.idsL_cons, List.mem_append]
          rcases hx with ((hx | hx) | hx) | hx
          · exact Or.inl (Or.inl hx)
          · exact Or.inl (Or.inr (Or.inl (hrsub x hx)))
          · exact Or.inl (Or.inr (Or.inr hx))
          · exact Or.inr hx)
        hsz'
      refine ⟨h2, ?_, ?_, ?_, ?_⟩
      · simp only [List.map_cons, List.foldlM_cons, e1, bind_ok]
        rw [e2]
        simp only [MTree.nodesL_cons, List.filter_append, List.length_append, MTree.countBelow]
        congr 2
        simp only [Nat.cast_add]
        ring_nf
      · rw [hp2]
        simp [MTree.keptKids_cons, MTree.movedKids_cons, hf, List.append_assoc]
      · intro d hd
        apply ht2
        simpa [MTree.keptKids_cons, MTree.movedKids_cons, hf, List.append_assoc] using hd
      · intro x hx hxn
        simp only [MTree.idsL_cons, List.mem_append, not_or] at hx
        rw [fr2 x hx.2 hxn, fr1 x hx.1 hxn]

end MusicTree

namespace MusicTree

theorem size_step (a : Int) (b : Nat) : a - (b : Int) - 1 = a - ((1 + b : Nat) : Int) := by
  push_cast; ring

theorem prune_sub (thr : Dbl) : ∀ (k w : Nat) (t : MTree) (p : Nat) (pd : MotifNode)
    (l : List Nat) (h : Heap) (tr : MusicalTree),
      t.size ≤ k → TreeAt h (some p) t → t.ids.Nodup → h p = some pd → t.id ∈ pd.children_ →
      (∀ x ∈ t.ids, x ∈ pd.children_ → x = t.id) →
      Chain h (some p) l → (∀ x ∈ t.ids, x ∉ l) → l.length + t.size ≤ w →
      ∃ h', PruneNodes k w (h, tr) (some t.id) thr =
          .ok (h', { tr with size_ := tr.size_ - (MTree.countBelow thr t : Nat) }) ∧
        (∀ x, x ∉ t.ids → x ≠ p → h' x = h x) ∧
        h' p = some { pd with children_ :=
          if t.fit < thr then
            pd.children_.erase t.id ++ (MTree.pruneSub thr t).toList.map MTree.id
          else pd.children_ } ∧
        (∀ r ∈ (MTree.pruneSub thr t).toList, TreeAt h' (some p) r) := by
  intro k
  induction k with
  | zero =>
    intro w t p pd l h tr hs
    have := t.size_pos
    omega
  | succ k ih =>
    intro w t p pd l h tr hs ht hnd hp hmem hsib hch hdis hw
    cases ht with
    | mk _ n m f cs hroot hkids =>
      simp only [MTree.id_node, MTree.ids_node, MTree.size_node, MTree.fit_node,
        List.nodup_cons, List.mem_cons, forall_eq_or_imp] at *
      obtain ⟨hn1, hndcs⟩ := hnd
      obtain ⟨hnl, hdis⟩ := hdis
      have hpl : p ∈ l := hch.head_mem
      have hpn : p ≠ n := fun e => hnl (e ▸ hpl)
      have hpcs : p ∉ MTree.idsL cs := fun hm => hdis p hm hpl
      obtain ⟨h1, e1, hn1', ht1, fr1⟩ := prune_loop k w thr (ih w) n m (some p) f (n :: l)
        cs [] [] h tr (by simpa using hroot) (by simpa using hkids) (by simpa using hndcs)
        (Chain.cons n _ l hroot hch)
        (by
          intro x hx
          simp only [List.nil_append, List.append_nil] at hx
          simp only [List.mem_cons, not_or]
          exact ⟨fun e => hn1 (e ▸ hx), hdis x hx⟩)
        (by
          intro c hc
          have := MTree.size_le_of_mem hc
          simp only [List.length_cons]
          omega)
      simp only [List.nil_append, List.append_nil] at hn1' ht1
      have hp1 : h1 p = some pd := by rw [fr1 p hpcs hpn]; exact hp
      have hsubK := MTree.kids_ids_sub thr cs
      have hndK := MTree.kids_ids_nodup thr cs hndcs
      by_cases hf : f < thr
      · rcases List.eq_nil_or_concat (MTree.keptKids thr cs ++ MTree.movedKids thr cs) with
          he | ⟨init, lt, he⟩
        · -- every child is gone: the node is removed from its parent
          rw [he] at hn1'
          have hrem := RemoveChildNode_ok hp1 hn1' (Ne.symm hpn) hmem
          rw [PruneNodes]
          simp only [hroot, reduceCtorEq, false_and, if_false, e1, bind_ok, hn1', hf, if_true,
            List.map_nil, List.getLast?_nil, hrem, liftH_ok, pure, Except.pure]
          refine ⟨_, congrArg Except.ok (Prod.ext rfl ?_), ?_, ?_, ?_⟩
          · show MusicalTree.mk _ _ _ = MusicalTree.mk _ _ _
            rw [size_step, MTree.countBelow_node]
            simp [hf]
          · intro x hx hxp
            simp only [not_or] at hx
            rw [Heap.free_ne _ hx.1, Heap.set_ne _ _ hx.1, Heap.set_ne _ _ hxp]
            exact fr1 x hx.2 hx.1
          · rw [Heap.free_ne _ hpn, Heap.set_ne _ _ hpn, Heap.set_same]
            simp [MTree.pruneSub_lt_nil hf he]
          · simp [MTree.pruneSub_lt_nil hf he]
        · -- the last child survives and takes the place of the node
          rw [List.concat_eq_append] at he
          rw [he] at hn1' ht1 hsubK hndK
          have hndsv : (n :: MTree.idsL (init ++ [lt])).Nodup :=
            List.nodup_cons.mpr ⟨fun hm => hn1 (hsubK n hm), hndK⟩
          obtain ⟨h2, h3, hrem, hadopt, hn3, ht3, fr3⟩ := survivor_spec w (by omega) h1 n _ init lt
            hn1' rfl ht1 hndsv
          have hltcs : lt.id ∈ MTree.idsL cs :=
            hsubK _ (by simp [MTree.id_mem_ids])
          have hltn : lt.id ≠ n := fun e => hn1 (e ▸ hltcs)
          have hltp : lt.id ≠ p := fun e => hpcs (e ▸ hltcs)
          have hp3 : h3 p = some pd := by
            rw [fr3 p hpn (fun hm => hpcs (hsubK p hm))]; exact hp1
          have hch3 : Chain h3 (some p) l := by
            refine hch.congr ?_
            intro x hx nd hxnd
            have hxn : x ≠ n := fun e => hnl (e ▸ hx)
            have hxcs : x ∉ MTree.idsL cs := fun hm => hdis x hm hx
            refine ⟨nd, ?_, rfl⟩
            rw [fr3 x hxn (fun hm => hxcs (hsubK x hm)), fr1 x hxcs hxn]
            exact hxnd
          have hadd := AddChildNode_ok (w := w) hp3 ht3.root hch3 (by omega)
            (fun hm => hltn (hsib.2 lt.id hltcs hm)) (hdis lt.id hltcs)
          simp only [MTree.id_node, MTree.motif_node, MTree.kids_node, MTree.fit_node] at hadd
          set h4 : Heap := (h3.set p { pd with children_ := pd.children_ ++ [lt.id] }).set lt.id
            { motif_ := lt.motif, parent_ := some p,
              children_ := List.map MTree.id (lt.kids ++ init), fitness_score_ := lt.fit }
            with hh4
          have hn4 : h4 n = h3 n := by
            simp [hh4, Heap.set_ne _ _ (Ne.symm hltn), Heap.set_ne _ _ (Ne.symm hpn)]
          have hp4 : h4 p = some { pd with children_ := pd.children_ ++ [lt.id] } := by
            simp [hh4, Heap.set_ne _ _ (Ne.symm hltp)]
          have hrem2 := RemoveChildNode_ok hp4 (hn4.trans hn3) (Ne.symm hpn)
            (by simp [hmem])
          have hlast : (List.map MTree.id (init ++ [lt])).getLast? = some lt.id := by simp
          rw [PruneNodes]
          simp only [hroot, reduceCtorEq, false_and, if_false, e1, bind_ok, hn1', hf, if_true,
            hlast, hrem, liftH_ok, hadopt, hn3, hadd, hn4, hrem2, pure, Except.pure]
          refine ⟨_, congrArg Except.ok (Prod.ext rfl ?_), ?_, ?_, ?_⟩
          · show MusicalTree.mk _ _ _ = MusicalTree.mk _ _ _
            rw [size_step, MTree.countBelow_node]
            simp [hf]
          · intro x hx hxp
            simp only [not_or] at hx
            have hxlt : x ≠ lt.id := fun e => hx.2 (e ▸ hltcs)
            rw [Heap.free_ne _ hx.1, Heap.set_ne _ _ hx.1, Heap.set_ne _ _ hxp, hh4,
              Heap.set_ne _ _ hxlt, Heap.set_ne _ _ hxp,
              fr3 x hx.1 (fun hm => hx.2 (hsubK x hm)), fr1 x hx.2 hx.1]
          · rw [Heap.free_ne _ hpn, Heap.set_ne _ _ hpn, Heap.set_same]
            simp [MTree.pruneSub_lt_concat hf he, List.erase_append_left _ hmem]
          · intro r hr
            simp only [MTree.pruneSub_lt_concat hf he, Option.toList_some,
              List.mem_singleton] at hr
            subst hr
            refine ht3.reparent ?_ ?_
            · simp only [MTree.id_node, MTree.motif_node, MTree.kids_node, MTree.fit_node]
              rw [Heap.free_ne _ hltn, Heap.set_ne _ _ hltn, Heap.set_ne _ _ hltp, hh4,
                Heap.set_same]
            · intro x hx
              simp only [MTree.kids_node] at hx
              have hxsv : x ∈ MTree.idsL (init ++ [lt]) := by
                simp only [MTree.idsL_append, MTree.idsL_cons, MTree.idsL_nil,
                  List.append_nil, List.mem_append] at hx ⊢
                rcases hx with hx | hx
                · right; rw [← MTree.eta lt]; simp [hx]
                · left; exact hx
              have hxcs : x ∈ MTree.idsL cs := hsubK x hxsv
              have hxn : x ≠ n := fun e => hn1 (e ▸ hxcs)
              have hxp : x ≠ p := fun e => hpcs (e ▸ hxcs)
              have hxlt : x ≠ lt.id := by
                have hnd3 : (MTree.idsL (init ++ [lt])).Nodup := hndK
                simp only [MTree.idsL_append, MTree.idsL_cons, MTree.idsL_nil,
                  List.append_nil, List.nodup_append, List.mem_append] at hnd3 hx
                obtain ⟨_, hl, hd⟩ := hnd3
                rintro rfl
                rcases hx with hx | hx
                · rw [← MTree.eta lt] at hl
                  simp only [MTree.ids_node, List.nodup_cons] at hl
                  exact hl.1 hx
                · exact hd hx (MTree.id_mem_ids lt)
              rw [Heap.free_ne _ hxn, Heap.set_ne _ _ hxn, Heap.set_ne _ _ hxp, hh4,
                Heap.set_ne _ _ hxlt, Heap.set_ne _ _ hxp]
      · -- the node is kept
        rw [PruneNodes]
        simp only [hroot, reduceCtorEq, false_and, if_false, e1, bind_ok, hn1', hf,
          pure, Except.pure]
        refine ⟨h1, congrArg Except.ok (Prod.ext rfl ?_), ?_, ?_, ?_⟩
        · show MusicalTree.mk _ _ _ = MusicalTree.mk _ _ _
          rw [MTree.countBelow_node]
          simp [hf]
        · intro x hx hxp
          simp only [not_or] at hx
          exact fr1 x hx.2 hx.1
        · simpa using hp1
        · intro r hr
          simp only [MTree.pruneSub_ge hf, Option.toList_some, List.mem_singleton] at hr
          subst hr
          exact TreeAt.mk (some p) n m f _ hn1' ht1

end MusicTree

namespace MusicTree

namespace MTree

theorem below_add_kept (thr : Dbl) (cs : List MTree) :
    ((nodesL cs).filter (fun x => decide (x.2.2 < thr))).length +
      (nodesL (keptKids thr cs ++ movedKids thr cs)).length = (nodesL cs).length := by
  rw [(kids_nodes_perm' thr cs).length_eq]
  have := List.length_eq_length_filter_add (l := nodesL cs) (fun x => decide (x.2.2 < thr))
  omega

end MTree

/-- Behaviour of `PruneNodes` called on the root of a well-formed tree: it returns, the heap
then holds the pruned tree below an absent parent, `root_` points to its root,
`size_` has been decremented once for every removed node, and no address
outside the original tree has been touched. -/
theorem prune_root (thr : Dbl) (fuel w : Nat) (t : MTree) (h : Heap) (tr : MusicalTree)
    (ht : TreeAt h none t) (hnd : t.ids.Nodup) (hroot : tr.root_ = some t.id)
    (hfuel : t.size ≤ fuel) (hw : t.size ≤ w) :
    ∃ h', PruneNodes fuel w (h, tr) (some t.id) thr =
        .ok (h', { tr with root_ := some (MTree.pruneRoot thr t).id,
                           size_ := tr.size_ - (t.size : Int) + ((MTree.pruneRoot thr t).size : Int) }) ∧
      TreeAt h' none (MTree.pruneRoot thr t) ∧
      (∀ x, x ∉ t.ids → h' x = h x) := by
  cases fuel with
  | zero => have := t.size_pos; omega
  | succ k =>
    cases ht with
    | mk _ r m f cs hr hkids =>
      simp only [MTree.id_node, MTree.ids_node, MTree.size_node, List.nodup_cons] at *
      obtain ⟨hr1, hndcs⟩ := hnd
      by_cases hcs : cs = []
      · subst hcs
        have hpr : MTree.pruneRoot thr (MTree.node r m f []) = MTree.node r m f [] := by
          by_cases hf : f < thr
          · exact MTree.pruneRoot_lt_nil hf (by simp)
          · simp [MTree.pruneRoot_ge hf]
        rw [PruneNodes]
        simp only [hr, List.map_nil, and_self, if_true, hpr]
        refine ⟨h, congrArg Except.ok (Prod.ext rfl ?_), TreeAt.mk none r m f [] hr hkids,
          fun _ _ => rfl⟩
        cases tr
        simp at hroot ⊢
        exact hroot
      · have hchain : Chain h (some r) [r] := Chain.cons r _ [] hr Chain.nil
        obtain ⟨h1, e1, hn1', ht1, fr1⟩ := prune_loop k w thr (prune_sub thr k w) r m none f [r]
          cs [] [] h tr (by simpa using hr) (by simpa using hkids) (by simpa using hndcs)
          hchain
          (by
            intro x hx
            simp only [List.nil_append, List.append_nil] at hx
            simp only [List.mem_singleton]
            exact fun e => hr1 (e ▸ hx))
          (by
            intro c hc
            have := MTree.size_le_of_mem hc
            simp only [List.length_singleton]
            omega)
        simp only [List.nil_append, List.append_nil] at hn1' ht1
        have hsubK := MTree.kids_ids_sub thr cs
        have hndK := MTree.kids_ids_nodup thr cs hndcs
        have hcnt := MTree.below_add_kept thr cs
        have hne : ¬ (List.map MTree.id cs = []) := by simpa using hcs
        by_cases hf : f < thr
        · rcases List.eq_nil_or_concat (MTree.keptKids thr cs ++ MTree.movedKids thr cs) with
            he | ⟨init, lt, he⟩
          · rw [he] at hn1' ht1 hcnt
            rw [PruneNodes]
            simp only [hr, hne, and_false, if_false, e1, bind_ok, hn1', hf, if_true,
              List.map_nil, List.getLast?_nil, pure, Except.pure, MTree.pruneRoot_lt_nil hf he]
            refine ⟨h1, congrArg Except.ok (Prod.ext rfl ?_), TreeAt.mk none r m f [] hn1' ht1,
              ?_⟩
            · show MusicalTree.mk _ _ _ = MusicalTree.mk _ _ _
              simp only [MTree.nodesL_nil, List.length_nil, add_zero] at hcnt
              simp only [MTree.id_node, MTree.size_node, MTree.nodesL_nil, List.length_nil,
                hroot, hcnt]
              congr 1
              push_cast
              ring
            · intro x hx
              simp only [List.mem_cons, not_or] at hx
              exact fr1 x hx.2 hx.1
          · rw [List.concat_eq_append] at he
            rw [he] at hn1' ht1 hsubK hndK hcnt
            have hndsv : (r :: MTree.idsL (init ++ [lt])).Nodup :=
              List.nodup_cons.mpr ⟨fun hm => hr1 (hsubK r hm), hndK⟩
            obtain ⟨h2, h3, hrem, hadopt, hn3, ht3, fr3⟩ := survivor_spec w (by omega) h1 r _
              init lt hn1' rfl ht1 hndsv
            have hltcs : lt.id ∈ MTree.idsL cs := hsubK _ (by simp [MTree.id_mem_ids])
            have hltr : lt.id ≠ r := fun e => hr1 (e ▸ hltcs)
            have hlast : (List.map MTree.id (init ++ [lt])).getLast? = some lt.id := by simp
            have hl3 := ht3.root
            simp only [MTree.id_node, MTree.motif_node, MTree.kids_node, MTree.fit_node] at hl3
            rw [PruneNodes]
            simp only [hr, hne, and_false, if_false, e1, bind_ok, hn1', hf, if_true,
              hlast, hrem, liftH_ok, hadopt, hn3, SetNullParent, hl3, pure, Except.pure,
              MTree.pruneRoot_lt_concat hf he]
            refine ⟨_, congrArg Except.ok (Prod.ext rfl ?_), ?_, ?_⟩
            · show MusicalTree.mk _ _ _ = MusicalTree.mk _ _ _
              simp only [MTree.id_node, MTree.size_node, MTree.nodesL_append,
                List.length_append, MTree.nodesL_cons, MTree.nodesL_nil, List.append_nil,
                MTree.nodes_eq lt, List.length_cons] at hcnt ⊢
              congr 1
              have : ((MTree.nodesL cs).length : Int) =
                  ((List.filter (fun x => decide (x.2.2 < thr)) (MTree.nodesL cs)).length : Int) +
                    (((MTree.nodesL init).length : Int) +
                      (((MTree.nodesL lt.kids).length : Int) + 1)) := by
                exact_mod_cast hcnt.symm
              push_cast
              rw [this]
              ring
            · refine ht3.reparent ?_ ?_
              · simp only [MTree.id_node, MTree.motif_node, MTree.kids_node, MTree.fit_node]
                rw [Heap.free_ne _ hltr, Heap.set_same]
              · intro x hx
                simp only [MTree.kids_node] at hx
                have hxsv : x ∈ MTree.idsL (init ++ [lt]) := by
                  simp only [MTree.idsL_append, MTree.idsL_cons, MTree.idsL_nil,
                    List.append_nil, List.mem_append] at hx ⊢
                  rcases hx with hx | hx
                  · right; rw [← MTree.eta lt]; simp [hx]
                  · left; exact hx
                have hxcs : x ∈ MTree.idsL cs := hsubK x hxsv
                have hxr : x ≠ r := fun e => hr1 (e ▸ hxcs)
                have hxlt : x ≠ lt.id := by
                  have hnd3 : (MTree.idsL (init ++ [lt])).Nodup := hndK
                  simp only [MTree.idsL_append, MTree.idsL_cons, MTree.idsL_nil,
                    List.append_nil, List.nodup_append, List.mem_append] at hnd3 hx
                  obtain ⟨_, hl, hd⟩ := hnd3
                  rintro rfl
                  rcases hx with hx | hx
                  · rw [← MTree.eta lt] at hl
                    simp only [MTree.ids_node, List.nodup_cons] at hl
                    exact hl.1 hx
                  · exact hd hx (MTree.id_mem_ids lt)
                rw [Heap.free_ne _ hxr, Heap.set_ne _ _ hxlt]
            · intro x hx
              simp only [List.mem_cons, not_or] at hx
              have hxlt : x ≠ lt.id := fun e => hx.2 (e ▸ hltcs)
              rw [Heap.free_ne _ hx.1, Heap.set_ne _ _ hxlt,
                fr3 x hx.1 (fun hm => hx.2 (hsubK x hm)), fr1 x hx.2 hx.1]
        · rw [PruneNodes]
          simp only [hr, hne, and_false, if_false, e1, bind_ok, hn1', hf,
            pure, Except.pure, MTree.pruneRoot_ge hf]
          refine ⟨h1, congrArg Except.ok (Prod.ext rfl ?_), TreeAt.mk none r m f _ hn1' ht1,
            ?_⟩
          · show MusicalTree.mk _ _ _ = MusicalTree.mk _ _ _
            simp only [MTree.id_node, MTree.size_node, hroot]
            congr 1
            have : ((MTree.nodesL cs).length : Int) =
                ((List.filter (fun x => decide (x.2.2 < thr)) (MTree.nodesL cs)).length : Int) +
                  ((MTree.nodesL (MTree.keptKids thr cs ++ MTree.movedKids thr cs)).length : Int) := by
              exact_mod_cast hcnt.symm
            push_cast
            rw [this]
            ring
          · intro x hx
            simp only [List.mem_cons, not_or] at hx
            exact fr1 x hx.2 hx.1

end MusicTree

namespace MusicTree

theorem MTree.mem_nodesL {cs : List MTree} {e : Nat × List Note × Dbl} :
    e ∈ MTree.nodesL cs ↔ ∃ c ∈ cs, e ∈ c.nodes := by
  induction cs with
  | nil => simp
  | cons d ds ih => simp [ih]

/-! ## What a held tree says about the heap itself -/

theorem TreeAt.child_closed {h : Heap} {p : Option Nat} {t : MTree} (ht : TreeAt h p t) :
    ∀ y ∈ t.ids, ∀ z, Child h y z → z ∈ t.ids := by
  induction ht with
  | mk p i m f cs h1 _ ih =>
    intro y hy z hz
    simp only [MTree.ids_node, List.mem_cons] at hy ⊢
    rcases hy with rfl | hy
    · obtain ⟨nd, hnd, hm⟩ := hz
      rw [h1] at hnd
      cases hnd
      exact Or.inr (MTree.map_id_subset_idsL cs z hm)
    · obtain ⟨c, hc, hyc⟩ := MTree.mem_idsL.mp hy
      exact Or.inr (MTree.ids_subset_idsL hc z (ih c hc y hyc z hz))

theorem TreeAt.reach_closed {h : Heap} {p : Option Nat} {t : MTree} (ht : TreeAt h p t)
    {y z : Nat} (hy : y ∈ t.ids) (hr : Reach h y z) : z ∈ t.ids := by
  induction hr with
  | refl => exact hy
  | tail _ hstep ih => exact ht.child_closed _ ih _ hstep

theorem TreeAt.reach_of_mem {h : Heap} {p : Option Nat} {t : MTree} (ht : TreeAt h p t) :
    ∀ x ∈ t.ids, Reach h t.id x := by
  induction ht with
  | mk p i m f cs h1 _ ih =>
    intro x hx
    simp only [MTree.ids_node, List.mem_cons] at hx
    rcases hx with rfl | hx
    · exact Relation.ReflTransGen.refl
    · obtain ⟨c, hc, hxc⟩ := MTree.mem_idsL.mp hx
      have hstep : Child h i c.id := ⟨_, h1, List.mem_map_of_mem _ hc⟩
      exact Relation.ReflTransGen.head hstep (ih c hc x hxc)

/-- The nodes reachable from the root of a held tree are the nodes of the tree. -/
theorem TreeAt.reach_iff {h : Heap} {p : Option Nat} {t : MTree} (ht : TreeAt h p t) (x : Nat) :
    Reach h t.id x ↔ x ∈ t.ids :=
  ⟨fun hr => ht.reach_closed (MTree.id_mem_ids t) hr, ht.reach_of_mem x⟩

/-- The record stored at a node of a held tree carries the node's motif and fitness. -/
theorem TreeAt.node_data {h : Heap} {p : Option Nat} {t : MTree} (ht : TreeAt h p t) :
    (∀ x ∈ t.ids, ∃ nd, h x = some nd ∧ (x, nd.motif_, nd.fitness_score_) ∈ t.nodes) ∧
    (∀ e ∈ t.nodes, ∃ nd, h e.1 = some nd ∧ nd.motif_ = e.2.1 ∧ nd.fitness_score_ = e.2.2) := by
  induction ht with
  | mk p i m f cs h1 _ ih =>
    constructor
    · intro x hx
      simp only [MTree.ids_node, List.mem_cons] at hx
      rcases hx with rfl | hx
      · exact ⟨_, h1, by simp⟩
      · obtain ⟨c, hc, hxc⟩ := MTree.mem_idsL.mp hx
        obtain ⟨nd, hnd, hmem⟩ := (ih c hc).1 x hxc
        refine ⟨nd, hnd, ?_⟩
        simp only [MTree.nodes_node, List.mem_cons]
        exact Or.inr (MTree.mem_nodesL.mpr ⟨c, hc, hmem⟩)
    · intro e he
      simp only [MTree.nodes_node, List.mem_cons] at he
      rcases he with rfl | he
      · exact ⟨_, h1, rfl, rfl⟩
      · obtain ⟨c, hc, hec⟩ := MTree.mem_nodesL.mp he
        exact (ih c hc).2 e hec

/-- In a held tree without repeated addresses no node is its own descendant. -/
theorem TreeAt.acyclic {h : Heap} {p : Option Nat} {t : MTree} (ht : TreeAt h p t) :
    t.ids.Nodup → ∀ x ∈ t.ids, ¬ Descendant h x x := by
  induction ht with
  | mk p i m f cs h1 h2 ih =>
    intro hnd x hx hcyc
    simp only [MTree.ids_node, List.nodup_cons, List.mem_cons] at hnd hx
    obtain ⟨hi, hndcs⟩ := hnd
    have hsub : ∀ c ∈ cs, c.ids.Nodup := by
      intro c hc
      clear ih h2 hx hcyc hi h1
      induction cs with
      | nil => cases hc
      | cons d ds ihd =>
        simp only [MTree.idsL_cons, List.nodup_append] at hndcs
        rcases List.mem_cons.mp hc with rfl | hc'
        · exact hndcs.1
        · exact ihd hndcs.2.1 hc'
    rcases hx with rfl | hx
    · obtain ⟨y, hstep, hrest⟩ := Relation.TransGen.head'_iff.mp hcyc
      obtain ⟨nd, hnd', hm⟩ := hstep
      rw [h1] at hnd'
      cases hnd'
      obtain ⟨c, hc, rfl⟩ := List.mem_map.mp hm
      have := (h2 c hc).reach_closed (MTree.id_mem_ids c) hrest
      exact hi (MTree.ids_subset_idsL hc _ this)
    · obtain ⟨c, hc, hxc⟩ := MTree.mem_idsL.mp hx
      exact ih c hc (hsub c hc) x hxc hcyc

/-- In a held tree without repeated addresses every node other than the root
names as parent a node of the tree that lists it exactly once. -/
theorem TreeAt.parent_of {h : Heap} {p : Option Nat} {t : MTree} (ht : TreeAt h p t) :
    t.ids.Nodup → ∀ x ∈ t.ids, x ≠ t.id →
      ∃ nd q qd, h x = some nd ∧ nd.parent_ = some q ∧ q ∈ t.ids ∧ h q = some qd ∧
        qd.children_.count x = 1 := by
  induction ht with
  | mk p i m f cs h1 h2 ih =>
    intro hnd x hx hne
    simp only [MTree.ids_node, List.nodup_cons, List.mem_cons, MTree.id_node] at hnd hx hne
    obtain ⟨hi, hndcs⟩ := hnd
    have hsub : ∀ c ∈ cs, c.ids.Nodup := by
      intro c hc
      clear ih h2 hx hi h1
      induction cs with
      | nil => cases hc
      | cons d ds ihd =>
        simp only [MTree.idsL_cons, List.nodup_append] at hndcs
        rcases List.mem_cons.mp hc with rfl | hc'
        · exact hndcs.1
        · exact ihd hndcs.2.1 hc'
    rcases hx with rfl | hx
    · exact absurd rfl hne
    · obtain ⟨c, hc, hxc⟩ := MTree.mem_idsL.mp hx
      by_cases e : x = c.id
      · subst e
        refine ⟨_, i, _, (h2 c hc).root, rfl, by simp, h1, ?_⟩
        exact List.count_eq_one_of_mem ((MTree.map_id_sublist_idsL cs).nodup hndcs)
          (List.mem_map_of_mem _ hc)
      · obtain ⟨nd, q, qd, a1, a2, a3, a4, a5⟩ := ih c hc (hsub c hc) x hxc e
        exact ⟨nd, q, qd, a1, a2, by
          simp only [MTree.ids_node, List.mem_cons]
          exact Or.inr (MTree.ids_subset_idsL hc q a3), a4, a5⟩

/-! ## Counting -/

theorem CountNodes_spec (h : Heap) :
    ∀ fuel (t : MTree) (p : Option Nat), TreeAt h p t → t.size ≤ fuel →
      CountNodes fuel h (some t.id) = .ok (t.size : Int) := by
  intro fuel
  induction fuel with
  | zero =>
    intro t p _ hs
    have := t.size_pos
    omega
  | succ k ih =>
    intro t p ht hs
    cases ht with
    | mk p i m f cs h1 h2 =>
      have hloop : ∀ (l : List MTree) (acc : Int), (∀ c ∈ l, c ∈ cs) →
          List.foldlM (fun count child => do
              let k' ← CountNodes k h (some child)
              pure (count + k')) acc (l.map MTree.id) =
            .ok (acc + ((MTree.nodesL l).length : Int)) := by
        intro l
        induction l with
        | nil => intro acc _; simp [pure, Except.pure]
        | cons d ds ihd =>
          intro acc hsub
          have hd : d ∈ cs := hsub d (by simp)
          have hsz : d.size ≤ k := by
            have := MTree.size_le_of_mem hd
            simp at hs
            omega
          simp only [List.map_cons, List.foldlM_cons]
          rw [ih d (some i) (h2 d hd) hsz]
          simp only [bind_ok, pure_bind]
          rw [ihd _ (fun c hc => hsub c (List.mem_cons_of_mem _ hc))]
          simp [MTree.size, add_assoc]
      simp only [MTree.id_node, CountNodes, h1]
      rw [hloop cs 1 (fun c hc => hc)]
      simp [add_comm]

end MusicTree

namespace MusicTree

namespace MTree

theorem filter_split (thr : Dbl) (l : List (Nat × List Note × Dbl)) :
    (l.filter (fun x => decide (x.2.2 < thr))).length +
      (l.filter (fun x => !decide (x.2.2 < thr))).length = l.length := by
  have := List.length_eq_length_filter_add (l := l) (fun x => decide (x.2.2 < thr))
  omega

theorem pruneRoot_ids_nodup (thr : Dbl) (t : MTree) (hnd : t.ids.Nodup) :
    (pruneRoot thr t).ids.Nodup := by
  by_cases hex : ∃ x ∈ t.nodes, ¬ x.2.2 < thr
  · exact (ids_sub_of_perm_filter (pruneRoot_nodes_perm thr t hex)).2 hnd
  · have hno : ∀ x ∈ t.nodes, x.2.2 < thr := by
      intro x hx
      by_contra hlt
      exact hex ⟨x, hx, hlt⟩
    rw [pruneRoot_alone thr t hno]
    simp

theorem pruneRoot_size_le (thr : Dbl) (t : MTree) : (pruneRoot thr t).size ≤ t.size := by
  by_cases hex : ∃ x ∈ t.nodes, ¬ x.2.2 < thr
  · unfold size
    rw [(pruneRoot_nodes_perm thr t hex).length_eq]
    exact List.length_filter_le _ _
  · have hno : ∀ x ∈ t.nodes, x.2.2 < thr := by
      intro x hx
      by_contra hlt
      exact hex ⟨x, hx, hlt⟩
    rw [pruneRoot_alone thr t hno]
    have := t.size_pos
    simpa using this

theorem pruneRoot_size (thr : Dbl) (t : MTree) (hex : ∃ x ∈ t.nodes, ¬ x.2.2 < thr) :
    (pruneRoot thr t).size + countBelow thr t = t.size := by
  unfold size countBelow
  rw [(pruneRoot_nodes_perm thr t hex).length_eq]
  have := filter_split thr t.nodes
  omega

theorem melodyL_eq (cs : List MTree) : melodyL cs = (cs.map melody).flatten := by
  induction cs with
  | nil => simp
  | cons d ds ih => simp [ih]

end MTree

theorem HoldsTree.exists_ge_iff {h : Heap} {tr : MusicalTree} {t : MTree} (hT : HoldsTree h tr t)
    (thr : Dbl) :
    (∃ x nd, Reach h t.id x ∧ h x = some nd ∧ ¬ nd.fitness_score_ < thr) ↔
      ∃ e ∈ t.nodes, ¬ e.2.2 < thr := by
  obtain ⟨ht, _, _⟩ := hT
  constructor
  · rintro ⟨x, nd, hr, hx, hge⟩
    obtain ⟨nd', hx', hmem⟩ := ht.node_data.1 x ((ht.reach_iff x).mp hr)
    rw [hx] at hx'
    cases hx'
    exact ⟨_, hmem, hge⟩
  · rintro ⟨e, he, hge⟩
    obtain ⟨nd, hx, _, hf⟩ := ht.node_data.2 e he
    refine ⟨e.1, nd, (ht.reach_iff _).mpr (List.mem_map_of_mem _ he), hx, ?_⟩
    rw [hf]; exact hge

theorem exHolds : HoldsTree exHeap exObj exTree := by
  refine ⟨?_, rfl, by decide⟩
  refine TreeAt.mk none 0 _ 5 _ (by simp [exHeap, exNode, MTree.id]) ?_
  intro c hc
  simp only [List.mem_cons, List.mem_singleton, List.not_mem_nil, or_false] at hc
  rcases hc with rfl | rfl
  · refine TreeAt.mk (some 0) 1 _ 5 _ (by simp [exHeap, exNode, MTree.id]) ?_
    intro c hc
    simp only [List.mem_cons, List.mem_singleton, List.not_mem_nil, or_false] at hc
    rcases hc with rfl | rfl
    · exact TreeAt.mk (some 1) 3 _ 50 [] (by simp [exHeap, exNode]) (by simp)
    · exact TreeAt.mk (some 1) 4 _ 5 [] (by simp [exHeap, exNode]) (by simp)
  · exact TreeAt.mk (some 0) 2 _ 50 [] (by simp [exHeap, exNode]) (by simp)

end MusicTree

namespace MusicTree

/-- Threshold guarantee on a held tree: on a well-formed tree `PruneNodes(root_, thr)` returns; if some node of
the tree had fitness at least `thr`, every node reachable from the new root has
fitness at least `thr`; if no node had, the root is unchanged and is left alone
with an empty child list. -/
theorem prune_threshold_held (thr : Dbl) (fuel w : Nat) (h : Heap) (tr : MusicalTree) (t : MTree)
    (hT : HoldsTree h tr t) (hfuel : t.size ≤ fuel) (hw : t.size ≤ w) :
    ∃ h' tr' r', PruneNodes fuel w (h, tr) tr.root_ thr = .ok (h', tr') ∧
      tr'.root_ = some r' ∧
      ((∃ x nd, Reach h t.id x ∧ h x = some nd ∧ ¬ nd.fitness_score_ < thr) →
        ∀ x, Reach h' r' x → ∃ nd, h' x = some nd ∧ ¬ nd.fitness_score_ < thr) ∧
      ((∀ x nd, Reach h t.id x → h x = some nd → nd.fitness_score_ < thr) →
        r' = t.id ∧ (∀ x, Reach h' r' x → x = t.id) ∧
        ∃ nd, h t.id = some nd ∧ h' t.id = some { nd with children_ := [] }) := by
  obtain ⟨ht, hroot, hnd⟩ := hT
  obtain ⟨h', e, ht', _⟩ := prune_root thr fuel w t h tr ht hnd hroot hfuel hw
  refine ⟨h', _, (MTree.pruneRoot thr t).id, by rw [hroot]; exact e, rfl, ?_, ?_⟩
  · intro hex x hx
    have hex' := (HoldsTree.exists_ge_iff ⟨ht, hroot, hnd⟩ thr).mp hex
    obtain ⟨nd, hxnd, hmem⟩ := ht'.node_data.1 x ((ht'.reach_iff x).mp hx)
    refine ⟨nd, hxnd, ?_⟩
    have := ((MTree.pruneRoot_nodes_perm thr t hex').mem_iff).mp hmem
    simpa using (List.mem_filter.mp this).2
  · intro hno
    have hno' : ∀ e ∈ t.nodes, e.2.2 < thr := by
      intro e he
      obtain ⟨nd, hx, _, hf⟩ := ht.node_data.2 e he
      rw [← hf]
      exact hno e.1 nd ((ht.reach_iff _).mpr (List.mem_map_of_mem _ he)) hx
    rw [MTree.pruneRoot_alone thr t hno'] at ht' ⊢
    refine ⟨rfl, ?_, _, ht.root, ?_⟩
    · intro x hx
      have := (ht'.reach_iff x).mp hx
      simpa using this
    · simpa using ht'.root

/-- Survivors on a held tree: when some node of a well-formed tree has fitness at least `thr`, after
`PruneNodes(root_, thr)` the heap holds a well-formed tree whose nodes are
exactly the nodes that had fitness at least `thr`, each with its motif and
fitness unchanged; `CountNodes` and `size_` drop by the number of nodes with
fitness below `thr`, hence by one when exactly one node is below it. -/
theorem prune_survivors_held (thr : Dbl) (fuel w : Nat) (h : Heap) (tr : MusicalTree) (t : MTree)
    (hT : HoldsTree h tr t) (hfuel : t.size ≤ fuel) (hw : t.size ≤ w)
    (hex : ∃ x nd, Reach h t.id x ∧ h x = some nd ∧ ¬ nd.fitness_score_ < thr) :
    ∃ h' tr' t', PruneNodes fuel w (h, tr) tr.root_ thr = .ok (h', tr') ∧
      HoldsTree h' tr' t' ∧
      (∀ x, Reach h' t'.id x ↔
        (Reach h t.id x ∧ ∃ nd, h x = some nd ∧ ¬ nd.fitness_score_ < thr)) ∧
      (∀ x, Reach h' t'.id x → ∃ nd nd', h x = some nd ∧ h' x = some nd' ∧
        nd'.motif_ = nd.motif_ ∧ nd'.fitness_score_ = nd.fitness_score_) ∧
      CountNodes fuel h (some t.id) = .ok (t.size : Int) ∧
      CountNodes fuel h' (some t'.id) = .ok ((t.size : Int) - (MTree.countBelow thr t : Int)) ∧
      tr'.size_ = tr.size_ - (MTree.countBelow thr t : Int) ∧
      (MTree.countBelow thr t = 1 →
        CountNodes fuel h' (some t'.id) = .ok ((t.size : Int) - 1)) := by
  have hex' := (HoldsTree.exists_ge_iff hT thr).mp hex
  obtain ⟨ht, hroot, hnd⟩ := hT
  obtain ⟨h', e, ht', _⟩ := prune_root thr fuel w t h tr ht hnd hroot hfuel hw
  have hperm := MTree.pruneRoot_nodes_perm thr t hex'
  have hsize := MTree.pruneRoot_size thr t hex'
  have hsz : ((MTree.pruneRoot thr t).size : Int) =
      (t.size : Int) - (MTree.countBelow thr t : Int) := by
    have : ((MTree.pruneRoot thr t).size : Int) + (MTree.countBelow thr t : Int) =
        (t.size : Int) := by exact_mod_cast hsize
    linarith
  have hmemiff : ∀ x, x ∈ (MTree.pruneRoot thr t).ids ↔
      (x ∈ t.ids ∧ ∃ nd, h x = some nd ∧ ¬ nd.fitness_score_ < thr) := by
    intro x
    constructor
    · intro hx
      obtain ⟨nd', hx', hm'⟩ := ht'.node_data.1 x hx
      have hm := (List.mem_filter.mp ((hperm.mem_iff).mp hm'))
      obtain ⟨nd, hxnd, _, hf⟩ := ht.node_data.2 _ hm.1
      exact ⟨List.mem_map_of_mem Prod.fst hm.1, nd, hxnd, by
        rw [hf]; simpa using hm.2⟩
    · rintro ⟨hx, nd, hxnd, hge⟩
      obtain ⟨nd0, hx0, hm0⟩ := ht.node_data.1 x hx
      rw [hxnd] at hx0
      cases hx0
      have : (x, nd.motif_, nd.fitness_score_) ∈ (MTree.pruneRoot thr t).nodes :=
        (hperm.mem_iff).mpr (List.mem_filter.mpr ⟨hm0, by simpa using hge⟩)
      exact List.mem_map_of_mem Prod.fst this
  have hcount' := CountNodes_spec h' fuel _ none ht'
    (le_trans (MTree.pruneRoot_size_le thr t) hfuel)
  refine ⟨h', _, MTree.pruneRoot thr t, by rw [hroot]; exact e,
    ⟨ht', rfl, MTree.pruneRoot_ids_nodup thr t hnd⟩, ?_, ?_,
    CountNodes_spec h fuel t none ht hfuel, ?_, ?_, ?_⟩
  · intro x
    rw [ht'.reach_iff, ht.reach_iff]
    exact hmemiff x
  · intro x hx
    obtain ⟨nd', hx', hm'⟩ := ht'.node_data.1 x ((ht'.reach_iff x).mp hx)
    have hm := (List.mem_filter.mp ((hperm.mem_iff).mp hm'))
    obtain ⟨nd, hxnd, hmo, hf⟩ := ht.node_data.2 _ hm.1
    exact ⟨nd, nd', hxnd, hx', hmo.symm, hf.symm⟩
  · rw [hcount', hsz]
  · show tr.size_ - (t.size : Int) + ((MTree.pruneRoot thr t).size : Int) = _
    rw [hsz]; ring
  · intro h1
    rw [hcount', hsz, h1]
    simp

/-- Shape guarantee on a held tree: on a well-formed tree `PruneNodes(root_, thr)` returns without any
failure, and the heap again holds a well-formed tree at `root_`: the root has no
parent, every other reachable node names as parent a reachable node that lists
it exactly once, and no reachable node is its own descendant. -/
theorem prune_wellformed_held (thr : Dbl) (fuel w : Nat) (h : Heap) (tr : MusicalTree) (t : MTree)
    (hT : HoldsTree h tr t) (hfuel : t.size ≤ fuel) (hw : t.size ≤ w) :
    ∃ h' tr' t', PruneNodes fuel w (h, tr) tr.root_ thr = .ok (h', tr') ∧
      HoldsTree h' tr' t' ∧
      (∃ rd, h' t'.id = some rd ∧ rd.parent_ = none) ∧
      (∀ x, Reach h' t'.id x → x ≠ t'.id →
        ∃ nd q qd, h' x = some nd ∧ nd.parent_ = some q ∧ Reach h' t'.id q ∧
          h' q = some qd ∧ qd.children_.count x = 1) ∧
      (∀ x, Reach h' t'.id x → ¬ Descendant h' x x) := by
  obtain ⟨ht, hroot, hnd⟩ := hT
  obtain ⟨h', e, ht', _⟩ := prune_root thr fuel w t h tr ht hnd hroot hfuel hw
  have hnd' := MTree.pruneRoot_ids_nodup thr t hnd
  refine ⟨h', _, MTree.pruneRoot thr t, by rw [hroot]; exact e, ⟨ht', rfl, hnd'⟩,
    ⟨_, ht'.root, rfl⟩, ?_, ?_⟩
  · intro x hx hne
    obtain ⟨nd, q, qd, a1, a2, a3, a4, a5⟩ :=
      ht'.parent_of hnd' x ((ht'.reach_iff x).mp hx) hne
    exact ⟨nd, q, qd, a1, a2, (ht'.reach_iff q).mpr a3, a4, a5⟩
  · intro x hx
    exact ht'.acyclic hnd' x ((ht'.reach_iff x).mp hx)

/-- Root survival on a held tree: after `PruneNodes(root_, thr)` on a well-formed tree the root is a live
node, so the tree has at least one node; and a tree that is a single childless
root is left exactly as it was, with `size_` not decremented, whatever its
fitness and the threshold. -/
theorem prune_never_empty_held (thr : Dbl) (fuel w : Nat) (h : Heap) (tr : MusicalTree) (t : MTree)
    (hT : HoldsTree h tr t) (hfuel : t.size ≤ fuel) (hw : t.size ≤ w) :
    (∃ h' tr' r' rd, PruneNodes fuel w (h, tr) tr.root_ thr = .ok (h', tr') ∧
      tr'.root_ = some r' ∧ h' r' = some rd ∧
      ∃ n : Nat, 1 ≤ n ∧ CountNodes fuel h' (some r') = .ok (n : Int)) ∧
    (t.kids = [] → PruneNodes fuel w (h, tr) tr.root_ thr = .ok (h, tr)) := by
  obtain ⟨ht, hroot, hnd⟩ := hT
  obtain ⟨h', e, ht', _⟩ := prune_root thr fuel w t h tr ht hnd hroot hfuel hw
  constructor
  · exact ⟨h', _, (MTree.pruneRoot thr t).id, _, by rw [hroot]; exact e, rfl, ht'.root,
      (MTree.pruneRoot thr t).size, MTree.size_pos _,
      CountNodes_spec h' fuel _ none ht' (le_trans (MTree.pruneRoot_size_le thr t) hfuel)⟩
  · intro hk
    have hr := ht.root
    rw [hk] at hr
    cases fuel with
    | zero => have := t.size_pos; omega
    | succ k =>
      rw [hroot, PruneNodes]
      simp [hr]

/-- C9: `GenerateMelody` on a held tree returns the preorder concatenation of
the motifs, a node's motif followed by the melodies of its children in child
order; its length is the sum of the motif lengths of all nodes; and the heap is
returned unchanged. -/
theorem GenerateMelody_preorder (fuel : Nat) (h : Heap) (tr : MusicalTree) (t : MTree)
    (p : Option Nat) (ht : TreeAt h p t) (hroot : tr.root_ = some t.id)
    (hfuel : t.size ≤ fuel) :
    GenerateMelody fuel h tr = .ok (h, t.melody) ∧
    t.melody = t.motif ++ (t.kids.map MTree.melody).flatten ∧
    t.melody.length = (t.nodes.map (fun e => e.2.1.length)).sum := by
  refine ⟨?_, ?_, MTree.melody_length t⟩
  · unfold GenerateMelody
    rw [hroot, TraverseTree_spec h fuel t p [] ht hfuel]
    simp
  · cases t with
    | node i m f cs => simp [MTree.melodyL_eq]

/-- C9 witness: the melody of the sample tree visits the nodes in the order
0, 1, 3, 4, 2. -/
theorem GenerateMelody_preorder_witness :
    GenerateMelody 5 exHeap exObj =
      .ok (exHeap, [{ pitch := 60, duration := 1 / 2 }, { pitch := 61, duration := 1 / 2 },
        { pitch := 63, duration := 1 / 2 }, { pitch := 64, duration := 1 / 2 },
        { pitch := 62, duration := 1 / 2 }]) := by
  have key := (GenerateMelody_preorder 5 exHeap exObj exTree none exHolds.1 rfl (by decide)).1
  rw [key]
  rfl

end MusicTree

namespace MusicTree

/-- C5 witness: node `1` of the sample heap, whose parent chain is `1, 0`,
adopts the detached node `5`. -/
theorem AddChildNode_contract_witness :
    ∃ h', AddChildNode 2 exHeap 1 (some 5) = .ok h' ∧
      h' 1 = some (exNode 1 (some 0) [3, 4, 5] 5) ∧
      h' 5 = some (exNode 5 (some 1) [] 70) := by
  have hchain : Chain exHeap (some 1) [1, 0] :=
    Chain.cons 1 (exNode 1 (some 0) [3, 4] 5) [0] rfl
      (Chain.cons 0 (exNode 0 none [1, 2] 5) [] rfl Chain.nil)
  have hlive : ∀ c, some 5 = some c → ∃ cd, exHeap c = some cd := by
    intro c hc
    cases hc
    exact ⟨_, rfl⟩
  obtain ⟨cd, h', hcd, hok, h1, h5, _⟩ :=
    (AddChildNode_contract 2 exHeap 1 (exNode 1 (some 0) [3, 4] 5) [1, 0] (some 5) rfl hchain
      (by decide) hlive).2.2 5 rfl (by simp [exNode]) (by decide)
  have hcd' : cd = exNode 5 none [] 70 := by
    have : exHeap 5 = some (exNode 5 none [] 70) := rfl
    rw [hcd] at this
    exact Option.some.inj this
  subst hcd'
  exact ⟨h', hok, by simpa [exNode] using h1, by simpa [exNode] using h5⟩

/-- C6, the failing input: starting from three fresh nodes, node `0` adds node
`2`, then node `1` adds node `2` again, which succeeds and moves the parent
reference of `2` to `1` while `0` still lists it.  Node `2` is now a descendant
of node `0`, yet `AddChildNode` called on node `2` with new child `0` succeeds,
because `0` is not on the parent chain `2, 1`; afterwards node `0` is its own
descendant. -/
theorem AddChildNode_cycle_failing_input :
    ∃ h1 h2 h3, AddChildNode 3 freshHeap 0 (some 2) = .ok h1 ∧
      AddChildNode 3 h1 1 (some 2) = .ok h2 ∧ Descendant h2 0 2 ∧
      AddChildNode 3 h2 2 (some 0) = .ok h3 ∧ Descendant h3 0 0 := by
  refine ⟨_, _, _, rfl, rfl, ?_, rfl, ?_⟩
  · exact Relation.TransGen.single ⟨_, rfl, by simp [exNode]⟩
  · refine Relation.TransGen.head (b := 2) ⟨_, rfl, by simp [exNode]⟩ ?_
    exact Relation.TransGen.single ⟨_, rfl, by simp [exNode]⟩

end MusicTree

namespace MusicTree
namespace MTree

/-! ## Copies -/

@[simp] theorem relabel_node (a i m f cs) :
    relabel a (node i m f cs) = node a m f (relabelL (a + 1) cs) := by
  rw [relabel]

@[simp] theorem relabelL_nil (a : Nat) : relabelL a [] = [] := by rw [relabelL]

@[simp] theorem relabelL_cons (a : Nat) (c : MTree) (cs : List MTree) :
    relabelL a (c :: cs) = relabel a c :: relabelL (a + c.size) cs := by
  rw [relabelL]

@[simp] theorem shape_node (i m f cs) : shape (node i m f cs) = node 0 m f (shapeL cs) := by
  rw [shape]

@[simp] theorem shapeL_nil : shapeL [] = [] := by rw [shapeL]

@[simp] theorem shapeL_cons (c : MTree) (cs : List MTree) :
    shapeL (c :: cs) = shape c :: shapeL cs := by
  rw [shapeL]

@[simp] theorem relabel_id (a : Nat) (t : MTree) : (relabel a t).id = a := by
  cases t; simp

@[simp] theorem relabel_motif (a : Nat) (t : MTree) : (relabel a t).motif = t.motif := by
  cases t; simp

@[simp] theorem relabel_fit (a : Nat) (t : MTree) : (relabel a t).fit = t.fit := by
  cases t; simp

/-- A copy has the shape and content of its original, occupies exactly the
addresses `a, …, a + size - 1` in preorder, and has the same melody. -/
theorem relabel_facts : ∀ (t : MTree) (a : Nat),
    (relabel a t).shape = t.shape ∧ (relabel a t).ids = List.range' a t.size ∧
      (relabel a t).melody = t.melody ∧ (relabel a t).size = t.size := by
  intro t
  induction t using MTree.ind with
  | step i m f cs ih =>
    intro a
    have hL : ∀ (l : List MTree) (b : Nat), (∀ c ∈ l, c ∈ cs) →
        shapeL (relabelL b l) = shapeL l ∧
        idsL (relabelL b l) = List.range' b (nodesL l).length ∧
        melodyL (relabelL b l) = melodyL l ∧
        (nodesL (relabelL b l)).length = (nodesL l).length := by
      intro l
      induction l with
      | nil => intro b _; simp
      | cons d ds ihd =>
        intro b hsub
        obtain ⟨h1, h2, h3, h4⟩ := ih d (hsub d (by simp)) b
        obtain ⟨g1, g2, g3, g4⟩ := ihd (b + d.size)
          (fun c hc => hsub c (List.mem_cons_of_mem _ hc))
        simp only [size] at h4
        refine ⟨by simp [h1, g1], ?_, by simp [h3, g3], by simp [h4, g4]⟩
        simp only [relabelL_cons, idsL_cons, h2, g2, nodesL_cons, List.length_append]
        rw [List.range'_append_1, size, add_comm]
    obtain ⟨g1, g2, g3, g4⟩ := hL cs (a + 1) (fun c hc => hc)
    refine ⟨by simp [g1], ?_, by simp [g3], by simp [g4]⟩
    simp only [relabel_node, ids_node, g2, size_node]
    rw [List.range'_succ]

theorem relabel_ids_mem {t : MTree} {a x : Nat} (hx : x ∈ (relabel a t).ids) :
    a ≤ x ∧ x < a + t.size := by
  rw [(relabel_facts t a).2.1] at hx
  simpa using List.mem_range'_1.mp hx

theorem relabel_ids_nodup (t : MTree) (a : Nat) : (relabel a t).ids.Nodup := by
  rw [(relabel_facts t a).2.1]
  exact List.nodup_range' _ _

theorem relabel_kids_mem {t : MTree} {a x : Nat} (hx : x ∈ idsL (relabel a t).kids) :
    a < x ∧ x < a + t.size := by
  have hnd := relabel_ids_nodup t a
  have hmem : x ∈ (relabel a t).ids := by
    rw [← eta (relabel a t)]
    simp only [ids_node, List.mem_cons]
    exact Or.inr hx
  obtain ⟨h1, h2⟩ := relabel_ids_mem hmem
  refine ⟨lt_of_le_of_ne h1 ?_, h2⟩
  rintro rfl
  rw [← eta (relabel a t)] at hnd
  simp only [ids_node, List.nodup_cons, relabel_id] at hnd
  exact hnd.1 hx

end MTree
end MusicTree

namespace MusicTree

theorem Fresh.lt_of_alive {m : Mem} (hf : Fresh m) {i : Nat} {nd : MotifNode}
    (hi : m.heap i = some nd) : i < m.next := by
  by_contra hlt
  have := hf i (not_lt.mp hlt)
  rw [hi] at this
  cases this

/-- The loop of `CopyNode` over the children of the original node, given the
behaviour of `CopyNode` on each child subtree.  `a` is the address of the new
node and `cp` the copies already attached to it. -/
theorem copy_loop (K : PitchConsts) (k w : Nat) (hw : 1 ≤ w)
    (IH : ∀ (t : MTree) (p : Option Nat) (m : Mem), t.size ≤ k → TreeAt m.heap p t → Fresh m →
      ∃ m', CopyNode K k w m (some t.id) = .ok (some m.next, m') ∧
        m'.next = m.next + t.size ∧ TreeAt m'.heap none (t.relabel m.next) ∧
        (∀ i, i < m.next → m'.heap i = m.heap i) ∧ Fresh m')
    (a : Nat) (m0 : List Note) (f : Dbl) (pp : Option Nat) :
    ∀ (suf cp : List MTree) (mm : Mem),
      mm.heap a = some ⟨m0, none, cp.map MTree.id, f⟩ →
      (∀ c ∈ cp, TreeAt mm.heap (some a) c) →
      (∀ x ∈ MTree.idsL cp, a < x ∧ x < mm.next) →
      a < mm.next →
      (∀ c ∈ suf, TreeAt mm.heap pp c ∧ c.size ≤ k) →
      (∀ c ∈ suf, ∀ x ∈ c.ids, x < a) →
      Fresh mm →
      ∃ m', List.foldlM (fun mm child => do
            let c ← CopyNode K k w mm (some child)
            let h ← liftH (AddChildNode w c.2.heap a c.1)
            pure { c.2 with heap := h }) mm (suf.map MTree.id) = .ok m' ∧
        m'.heap a = some ⟨m0, none, (cp ++ MTree.relabelL mm.next suf).map MTree.id, f⟩ ∧
        (∀ c ∈ cp ++ MTree.relabelL mm.next suf, TreeAt m'.heap (some a) c) ∧
        m'.next = mm.next + (MTree.nodesL suf).length ∧
        (∀ i, i < a → m'.heap i = mm.heap i) ∧ Fresh m' := by
  intro suf
  induction suf with
  | nil =>
    intro cp mm ha hcp _ _ _ _ hfr
    exact ⟨mm, by simp [pure, Except.pure], by simpa using ha, by simpa using hcp, by simp,
      fun _ _ => rfl, hfr⟩
  | cons c suf ih =>
    intro cp mm ha hcp hids han hsuf hlow hfr
    obtain ⟨hc, hck⟩ := hsuf c (by simp)
    obtain ⟨m1, e1, hn1, ht1, hold1, hfr1⟩ := IH c pp mm hck hc hfr
    have ha1 : m1.heap a = some ⟨m0, none, cp.map MTree.id, f⟩ := by
      rw [hold1 a han]; exact ha
    have hroot1 := ht1.root
    simp only [MTree.relabel_id, MTree.relabel_motif, MTree.relabel_fit] at hroot1
    have hchain : Chain m1.heap (some a) [a] := Chain.cons a _ [] ha1 Chain.nil
    have hnew : mm.next ∉ cp.map MTree.id := by
      intro hm
      have := (hids _ (MTree.map_id_subset_idsL cp _ hm)).2
      omega
    have hadd := AddChildNode_ok (w := w) ha1 hroot1 hchain (by simpa using hw) hnew
      (by simp; omega)
    set h' : Heap := (m1.heap.set a ⟨m0, none, cp.map MTree.id ++ [mm.next], f⟩).set mm.next
      ⟨c.motif, some a, (MTree.relabel mm.next c).kids.map MTree.id, c.fit⟩ with hh'
    have hne : a ≠ mm.next := by omega
    have hh'o : ∀ i, i ≠ a → i ≠ mm.next → h' i = m1.heap i := by
      intro i h1 h2
      simp [hh', Heap.set_ne _ _ h1, Heap.set_ne _ _ h2]
    obtain ⟨m2, e2, ha2, ht2, hn2, hold2, hfr2⟩ := ih (cp ++ [MTree.relabel mm.next c])
      { m1 with heap := h' }
      (by simp [hh', Heap.set_ne _ _ hne])
      (by
        intro d hd
        rcases List.mem_append.mp hd with hd | hd
        · refine (hcp d hd).frame ?_
          intro x hx
          have hx1 := hids x (MTree.ids_subset_idsL hd x hx)
          show h' x = mm.heap x
          rw [hh'o x (by omega) (by omega), hold1 x hx1.2]
        · simp only [List.mem_singleton] at hd
          subst hd
          refine ht1.reparent ?_ ?_
          · show h' _ = _
            simp [hh']
          · intro x hx
            have hx1 := MTree.relabel_kids_mem hx
            show h' x = m1.heap x
            exact hh'o x (by omega) (by omega))
      (by
        intro x hx
        show a < x ∧ x < m1.next
        simp only [MTree.idsL_append, MTree.idsL_cons, MTree.idsL_nil, List.append_nil,
          List.mem_append] at hx
        rcases hx with hx | hx
        · have := hids x hx
          omega
        · have := MTree.relabel_ids_mem hx
          omega)
      (by show a < m1.next; omega)
      (by
        intro d hd
        obtain ⟨hd1, hd2⟩ := hsuf d (List.mem_cons_of_mem _ hd)
        refine ⟨hd1.frame ?_, hd2⟩
        intro x hx
        have hx1 := hlow d (List.mem_cons_of_mem _ hd) x hx
        show h' x = mm.heap x
        rw [hh'o x (by omega) (by omega), hold1 x (by omega)])
      (fun d hd => hlow d (List.mem_cons_of_mem _ hd))
      (by
        intro i hi
        show h' i = none
        have hi' : m1.next ≤ i := hi
        have hpos := c.size_pos
        rw [hh'o i (by omega) (by omega)]
        exact hfr1 i hi')
    refine ⟨m2, ?_, ?_, ?_, ?_, ?_, hfr2⟩
    · simp only [List.map_cons, List.foldlM_cons, e1, bind_ok, hadd, liftH_ok, pure_bind]
      exact e2
    · rw [ha2]
      simp [hn1]
    · intro d hd
      apply ht2
      simpa [hn1] using hd
    · rw [hn2]
      show m1.next + _ = _
      rw [hn1]
      simp [MTree.size]
      omega
    · intro i hi
      rw [hold2 i hi]
      show h' i = mm.heap i
      rw [hh'o i (by omega) (by omega), hold1 i (by omega)]

/-- Behaviour of `CopyNode` on a held tree: the copy is built at the next free addresses,
carries the motifs and fitness scores of the original whatever the random
source, and the original is untouched. -/
theorem CopyNode_spec (K : PitchConsts) (w : Nat) (hw : 1 ≤ w) :
    ∀ (k : Nat) (t : MTree) (p : Option Nat) (m : Mem), t.size ≤ k → TreeAt m.heap p t →
      Fresh m →
      ∃ m', CopyNode K k w m (some t.id) = .ok (some m.next, m') ∧
        m'.next = m.next + t.size ∧ TreeAt m'.heap none (t.relabel m.next) ∧
        (∀ i, i < m.next → m'.heap i = m.heap i) ∧ Fresh m' := by
  intro k
  induction k with
  | zero =>
    intro t p m hs
    have := t.size_pos
    omega
  | succ k ih =>
    intro t p m hs ht hfr
    cases ht with
    | mk _ n m0 f cs hroot hkids =>
      have hn : n < m.next := hfr.lt_of_alive hroot
      have hne : n ≠ m.next := by omega
      have hlow : ∀ c ∈ cs, ∀ x ∈ c.ids, x < m.next := by
        intro c hc x hx
        obtain ⟨nd, hnd⟩ := (hkids c hc).alive x hx
        exact hfr.lt_of_alive hnd
      set h2 : Heap := (m.heap.set m.next
          { motif_ := m0, parent_ := none, children_ := [],
            fitness_score_ := (CalculateFitnessScore K m0 m.rng).1 }).set m.next
          { motif_ := m0, parent_ := none, children_ := [], fitness_score_ := f } with hh2
      have hh2o : ∀ i, i ≠ m.next → h2 i = m.heap i := by
        intro i hi
        simp [hh2, Heap.set_ne _ _ hi]
      obtain ⟨m3, e3, ha3, ht3, hn3, hold3, hfr3⟩ := copy_loop K k w hw ih m.next m0 f (some n)
        cs [] { heap := h2, next := m.next + 1, rng := (CalculateFitnessScore K m0 m.rng).2 }
        (by simp [hh2])
        (by simp)
        (by simp)
        (by simp)
        (by
          intro c hc
          refine ⟨(hkids c hc).frame ?_, ?_⟩
          · intro x hx
            have := hlow c hc x hx
            exact hh2o x (by omega)
          · have := MTree.size_le_of_mem hc
            simp at hs
            omega)
        hlow
        (by
          intro i hi
          have hi' : m.next + 1 ≤ i := hi
          show h2 i = none
          rw [hh2o i (by omega)]
          exact hfr i (by omega))
      refine ⟨m3, ?_, ?_, ?_, ?_, hfr3⟩
      · rw [CopyNode]
        simp only [MTree.id_node, hroot, newMotifNode, GetMotif_eq, Heap.set_ne _ _ hne,
          SetFitnessScore, Heap.set_same, liftH_ok, bind_ok]
        simp only [← hh2]
        rw [e3]
        rfl
      · rw [hn3]
        simp [MTree.size]
        omega
      · simp only [List.nil_append] at ha3 ht3
        rw [MTree.relabel_node]
        exact TreeAt.mk none m.next m0 f _ ha3 ht3
      · intro i hi
        rw [hold3 i hi]
        exact hh2o i (by omega)

end MusicTree

namespace MusicTree

/-- Behaviour of `DeleteNodeRecursively` on a held tree without repeated addresses frees
exactly the addresses of the tree. -/
theorem DeleteNodeRecursively_spec : ∀ (k : Nat) (t : MTree) (p : Option Nat) (h : Heap),
    t.size ≤ k → TreeAt h p t → t.ids.Nodup →
    ∃ h', DeleteNodeRecursively k h (some t.id) = .ok h' ∧
      (∀ x ∈ t.ids, h' x = none) ∧ (∀ x, x ∉ t.ids → h' x = h x) := by
  intro k
  induction k with
  | zero =>
    intro t p h hs
    have := t.size_pos
    omega
  | succ k ih =>
    intro t p h hs ht hnd
    cases ht with
    | mk _ n m0 f cs hroot hkids =>
      simp only [MTree.ids_node, List.nodup_cons, MTree.size_node] at hnd hs
      obtain ⟨hn, hndcs⟩ := hnd
      have hloop : ∀ (suf : List MTree) (hh : Heap),
          (∀ c ∈ suf, TreeAt hh (some n) c ∧ c.size ≤ k) → (MTree.idsL suf).Nodup →
          ∃ h', List.foldlM (fun hh child => DeleteNodeRecursively k hh (some child)) hh
              (suf.map MTree.id) = .ok h' ∧
            (∀ x ∈ MTree.idsL suf, h' x = none) ∧ (∀ x, x ∉ MTree.idsL suf → h' x = hh x) := by
        intro suf
        induction suf with
        | nil =>
          intro hh _ _
          exact ⟨hh, by simp [pure, Except.pure], by simp, fun _ _ => rfl⟩
        | cons c suf ihs =>
          intro hh hall hnds
          simp only [MTree.idsL_cons, List.nodup_append] at hnds
          obtain ⟨hc1, hc2, hdis⟩ := hnds
          obtain ⟨h1, e1, a1, b1⟩ := ih c (some n) hh (hall c (by simp)).2 (hall c (by simp)).1 hc1
          obtain ⟨h2, e2, a2, b2⟩ := ihs h1
            (by
              intro d hd
              obtain ⟨hd1, hd2⟩ := hall d (List.mem_cons_of_mem _ hd)
              refine ⟨hd1.frame ?_, hd2⟩
              intro x hx
              exact b1 x (fun hxc => hdis hxc (MTree.ids_subset_idsL hd x hx)))
            hc2
          refine ⟨h2, ?_, ?_, ?_⟩
          · simp only [List.map_cons, List.foldlM_cons, e1, bind_ok]
            exact e2
          · intro x hx
            simp only [MTree.idsL_cons, List.mem_append] at hx
            by_cases hxs : x ∈ MTree.idsL suf
            · exact a2 x hxs
            · rcases hx with hx | hx
              · rw [b2 x hxs]; exact a1 x hx
              · exact absurd hx hxs
          · intro x hx
            simp only [MTree.idsL_cons, List.mem_append, not_or] at hx
            rw [b2 x hx.2, b1 x hx.1]
      obtain ⟨h1, e1, a1, b1⟩ := hloop cs h
        (by
          intro c hc
          refine ⟨hkids c hc, ?_⟩
          have := MTree.size_le_of_mem hc
          omega)
        hndcs
      refine ⟨h1.free n, ?_, ?_, ?_⟩
      · rw [DeleteNodeRecursively]
        simp only [MTree.id_node, hroot, e1, bind_ok]
        rfl
      · intro x hx
        simp only [MTree.ids_node, List.mem_cons] at hx
        by_cases e : x = n
        · subst e; simp
        · rcases hx with hx | hx
          · exact absurd hx e
          · rw [Heap.free_ne _ e]; exact a1 x hx
      · intro x hx
        simp only [MTree.ids_node, List.mem_cons, not_or] at hx
        rw [Heap.free_ne _ hx.1]
        exact b1 x hx.2

/-- A copy built by `CopyNode` at the free addresses is a deep copy. -/
theorem isDeepCopy_of_copy {fuel : Nat} {m m' : Mem} {another : MusicalTree}
    {t : MTree} (hT : HoldsTree m.heap another t) (hfr : Fresh m) (hfuel : t.size ≤ fuel)
    (ht' : TreeAt m'.heap none (t.relabel m.next))
    (hold : ∀ i, i < m.next → m'.heap i = m.heap i) :
    IsDeepCopy fuel m'.heap
      { root_ := some m.next, size_ := another.size_, verbose_ := another.verbose_ } another
      (t.relabel m.next) t := by
  obtain ⟨ht, hroot, hnd⟩ := hT
  have hlow : ∀ x ∈ t.ids, x < m.next := by
    intro x hx
    obtain ⟨nd, hnd⟩ := ht.alive x hx
    exact hfr.lt_of_alive hnd
  have ht2 : TreeAt m'.heap none t := ht.frame (fun x hx => hold x (hlow x hx))
  obtain ⟨f1, f2, f3, f4⟩ := MTree.relabel_facts t m.next
  refine ⟨⟨ht', by simp, MTree.relabel_ids_nodup t m.next⟩, ⟨ht2, hroot, hnd⟩, f1, ?_, rfl, rfl,
    ?_, ?_, ?_, ?_⟩
  · intro x hx hxt
    have := (MTree.relabel_ids_mem hx).1
    have := hlow x hxt
    omega
  · have := GenerateMelody_preorder_aux fuel m'.heap
      { root_ := some m.next, size_ := another.size_, verbose_ := another.verbose_ } _ none ht'
      (by simp) (by omega)
    rw [f3] at this
    exact this
  · exact GenerateMelody_preorder_aux fuel m'.heap another t none ht2 hroot hfuel
  · have := CountNodes_spec m'.heap fuel _ none ht' (by omega)
    simpa [f4] using this
  · rw [hroot]
    exact CountNodes_spec m'.heap fuel t none ht2 hfuel

end MusicTree

namespace MusicTree

/-- Copying a held tree: copying a well-formed tree, by the copy constructor or by assignment,
yields a deep copy for every state of the random source: the copy is a
well-formed tree of the same shape whose nodes carry the motifs and fitness
scores of the originals, at fresh addresses, with `size_` and `verbose_` copied,
so `GenerateMelody` and `CountNodes` agree on original and copy.  Assignment
to itself changes nothing; assignment over another tree first frees that tree. -/
theorem copy_identical_held (K : PitchConsts) (fuel w : Nat) (m : Mem) (another : MusicalTree)
    (t : MTree) (hT : HoldsTree m.heap another t) (hfr : Fresh m) (hw : 1 ≤ w)
    (hfuel : t.size ≤ fuel) :
    (∃ tr' m' t', copyConstruct K fuel w m another = .ok (tr', m') ∧
      IsDeepCopy fuel m'.heap tr' another t' t) ∧
    (∀ this, assign K fuel w m this another true = .ok (this, m)) ∧
    (∀ this tt, HoldsTree m.heap this tt → (∀ x ∈ tt.ids, x ∉ t.ids) → tt.size ≤ fuel →
      ∃ tr' m' t', assign K fuel w m this another false = .ok (tr', m') ∧
        IsDeepCopy fuel m'.heap tr' another t' t ∧ ∀ x ∈ tt.ids, m'.heap x = none) := by
  refine ⟨?_, ?_, ?_⟩
  · obtain ⟨m', e, _, ht', hold, _⟩ := CopyNode_spec K w hw fuel t none m hfuel hT.1 hfr
    refine ⟨_, m', t.relabel m.next, ?_, isDeepCopy_of_copy hT hfr hfuel ht' hold⟩
    unfold copyConstruct
    rw [hT.2.1, e]
    rfl
  · intro this
    simp [assign]
  · intro this tt hTT hdis hfuel'
    obtain ⟨h1, e1, a1, b1⟩ := DeleteNodeRecursively_spec fuel tt none m.heap hfuel' hTT.1 hTT.2.2
    have hfr1 : Fresh { m with heap := h1 } := by
      intro i hi
      show h1 i = none
      by_cases hx : i ∈ tt.ids
      · exact a1 i hx
      · rw [b1 i hx]; exact hfr i hi
    have hT1 : HoldsTree ({ m with heap := h1 } : Mem).heap another t :=
      ⟨hT.1.frame (fun x hx => b1 x (fun hxt => hdis x hxt hx)), hT.2.1, hT.2.2⟩
    obtain ⟨m', e, _, ht', hold, _⟩ :=
      CopyNode_spec K w hw fuel t none { m with heap := h1 } hfuel hT1.1 hfr1
    refine ⟨_, m', t.relabel m.next, ?_,
      @isDeepCopy_of_copy fuel { m with heap := h1 } m' another t hT1 hfr1 hfuel ht' hold, ?_⟩
    · unfold assign
      simp only [Bool.false_eq_true, if_false, hTT.2.1, e1, bind_ok, hT.2.1, e]
      rfl
    · intro x hx
      obtain ⟨nd, hnd⟩ := hTT.1.alive x hx
      have hlt : x < m.next := hfr.lt_of_alive hnd
      rw [hold x hlt]
      exact a1 x hx

theorem exMem_fresh (r : Nat → Nat) : Fresh (exMem r) := by
  intro i hi
  obtain ⟨k, rfl⟩ : ∃ k, i = k + 6 := ⟨i - 6, by
    have : 6 ≤ i := hi
    omega⟩
  rfl

end MusicTree

namespace MusicTree

/-! ## Well-formed heaps are exactly the heaps that hold a tree -/

theorem ReachIn.reach {h : Heap} {n a b : Nat} (hr : ReachIn h n a b) : Reach h a b := by
  induction hr with
  | zero a => exact Relation.ReflTransGen.refl
  | succ _ hstep ih => exact Relation.ReflTransGen.tail ih hstep

theorem Reach.reachIn {h : Heap} {a b : Nat} (hr : Reach h a b) : ∃ n, ReachIn h n a b := by
  induction hr with
  | refl => exact ⟨0, ReachIn.zero a⟩
  | tail _ hstep ih =>
    obtain ⟨n, hn⟩ := ih
    exact ⟨n + 1, ReachIn.succ hn hstep⟩

theorem ReachIn.trans {h : Heap} {n m a b c : Nat} (h1 : ReachIn h n a b)
    (h2 : ReachIn h m b c) : ReachIn h (n + m) a c := by
  induction h2 with
  | zero _ => exact h1
  | succ _ hstep ih => exact ReachIn.succ (ih h1) hstep

theorem ReachIn.head {h : Heap} {n a b c : Nat} (hstep : Child h a b) (hr : ReachIn h n b c) :
    ReachIn h (n + 1) a c := by
  have := ReachIn.trans (ReachIn.succ (ReachIn.zero a) hstep) hr
  rwa [Nat.add_comm] at this

theorem ReachIn.uncons {h : Heap} {n a c : Nat} (hr : ReachIn h (n + 1) a c) :
    ∃ b, Child h a b ∧ ReachIn h n b c := by
  induction n generalizing c with
  | zero =>
    cases hr with
    | succ h0 hstep =>
      cases h0
      exact ⟨c, hstep, ReachIn.zero c⟩
  | succ k ih =>
    cases hr with
    | succ h0 hstep =>
      obtain ⟨b, hb, hrest⟩ := ih h0
      exact ⟨b, hb, ReachIn.succ hrest hstep⟩

theorem ReachIn.zero_eq {h : Heap} {a b : Nat} (hr : ReachIn h 0 a b) : a = b := by
  cases hr; rfl

/-- A cycle gives paths of every length. -/
theorem ReachIn.pump {h : Heap} {s x : Nat} (hc : ReachIn h (s + 1) x x) (N : Nat) :
    ∃ n, N ≤ n ∧ ReachIn h n x x := by
  induction N with
  | zero => exact ⟨0, le_refl _, ReachIn.zero x⟩
  | succ k ih =>
    obtain ⟨n, hn, hr⟩ := ih
    exact ⟨n + (s + 1), by omega, hr.trans hc⟩

/-- Paths of every length from `x` to a fixed node contradict a depth bound. -/
theorem no_cycle_of_bound {h : Heap} {x N : Nat} (hb : ∀ n y, ReachIn h n x y → n < N)
    {s : Nat} (hc : ReachIn h (s + 1) x x) : False := by
  obtain ⟨n, hn, hr⟩ := hc.pump N
  have := hb n x hr
  omega

/-- From a held tree to the native conditions. -/
theorem TreeAt.child_parent {h : Heap} {p : Option Nat} {t : MTree} (ht : TreeAt h p t) :
    ∀ x ∈ t.ids, ∀ c, Child h x c → ∃ cd, h c = some cd ∧ cd.parent_ = some x := by
  induction ht with
  | mk p i m f cs h1 h2 ih =>
    intro x hx c hc
    simp only [MTree.ids_node, List.mem_cons] at hx
    rcases hx with rfl | hx
    · obtain ⟨nd, hnd, hm⟩ := hc
      rw [h1] at hnd
      cases hnd
      obtain ⟨d, hd, rfl⟩ := List.mem_map.mp hm
      exact ⟨_, (h2 d hd).root, rfl⟩
    · obtain ⟨d, hd, hxd⟩ := MTree.mem_idsL.mp hx
      exact ih d hd x hxd c hc

theorem MTree.nodup_of_mem {cs : List MTree} (hnd : (MTree.idsL cs).Nodup) {c : MTree}
    (hc : c ∈ cs) : c.ids.Nodup := by
  induction cs with
  | nil => cases hc
  | cons d ds ihd =>
    simp only [MTree.idsL_cons, List.nodup_append] at hnd
    rcases List.mem_cons.mp hc with rfl | hc'
    · exact hnd.1
    · exact ihd hnd.2.1 hc'

theorem TreeAt.children_nodup {h : Heap} {p : Option Nat} {t : MTree} (ht : TreeAt h p t) :
    t.ids.Nodup → ∀ x ∈ t.ids, ∀ nd, h x = some nd → nd.children_.Nodup := by
  induction ht with
  | mk p i m f cs h1 h2 ih =>
    intro hnd x hx nd hxnd
    simp only [MTree.ids_node, List.nodup_cons, List.mem_cons] at hnd hx
    rcases hx with rfl | hx
    · rw [h1] at hxnd
      cases hxnd
      exact (MTree.map_id_sublist_idsL cs).nodup hnd.2
    · obtain ⟨d, hd, hxd⟩ := MTree.mem_idsL.mp hx
      exact ih d hd (MTree.nodup_of_mem hnd.2 hd) x hxd nd hxnd

theorem TreeAt.depth_bound {h : Heap} {p : Option Nat} {t : MTree} (ht : TreeAt h p t) :
    ∀ n x, ReachIn h n t.id x → n < t.size := by
  induction ht with
  | mk p i m f cs h1 h2 ih =>
    intro n x hr
    cases n with
    | zero => simp
    | succ k =>
      obtain ⟨b, hb, hrest⟩ := hr.uncons
      obtain ⟨nd, hnd, hm⟩ := hb
      simp only [MTree.id_node] at hnd
      rw [h1] at hnd
      cases hnd
      obtain ⟨d, hd, rfl⟩ := List.mem_map.mp hm
      have h3 := ih d hd k x hrest
      have h4 := MTree.size_le_of_mem hd
      simp only [MTree.size_node]
      omega

theorem wellFormed_of_treeAt {h : Heap} {t : MTree} (ht : TreeAt h none t) (hnd : t.ids.Nodup) :
    WellFormed h t.id :=
  ⟨⟨_, ht.root, rfl⟩,
    fun x c hx hc => ht.child_parent x ((ht.reach_iff x).mp hx) c hc,
    fun x nd hx hxnd => ht.children_nodup hnd x ((ht.reach_iff x).mp hx) nd hxnd,
    ⟨t.size, ht.depth_bound⟩⟩

end MusicTree

namespace MusicTree

@[simp] theorem buildTree_id (k : Nat) (h : Heap) (x : Nat) : (buildTree k h x).id = x := by
  cases k with
  | zero => simp [buildTree]
  | succ k =>
    simp only [buildTree]
    cases h x <;> simp

theorem buildTree_treeAt (h : Heap) : ∀ (k x : Nat) (nd : MotifNode), h x = some nd →
    (∀ y c, Reach h x y → Child h y c → ∃ cd, h c = some cd ∧ cd.parent_ = some y) →
    (∀ n y, ReachIn h n x y → n < k) → TreeAt h nd.parent_ (buildTree k h x) := by
  intro k
  induction k with
  | zero =>
    intro x nd _ _ hb
    have := hb 0 x (ReachIn.zero x)
    omega
  | succ k ih =>
    intro x nd hx hreg hb
    simp only [buildTree, hx]
    refine TreeAt.mk nd.parent_ x nd.motif_ nd.fitness_score_ _ ?_ ?_
    · rw [hx]
      congr 1
      cases nd
      simp [Function.comp_def]
    · intro t ht
      obtain ⟨c, hc, rfl⟩ := List.mem_map.mp ht
      have hstep : Child h x c := ⟨nd, hx, hc⟩
      obtain ⟨cd, hcd, hpar⟩ := hreg x c Relation.ReflTransGen.refl hstep
      have := ih c cd hcd
        (fun y d hy hd => hreg y d (Relation.ReflTransGen.head hstep hy) hd)
        (fun n y hr => by
          have := hb (n + 1) y (ReachIn.head hstep hr)
          omega)
      rwa [hpar] at this

/-- Two paths that end in the same node of a region with consistent parent
references run together: the start of the longer one reaches the start of the
shorter one. -/
theorem reachIn_join {h : Heap} {x : Nat}
    (hreg : ∀ y c, Reach h x y → Child h y c → ∃ cd, h c = some cd ∧ cd.parent_ = some y) :
    ∀ (n m a b y : Nat), Reach h x a → Reach h x b → ReachIn h n a y → ReachIn h m b y →
      n ≤ m → ReachIn h (m - n) b a := by
  intro n
  induction n with
  | zero =>
    intro m a b y _ _ h1 h2 _
    have := h1.zero_eq
    subst this
    simpa using h2
  | succ n ih =>
    intro m a b y ha hb h1 h2 hnm
    cases m with
    | zero => omega
    | succ m =>
      cases h1 with
      | succ h1' s1 =>
        cases h2 with
        | succ h2' s2 =>
          obtain ⟨cd1, e1, p1⟩ := hreg _ y (ha.trans h1'.reach) s1
          obtain ⟨cd2, e2, p2⟩ := hreg _ y (hb.trans h2'.reach) s2
          rw [e1] at e2
          cases e2
          rw [p1] at p2
          cases p2
          have := ih m a b _ ha hb h1' h2' (by omega)
          rwa [Nat.succ_sub_succ]

/-- Two different children of a node in a well-formed region have no common
descendant. -/
theorem children_disjoint {h : Heap} {x N : Nat}
    (hreg : ∀ y c, Reach h x y → Child h y c → ∃ cd, h c = some cd ∧ cd.parent_ = some y)
    (hb : ∀ n y, ReachIn h n x y → n < N) {c1 c2 y : Nat} (h1 : Child h x c1)
    (h2 : Child h x c2) (hne : c1 ≠ c2) (r1 : Reach h c1 y) (r2 : Reach h c2 y) : False := by
  have key : ∀ (a b : Nat) (d : Nat), Child h x a → Child h x b → a ≠ b →
      ReachIn h d b a → False := by
    intro a b d ha hbb hab hr
    cases d with
    | zero => exact hab hr.zero_eq.symm
    | succ e =>
      cases hr with
      | succ hr' s =>
        obtain ⟨cd1, e1, p1⟩ := hreg _ a
          (Relation.ReflTransGen.head hbb hr'.reach) s
        obtain ⟨cd2, e2, p2⟩ := hreg x a Relation.ReflTransGen.refl ha
        rw [e1] at e2
        cases e2
        rw [p1] at p2
        cases p2
        exact no_cycle_of_bound hb (ReachIn.head hbb hr')
  obtain ⟨n, hn⟩ := r1.reachIn
  obtain ⟨m, hm⟩ := r2.reachIn
  have ha : Reach h x c1 := Relation.ReflTransGen.single h1
  have hbb : Reach h x c2 := Relation.ReflTransGen.single h2
  rcases Nat.le_total n m with hnm | hnm
  · exact key c1 c2 _ h1 h2 hne (reachIn_join hreg n m c1 c2 y ha hbb hn hm hnm)
  · exact key c2 c1 _ h2 h1 (Ne.symm hne) (reachIn_join hreg m n c2 c1 y hbb ha hm hn hnm)

theorem idsL_map_nodup (g : Nat → MTree) : ∀ l : List Nat, l.Nodup →
    (∀ c ∈ l, (g c).ids.Nodup) →
    (∀ c1 ∈ l, ∀ c2 ∈ l, c1 ≠ c2 → ∀ y, y ∈ (g c1).ids → y ∈ (g c2).ids → False) →
    (MTree.idsL (l.map g)).Nodup := by
  intro l
  induction l with
  | nil => intro _ _ _; simp
  | cons c cs ih =>
    intro hnd hall hdis
    obtain ⟨hc, hcs⟩ := List.nodup_cons.mp hnd
    simp only [List.map_cons, MTree.idsL_cons, List.nodup_append]
    refine ⟨hall c (by simp), ih hcs (fun d hd => hall d (List.mem_cons_of_mem _ hd))
      (fun c1 h1 c2 h2 => hdis c1 (List.mem_cons_of_mem _ h1) c2 (List.mem_cons_of_mem _ h2)),
      ?_⟩
    intro y hy hy2
    obtain ⟨t, ht, hyt⟩ := MTree.mem_idsL.mp hy2
    obtain ⟨d, hd, rfl⟩ := List.mem_map.mp ht
    exact hdis c (by simp) d (List.mem_cons_of_mem _ hd) (fun e => hc (e ▸ hd)) y hy hyt

theorem buildTree_nodup (h : Heap) : ∀ (k x : Nat) (nd : MotifNode), h x = some nd →
    (∀ y c, Reach h x y → Child h y c → ∃ cd, h c = some cd ∧ cd.parent_ = some y) →
    (∀ y yd, Reach h x y → h y = some yd → yd.children_.Nodup) →
    (∀ n y, ReachIn h n x y → n < k) → (buildTree k h x).ids.Nodup := by
  intro k
  induction k with
  | zero =>
    intro x nd _ _ _ hb
    have := hb 0 x (ReachIn.zero x)
    omega
  | succ k ih =>
    intro x nd hx hreg hnd hb
    have hkid : ∀ c ∈ nd.children_, ∃ cd, h c = some cd ∧ cd.parent_ = some x ∧
        TreeAt h (some x) (buildTree k h c) ∧ (buildTree k h c).ids.Nodup := by
      intro c hc
      have hstep : Child h x c := ⟨nd, hx, hc⟩
      obtain ⟨cd, hcd, hpar⟩ := hreg x c Relation.ReflTransGen.refl hstep
      have hreg' : ∀ y d, Reach h c y → Child h y d → ∃ cd, h d = some cd ∧ cd.parent_ = some y :=
        fun y d hy hd => hreg y d (Relation.ReflTransGen.head hstep hy) hd
      have hb' : ∀ n y, ReachIn h n c y → n < k := fun n y hr => by
        have := hb (n + 1) y (ReachIn.head hstep hr)
        omega
      have ht := buildTree_treeAt h k c cd hcd hreg' hb'
      rw [hpar] at ht
      exact ⟨cd, hcd, hpar, ht, ih c cd hcd hreg'
        (fun y yd hy hyd => hnd y yd (Relation.ReflTransGen.head hstep hy) hyd) hb'⟩
    simp only [buildTree, hx, MTree.ids_node, List.nodup_cons]
    constructor
    · intro hm
      obtain ⟨t, ht, hxt⟩ := MTree.mem_idsL.mp hm
      obtain ⟨c, hc, rfl⟩ := List.mem_map.mp ht
      obtain ⟨_, _, _, htc, _⟩ := hkid c hc
      have hr : Reach h c x := by
        have := (htc.reach_iff x).mpr hxt
        simpa using this
      obtain ⟨n, hn⟩ := hr.reachIn
      exact no_cycle_of_bound hb (ReachIn.head ⟨nd, hx, hc⟩ hn)
    · refine idsL_map_nodup (buildTree k h) nd.children_
        (hnd x nd Relation.ReflTransGen.refl hx) (fun c hc => (hkid c hc).choose_spec.2.2.2) ?_
      intro c1 hc1 c2 hc2 hne y hy1 hy2
      obtain ⟨_, _, _, ht1, _⟩ := hkid c1 hc1
      obtain ⟨_, _, _, ht2, _⟩ := hkid c2 hc2
      have r1 : Reach h c1 y := by simpa using (ht1.reach_iff y).mpr hy1
      have r2 : Reach h c2 y := by simpa using (ht2.reach_iff y).mpr hy2
      exact children_disjoint hreg hb ⟨nd, hx, hc1⟩ ⟨nd, hx, hc2⟩ hne r1 r2

/-- A heap is well-formed at `r` exactly when it holds, below an absent
parent, a tree with root `r` in which no address occurs twice. -/
theorem wellFormed_iff (h : Heap) (r : Nat) :
    WellFormed h r ↔ ∃ t, TreeAt h none t ∧ t.id = r ∧ t.ids.Nodup := by
  constructor
  · rintro ⟨⟨rd, hr, hpar⟩, hreg, hnd, N, hb⟩
    refine ⟨buildTree N h r, ?_, buildTree_id N h r, buildTree_nodup h N r rd hr hreg hnd hb⟩
    have := buildTree_treeAt h N r rd hr hreg hb
    rwa [hpar] at this
  · rintro ⟨t, ht, rfl, hnd⟩
    exact wellFormed_of_treeAt ht hnd

end MusicTree

namespace MusicTree

theorem MTree.list_eq_of_ids : ∀ (cs cs' : List MTree),
    (∀ c ∈ cs, ∀ c' ∈ cs', c.id = c'.id → c = c') →
    cs.map MTree.id = cs'.map MTree.id → cs = cs' := by
  intro cs
  induction cs with
  | nil =>
    intro cs' _ hmap
    cases cs' with
    | nil => rfl
    | cons _ _ => simp at hmap
  | cons c cs1 ihl =>
    intro cs' hall hmap
    cases cs' with
    | nil => simp at hmap
    | cons c' cs1' =>
      simp only [List.map_cons, List.cons.injEq] at hmap
      have e1 : c = c' := hall c (by simp) c' (by simp) hmap.1
      have e2 : cs1 = cs1' := ihl cs1'
        (fun d hd d' hd' => hall d (List.mem_cons_of_mem _ hd) d' (List.mem_cons_of_mem _ hd'))
        hmap.2
      rw [e1, e2]

/-- The tree held at an address is determined by the heap. -/
theorem TreeAt.unique {h : Heap} {p : Option Nat} {t : MTree} (ht : TreeAt h p t) :
    ∀ (t' : MTree) (p' : Option Nat), TreeAt h p' t' → t.id = t'.id → t = t' := by
  induction ht with
  | mk p i m f cs h1 _ ih =>
    intro t' p' ht' hid
    cases ht' with
    | mk _ i' m' f' cs' h1' h2' =>
      simp only [MTree.id_node] at hid
      subst hid
      rw [h1] at h1'
      simp only [Option.some.injEq, MotifNode.mk.injEq] at h1'
      obtain ⟨rfl, _, hmap, rfl⟩ := h1'
      have hcs : cs = cs' := MTree.list_eq_of_ids cs cs'
        (fun c hc c' hc' e => ih c hc c' (some i) (h2' c' hc') e) hmap
      rw [hcs]

theorem HoldsTree.unique_tree {h : Heap} {tr : MusicalTree} {t t' : MTree} (hT : HoldsTree h tr t)
    (hT' : HoldsTree h tr t') : t = t' := by
  refine hT.1.unique t' none hT'.1 ?_
  have := hT.2.1.symm.trans hT'.2.1
  exact Option.some.inj this

theorem WellFormed.holds {h : Heap} {tr : MusicalTree} {r : Nat} (hroot : tr.root_ = some r)
    (hwf : WellFormed h r) : ∃ t, HoldsTree h tr t ∧ t.id = r := by
  obtain ⟨t, ht, hid, hnd⟩ := (wellFormed_iff h r).mp hwf
  exact ⟨t, ⟨ht, by rw [hroot, hid], hnd⟩, hid⟩

theorem HoldsTree.wellFormed {h : Heap} {tr : MusicalTree} {t : MTree} (hT : HoldsTree h tr t) :
    WellFormed h t.id :=
  wellFormed_of_treeAt hT.1 hT.2.2

theorem exWellFormed : WellFormed exHeap 0 := exHolds.wellFormed

theorem exReach : ∃ x nd, Reach exHeap 0 x ∧ exHeap x = some nd ∧ (10 : Dbl) ≤ nd.fitness_score_ :=
  ⟨2, exNode 2 (some 0) [] 50,
    Relation.ReflTransGen.single ⟨exNode 0 none [1, 2] 5, rfl, by simp [exNode]⟩, rfl,
    by simp only [exNode, Dbl.ofNat_eq, Dbl.fin_le_fin]; norm_num⟩

theorem exNoNaN : ∀ x nd, Reach exHeap 0 x → exHeap x = some nd → nd.fitness_score_ ≠ .nan := by
  intro x nd _ hx
  unfold exHeap at hx
  split at hx <;> simp at hx <;> subst hx <;> simp [exNode]

/-- C1 (as amended): for every well-formed tree none of whose fitness scores is NaN and
every threshold `thr` other than NaN, `PruneNodes(root_, thr)` returns (for all
sufficient fuel); if some node of the tree had fitness at least `thr`, every
node reachable from the possibly new root has fitness at least `thr`; if no
node had, the root is the original root, left alone with an empty child list.
The comparisons are those of `double`. -/
theorem PruneNodes_threshold (thr : Dbl) (h : Heap) (tr : MusicalTree) (r : Nat)
    (hroot : tr.root_ = some r) (hwf : WellFormed h r) (hthr : thr ≠ .nan)
    (hfit : ∀ x nd, Reach h r x → h x = some nd → nd.fitness_score_ ≠ .nan) :
    ∃ t, HoldsTree h tr t ∧ ∀ fuel w, t.size ≤ fuel → t.size ≤ w →
      ∃ h' tr' r', PruneNodes fuel w (h, tr) tr.root_ thr = .ok (h', tr') ∧
        tr'.root_ = some r' ∧
        ((∃ x nd, Reach h r x ∧ h x = some nd ∧ thr ≤ nd.fitness_score_) →
          ∀ x, Reach h' r' x → ∃ nd, h' x = some nd ∧ thr ≤ nd.fitness_score_) ∧
        ((∀ x nd, Reach h r x → h x = some nd → ¬ thr ≤ nd.fitness_score_) →
          r' = r ∧ (∀ x, Reach h' r' x → x = r) ∧
          ∃ nd, h r = some nd ∧ h' r = some { nd with children_ := [] }) := by
  obtain ⟨t, hT, rfl⟩ := hwf.holds hroot
  refine ⟨t, hT, fun fuel w hf hw => ?_⟩
  obtain ⟨h', tr', r', e, hr, hge, hno⟩ := prune_threshold_held thr fuel w h tr t hT hf hw
  refine ⟨h', tr', r', e, hr, ?_, fun hno' => hno (fun x nd hx hnd => ?_)⟩
  swap
  · by_contra hlt
    exact hno' x nd hx hnd ((Dbl.not_lt_iff_le (hfit x nd hx hnd) hthr).mp hlt)
  intro hex x hx
  have hex' : ∃ x nd, Reach h t.id x ∧ h x = some nd ∧ ¬ nd.fitness_score_ < thr := by
    obtain ⟨y, nd, a, b, c⟩ := hex
    exact ⟨y, nd, a, b, Dbl.not_lt_of_le c⟩
  obtain ⟨nd, hxnd, hnlt⟩ := hge hex' x hx
  obtain ⟨h2, tr2, t2, e2, hT2, a1, a2, _⟩ :=
    prune_survivors_held thr fuel w h tr t hT hf hw hex'
  rw [e] at e2
  simp only [Except.ok.injEq, Prod.mk.injEq] at e2
  obtain ⟨rfl, rfl⟩ := e2
  have hr2 : r' = t2.id := Option.some.inj (hr.symm.trans hT2.2.1)
  subst hr2
  obtain ⟨nd0, nd', h0, h1, _, hfeq⟩ := a2 x hx
  rw [hxnd] at h1
  cases h1
  refine ⟨nd, hxnd, (Dbl.not_lt_iff_le ?_ hthr).mp hnlt⟩
  rw [hfeq]
  exact hfit x nd0 ((a1 x).mp hx).1 h0

/-- C1 witness: pruning the sample tree at threshold 10. -/
theorem PruneNodes_threshold_witness :
    ∃ h' tr' r', PruneNodes 5 5 (exHeap, exObj) exObj.root_ 10 = .ok (h', tr') ∧
      tr'.root_ = some r' ∧
      ∀ x, Reach h' r' x → ∃ nd, h' x = some nd ∧ (10 : Dbl) ≤ nd.fitness_score_ := by
  obtain ⟨t, hT, hN⟩ := PruneNodes_threshold 10 exHeap exObj 0 rfl exWellFormed (by simp) exNoNaN
  have ht : t = exTree := hT.unique_tree exHolds
  subst ht
  obtain ⟨h', tr', r', e, hr, hge, _⟩ := hN 5 5 (by decide) (by decide)
  exact ⟨h', tr', r', e, hr, hge exReach⟩

/-- C2 (as amended): for every well-formed tree none of whose fitness scores is NaN and
every threshold `thr` other than NaN such that some node has fitness at least
`thr`, after `PruneNodes(root_, thr)` the nodes reachable from the root are
exactly the nodes that had fitness at least `thr`, the heap again holds them as
a well-formed tree (each reachable exactly once), each keeps its motif and
fitness, and `CountNodes` and `size_` drop by the number of nodes of the tree
with fitness below `thr`: by exactly one when a single node is below it.  The
comparisons are those of `double`. -/
theorem PruneNodes_survivors (thr : Dbl) (h : Heap) (tr : MusicalTree) (r : Nat)
    (hroot : tr.root_ = some r) (hwf : WellFormed h r) (hthr : thr ≠ .nan)
    (hfit : ∀ x nd, Reach h r x → h x = some nd → nd.fitness_score_ ≠ .nan)
    (hex : ∃ x nd, Reach h r x ∧ h x = some nd ∧ thr ≤ nd.fitness_score_) :
    ∃ t, HoldsTree h tr t ∧ ∀ fuel w, t.size ≤ fuel → t.size ≤ w →
      ∃ h' tr' r', PruneNodes fuel w (h, tr) tr.root_ thr = .ok (h', tr') ∧
        tr'.root_ = some r' ∧ WellFormed h' r' ∧
        (∀ x, Reach h' r' x ↔
          (Reach h r x ∧ ∃ nd, h x = some nd ∧ thr ≤ nd.fitness_score_)) ∧
        (∀ x, Reach h' r' x → ∃ nd nd', h x = some nd ∧ h' x = some nd' ∧
          nd'.motif_ = nd.motif_ ∧ nd'.fitness_score_ = nd.fitness_score_) ∧
        CountNodes fuel h (some r) = .ok (t.size : Int) ∧
        CountNodes fuel h' (some r') =
          .ok ((t.size : Int) - (MTree.countBelow thr t : Int)) ∧
        tr'.size_ = tr.size_ - (MTree.countBelow thr t : Int) ∧
        (MTree.countBelow thr t = 1 →
          CountNodes fuel h' (some r') = .ok ((t.size : Int) - 1)) := by
  obtain ⟨t, hT, rfl⟩ := hwf.holds hroot
  refine ⟨t, hT, fun fuel w hf hw => ?_⟩
  have hex' : ∃ x nd, Reach h t.id x ∧ h x = some nd ∧ ¬ nd.fitness_score_ < thr := by
    obtain ⟨y, nd, a, b, c⟩ := hex
    exact ⟨y, nd, a, b, Dbl.not_lt_of_le c⟩
  obtain ⟨h', tr', t', e, hT', a1, a2, a3, a4, a5, a6⟩ :=
    prune_survivors_held thr fuel w h tr t hT hf hw hex'
  refine ⟨h', tr', t'.id, e, hT'.2.1, hT'.wellFormed, ?_, a2, a3, a4, a5, a6⟩
  intro x
  rw [a1 x]
  constructor
  · rintro ⟨hx, nd, hnd, hn⟩
    exact ⟨hx, nd, hnd, (Dbl.not_lt_iff_le (hfit x nd hx hnd) hthr).mp hn⟩
  · rintro ⟨hx, nd, hnd, hn⟩
    exact ⟨hx, nd, hnd, Dbl.not_lt_of_le hn⟩

/-- C2 witness: pruning the sample tree at threshold 10 removes the three
nodes of fitness 5 and keeps the two nodes of fitness 50. -/
theorem PruneNodes_survivors_witness :
    ∃ h' tr' r', PruneNodes 5 5 (exHeap, exObj) exObj.root_ 10 = .ok (h', tr') ∧
      tr'.root_ = some r' ∧ WellFormed h' r' ∧
      CountNodes 5 h' (some r') = .ok 2 ∧ tr'.size_ = 2 := by
  obtain ⟨t, hT, hN⟩ :=
    PruneNodes_survivors 10 exHeap exObj 0 rfl exWellFormed (by simp) exNoNaN exReach
  have ht : t = exTree := hT.unique_tree exHolds
  subst ht
  obtain ⟨h', tr', r', e, hr, hw', _, _, _, hc, hs, _⟩ := hN 5 5 (by decide) (by decide)
  have hcb : MTree.countBelow 10 exTree = 3 := by decide!
  have hsz : exTree.size = 5 := by decide
  refine ⟨h', tr', r', e, hr, hw', ?_, ?_⟩
  · rw [hc, hcb, hsz]; rfl
  · rw [hs, hcb]; rfl

/-- C3: for every well-formed tree and every threshold, `PruneNodes(root_,
thr)` returns without any failure (no `invalid_argument` from `AddChildNode` or
`RemoveChildNode`), and the tree at the new `root_` is again well-formed: the
root has no parent, every other reachable node names as parent a reachable node
that lists it exactly once, and no reachable node is its own descendant. -/
theorem PruneNodes_wellformed (thr : Dbl) (h : Heap) (tr : MusicalTree) (r : Nat)
    (hroot : tr.root_ = some r) (hwf : WellFormed h r) :
    ∃ t, HoldsTree h tr t ∧ ∀ fuel w, t.size ≤ fuel → t.size ≤ w →
      ∃ h' tr' r', PruneNodes fuel w (h, tr) tr.root_ thr = .ok (h', tr') ∧
        tr'.root_ = some r' ∧ WellFormed h' r' ∧
        (∃ rd, h' r' = some rd ∧ rd.parent_ = none) ∧
        (∀ x, Reach h' r' x → x ≠ r' →
          ∃ nd q qd, h' x = some nd ∧ nd.parent_ = some q ∧ Reach h' r' q ∧
            h' q = some qd ∧ qd.children_.count x = 1) ∧
        (∀ x, Reach h' r' x → ¬ Descendant h' x x) := by
  obtain ⟨t, hT, rfl⟩ := hwf.holds hroot
  refine ⟨t, hT, fun fuel w hf hw => ?_⟩
  obtain ⟨h', tr', t', e, hT', a1, a2, a3⟩ := prune_wellformed_held thr fuel w h tr t hT hf hw
  exact ⟨h', tr', t'.id, e, hT'.2.1, hT'.wellFormed, a1, a2, a3⟩

/-- C3 witness: pruning the sample tree at threshold 10 leaves a well-formed tree. -/
theorem PruneNodes_wellformed_witness :
    ∃ h' tr' r', PruneNodes 5 5 (exHeap, exObj) exObj.root_ 10 = .ok (h', tr') ∧
      tr'.root_ = some r' ∧ WellFormed h' r' := by
  obtain ⟨t, hT, hN⟩ := PruneNodes_wellformed 10 exHeap exObj 0 rfl exWellFormed
  have ht : t = exTree := hT.unique_tree exHolds
  subst ht
  obtain ⟨h', tr', r', e, hr, hw', _⟩ := hN 5 5 (by decide) (by decide)
  exact ⟨h', tr', r', e, hr, hw'⟩

/-- C4: for every well-formed tree and every threshold, after
`PruneNodes(root_, thr)` the root is a live node, so the tree has at least one
node; and when the tree is a single childless root the call changes nothing,
whatever the fitness and the threshold: same heap, same `root_`, and `size_` is
not decremented. -/
theorem PruneNodes_never_empty (thr : Dbl) (h : Heap) (tr : MusicalTree) (r : Nat)
    (hroot : tr.root_ = some r) (hwf : WellFormed h r) :
    (∃ t, HoldsTree h tr t ∧ ∀ fuel w, t.size ≤ fuel → t.size ≤ w →
      ∃ h' tr' r' rd, PruneNodes fuel w (h, tr) tr.root_ thr = .ok (h', tr') ∧
        tr'.root_ = some r' ∧ h' r' = some rd ∧
        ∃ n : Nat, 1 ≤ n ∧ CountNodes fuel h' (some r') = .ok (n : Int)) ∧
    (∀ rd, h r = some rd → rd.children_ = [] → ∀ fuel w, 1 ≤ fuel →
      PruneNodes fuel w (h, tr) tr.root_ thr = .ok (h, tr)) := by
  constructor
  · obtain ⟨t, hT, rfl⟩ := hwf.holds hroot
    exact ⟨t, hT, fun fuel w hf hw => (prune_never_empty_held thr fuel w h tr t hT hf hw).1⟩
  · intro rd hr hk fuel w hf
    obtain ⟨⟨rd', hr', hpar⟩, _⟩ := hwf
    rw [hr] at hr'
    cases hr'
    cases fuel with
    | zero => omega
    | succ k =>
      rw [hroot, PruneNodes]
      simp [hr, hpar, hk]

/-- C4 witness: the detached childless node `5` of the sample heap, taken as
the whole tree, is left untouched by pruning at threshold 100. -/
theorem PruneNodes_never_empty_witness :
    PruneNodes 1 1 (exHeap, { root_ := some 5, size_ := 1, verbose_ := false }) (some 5) 100 =
      .ok (exHeap, { root_ := some 5, size_ := 1, verbose_ := false }) := by
  have hT : HoldsTree exHeap { root_ := some 5, size_ := 1, verbose_ := false }
      (MTree.node 5 [{ pitch := 65, duration := 1 / 2 }] 70 []) :=
    ⟨TreeAt.mk none 5 _ 70 [] (by simp [exHeap, exNode]) (by simp), rfl, by decide⟩
  exact (PruneNodes_never_empty 100 exHeap { root_ := some 5, size_ := 1, verbose_ := false } 5
    rfl hT.wellFormed).2 (exNode 5 none [] 70) rfl rfl 1 1 (le_refl 1)

/-- C10: copying a well-formed tree, by the copy constructor or by assignment,
yields a deep copy for every state of the random source: the copy is a
well-formed tree of the same shape whose nodes carry the motifs and fitness
scores of the originals (not freshly drawn scores), at fresh addresses and
with parent references inside the copy, its root is parentless, `size_` and
`verbose_` are copied, and `GenerateMelody` and `CountNodes` agree on original
and copy.  Assignment to itself changes nothing; assignment over another
well-formed tree that shares no node with the source first frees that tree. -/
theorem copy_identical (K : PitchConsts) (m : Mem) (another : MusicalTree) (r : Nat)
    (hroot : another.root_ = some r) (hwf : WellFormed m.heap r) (hfr : Fresh m) :
    ∃ t, HoldsTree m.heap another t ∧
      (∀ fuel w, t.size ≤ fuel → 1 ≤ w →
        (∃ tr' m' t', copyConstruct K fuel w m another = .ok (tr', m') ∧
          IsDeepCopy fuel m'.heap tr' another t' t) ∧
        (∀ this, assign K fuel w m this another true = .ok (this, m))) ∧
      (∀ this r2, this.root_ = some r2 → WellFormed m.heap r2 →
        (∀ x, Reach m.heap r2 x → ¬ Reach m.heap r x) →
        ∃ N, ∀ fuel w, N ≤ fuel → 1 ≤ w →
          ∃ tr' m' t', assign K fuel w m this another false = .ok (tr', m') ∧
            IsDeepCopy fuel m'.heap tr' another t' t ∧
            ∀ x, Reach m.heap r2 x → m'.heap x = none) := by
  obtain ⟨t, hT, rfl⟩ := hwf.holds hroot
  refine ⟨t, hT, fun fuel w hf hw => ?_, ?_⟩
  · obtain ⟨c1, c2, _⟩ := copy_identical_held K fuel w m another t hT hfr hw hf
    exact ⟨c1, c2⟩
  · intro this r2 hroot2 hwf2 hdis
    obtain ⟨tt, hTT, rfl⟩ := hwf2.holds hroot2
    refine ⟨max t.size tt.size, fun fuel w hN hw => ?_⟩
    obtain ⟨_, _, c3⟩ := copy_identical_held K fuel w m another t hT hfr hw
      (le_trans (le_max_left _ _) hN)
    obtain ⟨tr', m', t', e, hc, hfree⟩ := c3 this tt hTT
      (fun x hx hxt => hdis x ((hTT.1.reach_iff x).mpr hx) ((hT.1.reach_iff x).mpr hxt))
      (le_trans (le_max_right _ _) hN)
    exact ⟨tr', m', t', e, hc, fun x hx => hfree x ((hTT.1.reach_iff x).mp hx)⟩

/-- C10 witness: copying the sample tree with the draws `0, 1, 2, …`. -/
theorem copy_identical_witness :
    ∃ tr' m' t', copyConstruct exConsts 5 1 (exMem (fun i => i)) exObj = .ok (tr', m') ∧
      IsDeepCopy 5 m'.heap tr' exObj t' exTree := by
  obtain ⟨t, hT, hN, _⟩ := copy_identical exConsts (exMem (fun i => i)) exObj 0 rfl exWellFormed
    (exMem_fresh _)
  have ht : t = exTree := HoldsTree.unique_tree hT exHolds
  subst ht
  exact (hN 5 1 (by decide) (by decide)).1

end MusicTree

namespace MusicTree

/-! ## Bounds on the harmonic score and the fitness score -/

theorem scaleLoop_bounds : ∀ (ns : List Note) (score : Int) (r : Nat → Nat),
    score - 9 * (ns.length : Int) ≤ (scaleLoop ns score r).1 ∧
    (scaleLoop ns score r).1 ≤ score + 9 * (ns.length : Int)
  | [], score, r => by simp [scaleLoop]
  | n :: ns, score, r => by
    have hd : (rand r).1 % 10 < 10 := Nat.mod_lt _ (by decide)
    have h1 := scaleLoop_bounds ns (score + (((rand r).1 % 10 : Nat) : Int)) (rand r).2
    have h2 := scaleLoop_bounds ns (score - (((rand r).1 % 10 : Nat) : Int)) (rand r).2
    simp only [scaleLoop, List.length_cons]
    split_ifs <;> omega

theorem intervalLoop_bounds : ∀ (ns : List Note) (prev score : Int) (r : Nat → Nat),
    score - 9 * (ns.length : Int) ≤ (intervalLoop prev ns score r).1 ∧
    (intervalLoop prev ns score r).1 ≤ score + 9 * (ns.length : Int)
  | [], prev, score, r => by simp [intervalLoop]
  | n :: ns, prev, score, r => by
    have hd : (rand r).1 % 10 < 10 := Nat.mod_lt _ (by decide)
    have h1 := intervalLoop_bounds ns n.pitch (score + (((rand r).1 % 10 : Nat) : Int)) (rand r).2
    have h2 := intervalLoop_bounds ns n.pitch (score - (((rand r).1 % 10 : Nat) : Int)) (rand r).2
    have h3 := intervalLoop_bounds ns n.pitch score r
    simp only [intervalLoop, List.length_cons]
    split_ifs <;> omega

theorem rangeLoop_bounds (K : PitchConsts) : ∀ (ns : List Note) (score : Int) (r : Nat → Nat),
    score - 8 * (ns.length : Int) ≤ (rangeLoop K ns score r).1 ∧
    (rangeLoop K ns score r).1 ≤ score ∧
    ((∀ n ∈ ns, (K.kMinAcceptablePitch ≤ n.pitch ∧ n.pitch ≤ K.kMaxAcceptablePitch) ∧
        (K.kExtrMinAcceptablePitch ≤ n.pitch ∧ n.pitch ≤ K.kExtrMaxAcceptablePitch)) →
      (rangeLoop K ns score r).1 = score)
  | [], score, r => by simp [rangeLoop]
  | n :: ns, score, r => by
    simp only [rangeLoop, List.length_cons]
    have hd1 : r 0 % 5 < 5 := Nat.mod_lt _ (by decide)
    have hd2 : r 1 % 5 < 5 := Nat.mod_lt _ (by decide)
    refine ⟨?_, ?_, ?_⟩
    · split_ifs <;> refine le_trans ?_ (rangeLoop_bounds K ns _ _).1 <;> simp only [rand] <;> omega
    · split_ifs <;> refine le_trans (rangeLoop_bounds K ns _ _).2.1 ?_ <;> simp only [rand] <;> omega
    · intro hall
      have hn := hall n (by simp)
      have hrest : ∀ n ∈ ns, _ := fun x hx => hall x (List.mem_cons_of_mem _ hx)
      have e1 : ¬ (n.pitch < K.kMinAcceptablePitch ∨ n.pitch > K.kMaxAcceptablePitch) := by
        omega
      have e2 : ¬ (n.pitch < K.kExtrMinAcceptablePitch ∨ n.pitch > K.kExtrMaxAcceptablePitch) := by
        omega
      simp only [e1, e2, if_false]
      exact (rangeLoop_bounds K ns score r).2.2 hrest

theorem CalculateHarmonicScore_nil (K : PitchConsts) (r : Nat → Nat) :
    (CalculateHarmonicScore K [] r).1 = 0 := by
  simp [CalculateHarmonicScore, scaleLoop, rangeLoop]

theorem CalculateHarmonicScore_bounds (K : PitchConsts) (n : Note) (ns : List Note)
    (r : Nat → Nat) :
    -(26 * (((n :: ns).length : Nat) : Int) - 9) ≤ (CalculateHarmonicScore K (n :: ns) r).1 ∧
    (CalculateHarmonicScore K (n :: ns) r).1 ≤ 18 * (((n :: ns).length : Nat) : Int) - 9 ∧
    ((∀ x ∈ n :: ns, (K.kMinAcceptablePitch ≤ x.pitch ∧ x.pitch ≤ K.kMaxAcceptablePitch) ∧
        (K.kExtrMinAcceptablePitch ≤ x.pitch ∧ x.pitch ≤ K.kExtrMaxAcceptablePitch)) →
      -(18 * (((n :: ns).length : Nat) : Int) - 9) ≤ (CalculateHarmonicScore K (n :: ns) r).1) := by
  have a := scaleLoop_bounds (n :: ns) 0 r
  have b := intervalLoop_bounds ns n.pitch (scaleLoop (n :: ns) 0 r).1 (scaleLoop (n :: ns) 0 r).2
  have c := rangeLoop_bounds K (n :: ns)
    (intervalLoop n.pitch ns (scaleLoop (n :: ns) 0 r).1 (scaleLoop (n :: ns) 0 r).2).1
    (intervalLoop n.pitch ns (scaleLoop (n :: ns) 0 r).1 (scaleLoop (n :: ns) 0 r).2).2
  simp only [CalculateHarmonicScore]
  simp only [List.length_cons] at a b c ⊢
  refine ⟨by omega, by omega, fun hall => ?_⟩
  have := c.2.2 hall
  omega

theorem CalculateFitnessScore_eq (K : PitchConsts) (motif : List Note) (r : Nat → Nat) :
    (CalculateFitnessScore K motif r).1 = rescale (CalculateHarmonicScore K motif r).1 := rfl

/-! ## Rounding to `double` -/

theorem pow2_eq (g : Int) : pow2 g = (2 : ℚ) ^ g := by
  unfold pow2
  split_ifs with h
  · obtain ⟨n, rfl⟩ := Int.eq_ofNat_of_zero_le h
    simp
  · have h' : 0 ≤ -g := by omega
    obtain ⟨n, hn⟩ := Int.eq_ofNat_of_zero_le h'
    have : g = -(n : Int) := by omega
    subst this
    simp

theorem pow2_pos (g : Int) : 0 < pow2 g := by
  rw [pow2_eq]; positivity

theorem bitLen_zero_arg (k : Nat) : bitLen k 0 = 0 := by
  cases k <;> simp [bitLen]

theorem bitLen_spec : ∀ (k n : Nat), n ≤ k → n < 2 ^ bitLen k n ∧ (n ≠ 0 → 2 ^ bitLen k n ≤ 2 * n)
  | 0, n, h => by
    have : n = 0 := by omega
    subst this
    simp [bitLen]
  | k + 1, n, h => by
    by_cases hn : n = 0
    · subst hn; simp [bitLen]
    · have ih := bitLen_spec k (n / 2) (by omega)
      simp only [bitLen, hn, if_false, pow_succ]
      refine ⟨by omega, fun _ => ?_⟩
      by_cases h2 : n / 2 = 0
      · have h1 : n = 1 := by omega
        subst h1
        simp [bitLen_zero_arg]
      · have := ih.2 h2
        omega

/-- The binary exponent found by `ilog2` is not too large: `2 ^ ilog2 x ≤ |x|`. -/
theorem pow2_ilog2_le (x : ℚ) (hx : x ≠ 0) : pow2 (ilog2 x) ≤ |x| := by
  unfold ilog2
  simp only
  split_ifs with h
  · exact h
  · have hN : x.num.natAbs ≠ 0 := by
      simpa using hx
    have hD : x.den ≠ 0 := x.den_nz
    have h1 := (bitLen_spec x.num.natAbs x.num.natAbs (le_refl _)).2 hN
    have h2 := (bitLen_spec x.den x.den (le_refl _)).1
    have hxa : |x| = (x.num.natAbs : ℚ) / (x.den : ℚ) := by
      conv_lhs => rw [← Rat.num_div_den x]
      rw [abs_div, Nat.abs_cast]
      congr 1
      rw [Nat.cast_natAbs, Int.cast_abs]
    rw [hxa, pow2_eq]
    have hD' : (0 : ℚ) < (x.den : ℚ) := by exact_mod_cast Nat.pos_of_ne_zero hD
    rw [le_div_iff₀ hD']
    have e1 : (2 : ℚ) ^ ((bitLen x.num.natAbs x.num.natAbs : Int) -
        (bitLen x.den x.den : Int) - 1) =
        (2 : ℚ) ^ (bitLen x.num.natAbs x.num.natAbs) / (2 ^ (bitLen x.den x.den) * 2) := by
      rw [zpow_sub₀ (by norm_num), zpow_sub₀ (by norm_num)]
      simp [div_div]
    rw [e1]
    have h1' : ((2 : ℚ) ^ (bitLen x.num.natAbs x.num.natAbs)) ≤ 2 * (x.num.natAbs : ℚ) := by
      exact_mod_cast h1
    have h2' : (x.den : ℚ) ≤ 2 ^ (bitLen x.den x.den) := by
      exact_mod_cast le_of_lt h2
    have hp : (0 : ℚ) < 2 ^ (bitLen x.den x.den) * 2 := by positivity
    rw [div_mul_eq_mul_div, div_le_iff₀ hp]
    have hN' : (0 : ℚ) ≤ (x.num.natAbs : ℚ) := by positivity
    nlinarith [mul_le_mul h1' h2' (le_of_lt hD') (by positivity : (0 : ℚ) ≤ 2 * (x.num.natAbs : ℚ))]

/-- The rounding to the nearest natural number errs by at most one half. -/
theorem roundHalfEven_err (y : ℚ) (hy : 0 ≤ y) : |(roundHalfEven y : ℚ) - y| ≤ 1 / 2 := by
  have efl : Rat.floor y = ⌊y⌋ := rfl
  have hf0 : 0 ≤ Rat.floor y := by
    rw [efl]; exact Int.floor_nonneg.mpr hy
  have hfc : (((Rat.floor y).toNat : Nat) : ℚ) = ((Rat.floor y : Int) : ℚ) := by
    have : (((Rat.floor y).toNat : Nat) : Int) = Rat.floor y := Int.toNat_of_nonneg hf0
    exact_mod_cast this
  have hlo : ((Rat.floor y : Int) : ℚ) ≤ y := by
    rw [efl]; exact Int.floor_le y
  have hhi : y < ((Rat.floor y : Int) : ℚ) + 1 := by
    rw [efl]; exact Int.lt_floor_add_one y
  unfold roundHalfEven
  simp only
  split_ifs with h1 h2 h3
  · rw [hfc] at h1 ⊢
    rw [abs_le]; constructor <;> linarith
  · rw [hfc] at h2
    push_cast
    rw [hfc, abs_le]; constructor <;> linarith
  · rw [hfc] at h1 h2 ⊢
    rw [abs_le]; constructor <;> linarith
  · rw [hfc] at h1 h2
    push_cast
    rw [hfc, abs_le]; constructor <;> linarith

/-- Rounding of a value in the range of the normal doubles: the result is finite
and its relative error is at most `2 ^ -53`. -/
theorem rnd_spec (x : ℚ) (hlo : pow2 (-1022) ≤ |x|) (hhi : |x| ≤ pow2 1023) :
    ∃ y, rnd x = .fin y ∧ |y - x| ≤ |x| / 2 ^ 53 := by
  have hx : x ≠ 0 := by
    rintro rfl
    have := pow2_pos (-1022)
    simp at hlo
    linarith
  have ha : 0 < |x| := abs_pos.mpr hx
  obtain ⟨g, hg⟩ : ∃ g, g = max (ilog2 x - 52) (-1074) := ⟨_, rfl⟩
  have hgp := pow2_pos g
  have hgle : pow2 g * 2 ^ 52 ≤ |x| := by
    rcases max_cases (ilog2 x - 52) (-1074) with ⟨e, _⟩ | ⟨e, _⟩
    · rw [hg, e]
      refine le_trans (le_of_eq ?_) (pow2_ilog2_le x hx)
      rw [pow2_eq, pow2_eq, zpow_sub₀ (by norm_num)]
      norm_num
    · rw [hg, e]
      refine le_trans (le_of_eq ?_) hlo
      rw [pow2_eq, pow2_eq]
      rw [show (-1074 : Int) = -1022 - 52 by norm_num, zpow_sub₀ (by norm_num)]
      norm_num
  obtain ⟨m, hm⟩ : ∃ m, m = roundHalfEven (|x| / pow2 g) := ⟨_, rfl⟩
  have herr := roundHalfEven_err (|x| / pow2 g) (div_nonneg (le_of_lt ha) (le_of_lt hgp))
  rw [← hm] at herr
  have hv : abs ((m : ℚ) * pow2 g - |x|) ≤ |x| / 2 ^ 53 := by
    have e1 : (m : ℚ) * pow2 g - |x| = ((m : ℚ) - |x| / pow2 g) * pow2 g := by
      field_simp
    rw [e1, abs_mul, abs_of_pos hgp]
    have : abs ((m : ℚ) - |x| / pow2 g) * pow2 g ≤ 1 / 2 * pow2 g :=
      mul_le_mul_of_nonneg_right herr (le_of_lt hgp)
    refine le_trans this ?_
    rw [le_div_iff₀ (by positivity)]
    linarith
  have hvlt : (m : ℚ) * pow2 g < pow2 1024 := by
    have h1 := (abs_le.mp hv).2
    have h2 : pow2 1024 = 2 * pow2 1023 := by
      rw [pow2_eq, pow2_eq, show (1024 : Int) = 1023 + 1 by norm_num, zpow_add₀ (by norm_num)]
      norm_num
    have h3 : |x| / 2 ^ 53 < |x| := by
      rw [div_lt_iff₀ (by positivity)]
      nlinarith
    rw [h2]
    linarith
  have hr : rnd x = .fin (if x < 0 then -((m : ℚ) * pow2 g) else (m : ℚ) * pow2 g) := by
    unfold rnd
    simp only [hx, if_false]
    rw [← hg, ← hm]
    simp only [not_le.mpr hvlt, if_false]
  refine ⟨_, hr, ?_⟩
  split_ifs with hneg
  · have : |x| = -x := abs_of_neg hneg
    rw [this] at hv ⊢
    rw [show -((m : ℚ) * pow2 g) - x = -((m : ℚ) * pow2 g - -x) by ring, abs_neg]
    exact hv
  · have : |x| = x := abs_of_nonneg (not_lt.mp hneg)
    rw [this] at hv ⊢
    exact hv

/-- The rescale of a harmonic score of moderate size is a finite double within
a relative error of `2 ^ -51` of `(raw + 100) / 2`. -/
theorem rescale_err (raw : Int) (hb : |raw + 100| ≤ 2 ^ 40) :
    ∃ q, rescale raw = .fin q ∧
      |q - ((raw : ℚ) + 100) / 2| ≤ |((raw : ℚ) + 100) / 2| / 2 ^ 51 := by
  by_cases h0 : raw + 100 = 0
  · have hr : raw = -100 := by omega
    subst hr
    exact ⟨0, by decide!, by norm_num⟩
  · have hc : (1 : ℚ) ≤ |(raw : ℚ) + 100| := by
      have : (1 : Int) ≤ |raw + 100| := Int.one_le_abs h0
      exact_mod_cast this
    have hc2 : |(raw : ℚ) + 100| ≤ 2 ^ 40 := by exact_mod_cast hb
    have p1 : pow2 (-1022) ≤ 1 / 400 := by
      rw [pow2_eq, show (-1022 : Int) = -(1022 : Nat) by norm_num, zpow_neg, zpow_natCast,
        inv_eq_one_div]
      apply one_div_le_one_div_of_le <;> norm_num
    have p2 : (2 : ℚ) ^ 48 ≤ pow2 1023 := by
      rw [pow2_eq, show (1023 : Int) = (1023 : Nat) by norm_num, zpow_natCast]
      norm_num
    have hx : |((raw : ℚ) + 100) / 200| = |(raw : ℚ) + 100| / 200 := by
      rw [abs_div]; norm_num
    obtain ⟨y, hy, ey⟩ := rnd_spec (((raw : ℚ) + 100) / 200)
      (by rw [hx]; linarith) (by rw [hx]; linarith)
    have hya := abs_sub_abs_le_abs_sub y (((raw : ℚ) + 100) / 200)
    have hya2 := abs_sub_abs_le_abs_sub (((raw : ℚ) + 100) / 200) y
    rw [abs_sub_comm] at hya2
    rw [hx] at ey hya hya2
    have hy100 : |y * 100| = |y| * 100 := by rw [abs_mul]; norm_num
    obtain ⟨q, hq, eq⟩ := rnd_spec (y * 100)
      (by rw [hy100]; linarith) (by rw [hy100]; linarith)
    rw [hy100] at eq
    refine ⟨q, ?_, ?_⟩
    · have e1 : rescale raw = Dbl.mul (Dbl.div (.fin ((raw : ℚ) + 100)) (.fin 200)) (.fin 100) := by
        unfold rescale; norm_num
      rw [e1]
      simp only [Dbl.div, show ¬ ((200 : ℚ) = 0) by norm_num, if_false, hy, Dbl.mul, hq]
    · have e2 : |((raw : ℚ) + 100) / 2| = |(raw : ℚ) + 100| / 2 := by
        rw [abs_div]; norm_num
      rw [e2]
      have t1 : q - ((raw : ℚ) + 100) / 2 =
          (q - y * 100) + 100 * (y - ((raw : ℚ) + 100) / 200) := by ring
      rw [t1]
      refine le_trans (abs_add _ _) ?_
      rw [abs_mul, show |(100 : ℚ)| = 100 by norm_num]
      have k1 : |y| * 100 / 2 ^ 53 ≤ (|(raw : ℚ) + 100| / 200 +
          |(raw : ℚ) + 100| / 200 / 2 ^ 53) * 100 / 2 ^ 53 := by
        apply div_le_div_of_nonneg_right _ (by positivity)
        nlinarith
      have k2 : (0 : ℚ) ≤ |(raw : ℚ) + 100| := abs_nonneg _
      have k3 : (|(raw : ℚ) + 100| / 200 + |(raw : ℚ) + 100| / 200 / 2 ^ 53) * 100 / 2 ^ 53 +
          100 * (|(raw : ℚ) + 100| / 200 / 2 ^ 53) ≤ |(raw : ℚ) + 100| / 2 / 2 ^ 51 := by
        have : (|(raw : ℚ) + 100| / 200 + |(raw : ℚ) + 100| / 200 / 2 ^ 53) * 100 / 2 ^ 53 +
          100 * (|(raw : ℚ) + 100| / 200 / 2 ^ 53) =
          |(raw : ℚ) + 100| * ((1 / 2 + 1 / 2 / 2 ^ 53) / 2 ^ 53 + 1 / 2 / 2 ^ 53) := by ring
        rw [this, show |(raw : ℚ) + 100| / 2 / 2 ^ 51 = |(raw : ℚ) + 100| * (1 / 2 / 2 ^ 51) by ring]
        apply mul_le_mul_of_nonneg_left _ k2
        norm_num
      linarith [mul_le_mul_of_nonneg_left ey (by norm_num : (0 : ℚ) ≤ 100)]

/-- The rescale of every harmonic score between `-100` and `100` is within `[0, 100]`. -/
theorem rescale_range_table :
    ∀ k ∈ List.range 201, 0 ≤ rescale ((k : Int) - 100) ∧ rescale ((k : Int) - 100) ≤ 100 := by
  decide!

theorem rescale_range (raw : Int) (h1 : -100 ≤ raw) (h2 : raw ≤ 100) :
    0 ≤ rescale raw ∧ rescale raw ≤ 100 := by
  have := rescale_range_table (raw + 100).toNat (by simp [List.mem_range]; omega)
  rwa [show (((raw + 100).toNat : Nat) : Int) - 100 = raw by omega] at this

/-- The rescale of every harmonic score between `-147` and `99` is at most `99.5`. -/
theorem rescale_six_table :
    ∀ k ∈ List.range 247, rescale ((k : Int) - 147) ≤ .fin (995 / 10) := by
  decide!

theorem rescale_six (raw : Int) (h1 : -147 ≤ raw) (h2 : raw ≤ 99) :
    rescale raw ≤ .fin (995 / 10) := by
  have := rescale_six_table (raw + 147).toNat (by simp [List.mem_range]; omega)
  rwa [show (((raw + 147).toNat : Nat) : Int) - 147 = raw by omega] at this

end MusicTree

namespace MusicTree

theorem rangeLoop_zero_draws (K : PitchConsts) : ∀ (ns : List Note) (score : Int)
    (r : Nat → Nat), (∀ i, r i % 5 = 0) → (rangeLoop K ns score r).1 = score
  | [], score, r, _ => by simp [rangeLoop]
  | n :: ns, score, r, hr => by
    have h0 := hr 0
    have h1 := hr 1
    have hs : ∀ i, (fun i => r (i + 1)) i % 5 = 0 := fun i => hr (i + 1)
    have hs2 : ∀ i, (fun i => r (i + 1 + 1)) i % 5 = 0 := fun i => hr (i + 1 + 1)
    simp only [rangeLoop, rand]
    split_ifs
    · rw [rangeLoop_zero_draws K ns _ _ hs2]; simp [h0, h1]
    · rw [rangeLoop_zero_draws K ns _ _ hs]; simp [h0]
    · rw [rangeLoop_zero_draws K ns _ _ hs]; simp [h0]
    · rw [rangeLoop_zero_draws K ns _ _ hr]

/-- C11 (as amended): for every motif of at most 4 notes, and for every motif
of at most 6 notes none of whose pitches is outside the acceptable or the
extreme pitch range, and for every sequence of random draws,
`CalculateFitnessScore` returns a score in `[0, 100]`. -/
theorem CalculateFitnessScore_range (K : PitchConsts) (motif : List Note) (r : Nat → Nat)
    (h : motif.length ≤ 4 ∨ (motif.length ≤ 6 ∧
      ∀ x ∈ motif, (K.kMinAcceptablePitch ≤ x.pitch ∧ x.pitch ≤ K.kMaxAcceptablePitch) ∧
        (K.kExtrMinAcceptablePitch ≤ x.pitch ∧ x.pitch ≤ K.kExtrMaxAcceptablePitch))) :
    0 ≤ (CalculateFitnessScore K motif r).1 ∧ (CalculateFitnessScore K motif r).1 ≤ 100 := by
  rw [CalculateFitnessScore_eq]
  cases motif with
  | nil => rw [CalculateHarmonicScore_nil]; decide!
  | cons n ns =>
    obtain ⟨lo, hi, lo'⟩ := CalculateHarmonicScore_bounds K n ns r
    have hb : -100 ≤ (CalculateHarmonicScore K (n :: ns) r).1 ∧
        (CalculateHarmonicScore K (n :: ns) r).1 ≤ 100 := by
      rcases h with h | ⟨h, hall⟩
      · simp only [List.length_cons] at h lo hi
        omega
      · have := lo' hall
        simp only [List.length_cons] at h this hi
        omega
    exact rescale_range _ hb.1 hb.2

/-- C11 witness: the seed motif of the constructor (six notes, pitches between
50 and 84) with the sample pitch ranges. -/
theorem CalculateFitnessScore_range_witness :
    0 ≤ (CalculateFitnessScore exConsts initial_motif zeroStream).1 ∧
      (CalculateFitnessScore exConsts initial_motif zeroStream).1 ≤ 100 :=
  CalculateFitnessScore_range exConsts initial_motif zeroStream
    (Or.inr ⟨by decide, by decide⟩)

/-- C11 counterexample: the seven notes 60, 67, 60, 67, 60, 67, 60 (all in the
scale, all consecutive intervals 7 semitones, all pitches within `[0, 127]`)
with the draws `9` for the thirteen rewards and `0` afterwards score `108.5`,
whatever the pitch-range constants. -/
theorem CalculateFitnessScore_range_counterexample :
    ∃ (motif : List Note) (r : Nat → Nat),
      (∀ x ∈ motif, 0 ≤ x.pitch ∧ x.pitch ≤ 127) ∧
      ∀ K : PitchConsts, (CalculateFitnessScore K motif r).1 = .fin (217 / 2) ∧
        ¬ ((CalculateFitnessScore K motif r).1 ≤ 100) := by
  refine ⟨[⟨60, 1 / 2⟩, ⟨67, 1 / 2⟩, ⟨60, 1 / 2⟩, ⟨67, 1 / 2⟩, ⟨60, 1 / 2⟩, ⟨67, 1 / 2⟩,
    ⟨60, 1 / 2⟩], fun i => if i < 13 then 9 else 0, by decide, fun K => ?_⟩
  have hb : intervalLoop 60 [⟨67, 1 / 2⟩, ⟨60, 1 / 2⟩, ⟨67, 1 / 2⟩, ⟨60, 1 / 2⟩, ⟨67, 1 / 2⟩,
        ⟨60, 1 / 2⟩]
      (scaleLoop [⟨60, 1 / 2⟩, ⟨67, 1 / 2⟩, ⟨60, 1 / 2⟩, ⟨67, 1 / 2⟩, ⟨60, 1 / 2⟩, ⟨67, 1 / 2⟩,
        ⟨60, 1 / 2⟩] 0 (fun i => if i < 13 then 9 else 0)).1
      (scaleLoop [⟨60, 1 / 2⟩, ⟨67, 1 / 2⟩, ⟨60, 1 / 2⟩, ⟨67, 1 / 2⟩, ⟨60, 1 / 2⟩, ⟨67, 1 / 2⟩,
        ⟨60, 1 / 2⟩] 0 (fun i => if i < 13 then 9 else 0)).2 =
      (117, fun i => if i + 13 < 13 then 9 else 0) := by
    rfl
  have hraw : (CalculateHarmonicScore K [⟨60, 1 / 2⟩, ⟨67, 1 / 2⟩, ⟨60, 1 / 2⟩, ⟨67, 1 / 2⟩,
      ⟨60, 1 / 2⟩, ⟨67, 1 / 2⟩, ⟨60, 1 / 2⟩] (fun i => if i < 13 then 9 else 0)).1 = 117 := by
    simp only [CalculateHarmonicScore, hb]
    apply rangeLoop_zero_draws
    intro i
    simp
  rw [CalculateFitnessScore_eq, hraw]
  decide!

/-- C20 (as amended): for every motif of `n ≥ 1` notes, whatever the
pitch-range constants and the random draws, the raw harmonic score lies in
`[-(26n - 9), 18n - 9]`; for `n` up to `INT_MAX` (the loops index the motif with
an `int`) the fitness score is a finite double within a relative rounding error
of `2 ^ -51` of `(raw + 100) / 2`, so it lies in `[(109 - 26n)/2, (91 + 18n)/2]`
widened by `(26n + 91) / 2 ^ 52` at either end; the fitness score is within
`[0, 100]` for every motif of at most 4 notes, at most `99.5` for every 6-note
motif, and exactly `50` for the empty motif. -/
theorem CalculateFitnessScore_length_bounds (K : PitchConsts) (motif : List Note)
    (r : Nat → Nat) :
    (1 ≤ motif.length →
      -(26 * (motif.length : Int) - 9) ≤ (CalculateHarmonicScore K motif r).1 ∧
      (CalculateHarmonicScore K motif r).1 ≤ 18 * (motif.length : Int) - 9 ∧
      (motif.length ≤ 2147483647 →
        ∃ q : ℚ, (CalculateFitnessScore K motif r).1 = .fin q ∧
          |q - (((CalculateHarmonicScore K motif r).1 : ℚ) + 100) / 2| ≤
            |(((CalculateHarmonicScore K motif r).1 : ℚ) + 100) / 2| / 2 ^ 51 ∧
          (109 - 26 * (motif.length : ℚ)) / 2 - (26 * (motif.length : ℚ) + 91) / 2 ^ 52 ≤ q ∧
          q ≤ (91 + 18 * (motif.length : ℚ)) / 2 + (26 * (motif.length : ℚ) + 91) / 2 ^ 52)) ∧
    (motif.length ≤ 4 →
      0 ≤ (CalculateFitnessScore K motif r).1 ∧ (CalculateFitnessScore K motif r).1 ≤ 100) ∧
    (motif.length = 6 → (CalculateFitnessScore K motif r).1 ≤ .fin (995 / 10)) ∧
    (CalculateFitnessScore K [] r).1 = 50 := by
  have hnil : (CalculateFitnessScore K [] r).1 = 50 := by
    rw [CalculateFitnessScore_eq, CalculateHarmonicScore_nil]; decide!
  cases motif with
  | nil =>
    refine ⟨fun h => absurd h (by simp), fun _ => ?_, fun h => absurd h (by simp), hnil⟩
    rw [hnil]; decide!
  | cons n ns =>
    obtain ⟨lo, hi, _⟩ := CalculateHarmonicScore_bounds K n ns r
    refine ⟨fun _ => ⟨lo, hi, fun hmax => ?_⟩, fun h4 => ?_, fun h6 => ?_, hnil⟩
    · have hab : |(CalculateHarmonicScore K (n :: ns) r).1 + 100| ≤ 2 ^ 40 := by
        rw [abs_le]
        constructor <;> omega
      obtain ⟨q, hq, herr⟩ := rescale_err _ hab
      refine ⟨q, by rw [CalculateFitnessScore_eq, hq], herr, ?_⟩
      have lo' : -(26 * (((n :: ns).length : Nat) : ℚ) - 9) ≤
          ((CalculateHarmonicScore K (n :: ns) r).1 : ℚ) := by exact_mod_cast lo
      have hi' : ((CalculateHarmonicScore K (n :: ns) r).1 : ℚ) ≤
          18 * (((n :: ns).length : Nat) : ℚ) - 9 := by exact_mod_cast hi
      have hn0 : (0 : ℚ) ≤ (((n :: ns).length : Nat) : ℚ) := by positivity
      have hsl : |(((CalculateHarmonicScore K (n :: ns) r).1 : ℚ) + 100) / 2| / 2 ^ 51 ≤
          (26 * (((n :: ns).length : Nat) : ℚ) + 91) / 2 ^ 52 := by
        rw [abs_div, show |(2 : ℚ)| = 2 by norm_num, div_div,
          show (2 : ℚ) * 2 ^ 51 = 2 ^ 52 by norm_num]
        apply div_le_div_of_nonneg_right _ (by positivity)
        rw [abs_le]
        constructor <;> linarith
      have hq2 := abs_le.mp (le_trans herr hsl)
      constructor <;> linarith [hq2.1, hq2.2]
    · rw [CalculateFitnessScore_eq]
      simp only [List.length_cons] at h4 lo hi
      exact rescale_range _ (by omega) (by omega)
    · rw [CalculateFitnessScore_eq]
      simp only [List.length_cons] at h6 lo hi
      exact rescale_six _ (by omega) (by omega)

/-- C20 witness: the six-note seed motif of the constructor. -/
theorem CalculateFitnessScore_length_bounds_witness :
    -(26 * (6 : Int) - 9) ≤ (CalculateHarmonicScore exConsts initial_motif zeroStream).1 ∧
      (CalculateHarmonicScore exConsts initial_motif zeroStream).1 ≤ 18 * (6 : Int) - 9 ∧
      (∃ q : ℚ, (CalculateFitnessScore exConsts initial_motif zeroStream).1 = .fin q ∧
        (109 - 26 * (6 : ℚ)) / 2 - (26 * (6 : ℚ) + 91) / 2 ^ 52 ≤ q ∧
        q ≤ (91 + 18 * (6 : ℚ)) / 2 + (26 * (6 : ℚ) + 91) / 2 ^ 52) ∧
      (CalculateFitnessScore exConsts initial_motif zeroStream).1 ≤ .fin (995 / 10) := by
  have h := CalculateFitnessScore_length_bounds exConsts initial_motif zeroStream
  obtain ⟨q, hq, _, h1, h2⟩ := (h.1 (by decide)).2.2 (by decide)
  refine ⟨(h.1 (by decide)).1, (h.1 (by decide)).2.1, ⟨q, hq, ?_, ?_⟩, h.2.2.1 (by decide)⟩
  · simpa [initial_motif] using h1
  · simpa [initial_motif] using h2

/-- C20 counterexample: the single note of pitch 60 (in the scale) with the
draw `9` for its reward and `0` afterwards has raw score `9`, within
`[-17, 9]`, and fitness score `54.5 + 2 ^ -47`, above `(91 + 18) / 2 = 54.5`,
whatever the pitch-range constants: the quotient `109 / 200` is rounded up
before it is multiplied by `100`. -/
theorem CalculateFitnessScore_length_bounds_counterexample :
    ∃ (motif : List Note) (r : Nat → Nat), motif.length = 1 ∧
      ∀ K : PitchConsts, (CalculateHarmonicScore K motif r).1 = 9 ∧
        (CalculateFitnessScore K motif r).1 = .fin (109 / 2 + 1 / 2 ^ 47) ∧
        ¬ ((CalculateFitnessScore K motif r).1 ≤
          .fin ((91 + 18 * ((1 : Nat) : ℚ)) / 2)) := by
  refine ⟨[⟨60, 1 / 2⟩], fun i => if i < 1 then 9 else 0, rfl, fun K => ?_⟩
  have hraw : (CalculateHarmonicScore K [⟨60, 1 / 2⟩] (fun i => if i < 1 then 9 else 0)).1 = 9 := by
    have hb : scaleLoop [⟨60, 1 / 2⟩] 0 (fun i => if i < 1 then 9 else 0) =
        (9, fun i => if i + 1 < 1 then 9 else 0) := by
      rfl
    simp only [CalculateHarmonicScore, hb, intervalLoop]
    apply rangeLoop_zero_draws
    intro i
    simp
  refine ⟨hraw, ?_, ?_⟩
  · rw [CalculateFitnessScore_eq, hraw]
    decide!
  · rw [CalculateFitnessScore_eq, hraw]
    decide!

end MusicTree

namespace MusicTree

/-! ## MutateMotif -/

end MusicTree

namespace MusicTree

/-! ## The size counter of GeneticAlgorithm -/

/-- C13, the failing input: `GeneticAlgorithm(0)` on a freshly constructed tree
when every call of `rand()` returns `0`.  Every node is selected in each of the
four pre-evolve rounds, so the tree grows to 16 nodes while `size_` stays `1`;
the final loop `while (size_ > 2)` is therefore skipped and the call returns
with 16 nodes reachable from the root. -/
theorem GeneticAlgorithm_final_count_failing_input :
    Except.toOption (do
      let s ← GeneticAlgorithm exConsts 2147483647 1 20 20
        (construct exConsts (emptyMem zeroStream) false) 0
      CountNodes 20 s.1.heap s.2.root_) = some 16 := by
  decide!

/-- C14, the failing input: on a freshly constructed tree with every draw `0`,
after the first completed pre-evolve round the tree has 2 nodes and `size_` is
`1`; when `GeneticAlgorithm(0)` tests `size_ > 2` and returns, the tree has 16
nodes and `size_` is still `1`. -/
theorem GeneticAlgorithm_size_failing_input :
    Except.toOption (do
      let s ← preEvolveRound exConsts 2147483647 20 20
        (construct exConsts (emptyMem zeroStream) false)
      let c ← CountNodes 20 s.1.heap s.2.root_
      pure (s.2.size_, c)) = some (1, 2) ∧
    Except.toOption (do
      let s ← GeneticAlgorithm exConsts 2147483647 1 20 20
        (construct exConsts (emptyMem zeroStream) false) 0
      let c ← CountNodes 20 s.1.heap s.2.root_
      pure (s.2.size_, c)) = some (1, 16) := by
  decide!

end MusicTree

namespace MusicTree

/-! ## TraverseAndSelect -/

theorem TraverseAndSelect_spec (RAND_MAX : Nat) (h : Heap) (r : Nat → Nat) :
    ∀ fuel (t : MTree) (p : Option Nat) (sel : List Nat) (k : Nat), TreeAt h p t →
      t.size ≤ fuel →
      TraverseAndSelect RAND_MAX fuel (some t.id) (h, sel, fun j => r (j + k)) =
        .ok (h, sel ++ (t.nodes.enumFrom k).filterMap (fun p =>
            if drawBelow RAND_MAX (r p.1) p.2.2.2 then some p.2.1 else none),
          fun j => r (j + (k + t.size))) := by
  intro fuel
  induction fuel with
  | zero =>
    intro t p sel k _ hs
    have := t.size_pos
    omega
  | succ n ih =>
    intro t p sel k ht hs
    cases ht with
    | mk p i m f cs h1 h2 =>
      have hloop : ∀ (l : List MTree) (sel : List Nat) (k : Nat), (∀ c ∈ l, c ∈ cs) →
          List.foldlM (fun s child => TraverseAndSelect RAND_MAX n (some child) s)
            (h, sel, fun j => r (j + k)) (l.map MTree.id) =
          .ok (h, sel ++ ((MTree.nodesL l).enumFrom k).filterMap (fun p =>
              if drawBelow RAND_MAX (r p.1) p.2.2.2 then some p.2.1 else none),
            fun j => r (j + (k + (MTree.nodesL l).length))) := by
        intro l
        induction l with
        | nil => intro sel k _; simp [pure, Except.pure]
        | cons d ds ihd =>
          intro sel k hsub
          have hd : d ∈ cs := hsub d (by simp)
          have hsz : d.size ≤ n := by
            have := MTree.size_le_of_mem hd
            simp at hs
            omega
          simp only [List.map_cons, List.foldlM_cons]
          rw [ih d (some i) sel k (h2 d hd) hsz]
          simp only [bind, Except.bind]
          rw [ihd _ (k + d.size) (fun c hc => hsub c (List.mem_cons_of_mem _ hc))]
          simp only [MTree.nodesL_cons, List.enumFrom_append, List.filterMap_append,
            List.append_assoc, List.length_append]
          have e : k + d.size + (MTree.nodesL ds).length
              = k + (d.nodes.length + (MTree.nodesL ds).length) := by
            simp only [MTree.size]; omega
          rw [e]
          rfl
      have hs1 : (fun i => (fun j => r (j + k)) (i + 1)) = fun j => r (j + (k + 1)) := by
        funext j
        exact congrArg r (by omega)
      simp only [MTree.id_node, TraverseAndSelect, h1, rand, hs1]
      have hk : (0 : Nat) + k = k := by omega
      by_cases hc : Dbl.div (rnd (r k : ℚ)) (rnd (RAND_MAX : ℚ)) <
          Dbl.max (Dbl.div f (.fin 100)) (rnd (1 / 10))
      · have hc' : drawBelow RAND_MAX (r k) f = true := decide_eq_true hc
        simp only [hk, hc, if_true]
        rw [hloop cs (sel ++ [i]) (k + 1) (fun c hc => hc)]
        simp only [MTree.nodes_node, List.enumFrom_cons, List.filterMap_cons, hc', if_true,
          MTree.size_node, List.append_assoc, List.singleton_append]
        have e : k + 1 + (MTree.nodesL cs).length = k + ((MTree.nodesL cs).length + 1) := by
          omega
        rw [e]
      · have hc' : drawBelow RAND_MAX (r k) f = false := decide_eq_false hc
        simp only [hk, hc, if_false]
        rw [hloop cs sel (k + 1) (fun c hc => hc)]
        simp only [MTree.nodes_node, List.enumFrom_cons, List.filterMap_cons, hc',
          Bool.false_eq_true, if_false, MTree.size_node]
        have e : k + 1 + (MTree.nodesL cs).length = k + ((MTree.nodesL cs).length + 1) := by
          omega
        rw [e]

theorem mem_selectSpec {RAND_MAX : Nat} {r : Nat → Nat} {nodes : List (Nat × List Note × Dbl)}
    {a : Nat} : a ∈ selectSpec RAND_MAX r nodes ↔
      ∃ i x, nodes[i]? = some x ∧ x.1 = a ∧
        Dbl.div (rnd (r i : ℚ)) (rnd (RAND_MAX : ℚ)) <
          Dbl.max (Dbl.div x.2.2 (.fin 100)) (rnd (1 / 10)) := by
  unfold selectSpec
  rw [List.mem_filterMap]
  constructor
  · rintro ⟨⟨i, x⟩, hm, hp⟩
    have hx := List.mk_mem_enum_iff_getElem?.mp hm
    by_cases hc : drawBelow RAND_MAX (r i) x.2.2 = true
    · rw [if_pos hc] at hp
      exact ⟨i, x, hx, Option.some.inj hp, of_decide_eq_true hc⟩
    · rw [if_neg hc] at hp
      cases hp
  · rintro ⟨i, x, hx, rfl, hc⟩
    have hc' : drawBelow RAND_MAX (r i) x.2.2 = true := decide_eq_true hc
    exact ⟨(i, x), List.mk_mem_enum_iff_getElem?.mpr hx, by rw [if_pos hc']⟩

theorem rnd_ne_nan (x : ℚ) : rnd x ≠ .nan := by
  unfold rnd
  simp only
  split_ifs <;> simp

theorem Dbl.div_fin_ne_nan {a : Dbl} {b : ℚ} (ha : a ≠ .nan) (hb : b ≠ 0) :
    Dbl.div a (.fin b) ≠ .nan := by
  cases a with
  | nan => exact absurd rfl ha
  | ninf => simp only [Dbl.div]; split_ifs <;> simp
  | pinf => simp only [Dbl.div]; split_ifs <;> simp
  | fin q => simp only [Dbl.div, hb, if_false]; exact rnd_ne_nan _

theorem Dbl.lt_le_trans {a b c : Dbl} (h1 : a < b) (h2 : b ≤ c) : a < c := by
  cases a <;> cases b <;> cases c <;>
    simp_all [Dbl.lt_def, Dbl.le_def, Dbl.lt, Dbl.le]
  exact lt_of_lt_of_le h1 h2

/-- A draw below the floor `0.10` passes the selection test of every fitness
other than NaN. -/
theorem drawBelow_floor {p f : Dbl} (hf : f ≠ .nan) (hp : p < rnd (1 / 10)) :
    p < Dbl.max (Dbl.div f (.fin 100)) (rnd (1 / 10)) := by
  unfold Dbl.max
  split_ifs with h
  · exact hp
  · exact Dbl.lt_le_trans hp
      ((Dbl.not_lt_iff_le (Dbl.div_fin_ne_nan hf (by norm_num)) (rnd_ne_nan _)).mp h)

/-- C15 (as amended): on a held tree `TraverseAndSelect` returns; it appends to
`selected_nodes` exactly the selection the claim describes (the `i`-th node in
preorder gets the `i`-th draw and is kept when `draw / RAND_MAX` is strictly
below `max(fitness / 100, 0.10)`, the quotients, the maximum and the comparison
being those of `double`; kept nodes in preorder), it consumes one draw per node,
and it returns the heap unchanged.  A node is selected exactly when some
preorder position holding it has such a draw; in particular a node whose
fitness is not NaN and whose draw quotient is below the double `0.10` is
selected. -/
theorem TraverseAndSelect_preorder (RAND_MAX fuel : Nat) (h : Heap) (t : MTree)
    (p : Option Nat) (sel : List Nat) (r : Nat → Nat) (ht : TreeAt h p t)
    (hfuel : t.size ≤ fuel) :
    TraverseAndSelect RAND_MAX fuel (some t.id) (h, sel, r) =
      .ok (h, sel ++ selectSpec RAND_MAX r t.nodes, fun j => r (j + t.size)) ∧
    (∀ a, a ∈ selectSpec RAND_MAX r t.nodes ↔
      ∃ i x, t.nodes[i]? = some x ∧ x.1 = a ∧
        Dbl.div (rnd (r i : ℚ)) (rnd (RAND_MAX : ℚ)) <
          Dbl.max (Dbl.div x.2.2 (.fin 100)) (rnd (1 / 10))) ∧
    (∀ i x, t.nodes[i]? = some x → x.2.2 ≠ .nan →
      Dbl.div (rnd (r i : ℚ)) (rnd (RAND_MAX : ℚ)) < rnd (1 / 10) →
      x.1 ∈ selectSpec RAND_MAX r t.nodes) := by
  refine ⟨?_, fun a => mem_selectSpec, ?_⟩
  · have key := TraverseAndSelect_spec RAND_MAX h r fuel t p sel 0 ht hfuel
    simp only [Nat.add_zero, Nat.zero_add] at key
    exact key
  · intro i x hx hf hc
    exact mem_selectSpec.mpr ⟨i, x, hx, rfl, drawBelow_floor hf hc⟩

/-- C15 witness: the sample tree, whose preorder is `0, 1, 3, 4, 2` with fitness
`5, 5, 50, 5, 50`, with `RAND_MAX = 100` and the draws `9, 10, 49, 50, 0`: nodes
`0`, `3` and `2` are selected. -/
theorem TraverseAndSelect_preorder_witness :
    TraverseAndSelect 100 5 (some 0) (exHeap, [], fun i => [9, 10, 49, 50, 0].getD i 0) =
      .ok (exHeap, [0, 3, 2], fun j => [9, 10, 49, 50, 0].getD (j + 5) 0) := by
  have key := (TraverseAndSelect_preorder 100 5 exHeap exTree none []
    (fun i => [9, 10, 49, 50, 0].getD i 0) exHolds.1 (by decide)).1
  have e : selectSpec 100 (fun i => [9, 10, 49, 50, 0].getD i 0) exTree.nodes = [0, 3, 2] := by
    decide!
  rw [e] at key
  exact key

theorem nanHolds : HoldsTree nanHeap nanObj nanTree := by
  refine ⟨?_, rfl, by decide⟩
  refine TreeAt.mk none 0 _ 50 _ (by simp [nanHeap, exNode, MTree.id]) ?_
  intro c hc
  simp only [List.mem_singleton] at hc
  subst hc
  exact TreeAt.mk (some 0) 1 _ .nan [] (by simp [nanHeap, exNode]) (by simp)

/-- C15 counterexample: in the tree of `nanHeap` (root `0` of fitness `50`, its
child `1` of fitness NaN) with every draw `0` and `RAND_MAX = 2147483647`, the
draw of node `1` gives `0 / RAND_MAX = 0`, below `0.10`, but node `1` is not
selected: `max(NaN / 100, 0.10)` is NaN and no comparison with NaN holds.  Also,
for the finite fitness `67.92038710225393` and the draw `1458579206` the test
holds over the reals and fails in `double`, where both quotients round to the
same value. -/
theorem TraverseAndSelect_nan_counterexample :
    TreeAt nanHeap none nanTree ∧
    ((zeroStream 1 : ℚ) / (2147483647 : ℚ) < 1 / 10) ∧
    TraverseAndSelect 2147483647 2 (some 0) (nanHeap, [], zeroStream) =
      .ok (nanHeap, [0], fun j => zeroStream (j + 2)) ∧
    1 ∉ [0] ∧
    rnd (298717021527901 / 4398046511104) = .fin (298717021527901 / 4398046511104) ∧
    drawBelowExact 2147483647 1458579206 (298717021527901 / 4398046511104) = true ∧
    drawBelow 2147483647 1458579206 (.fin (298717021527901 / 4398046511104)) = false := by
  refine ⟨nanHolds.1, by decide!, ?_, by decide, by decide!, by decide!, by decide!⟩
  have key := TraverseAndSelect_spec 2147483647 nanHeap zeroStream 2 nanTree none [] 0
    nanHolds.1 (by decide)
  simp only [Nat.add_zero, Nat.zero_add] at key
  have e : (nanTree.nodes.enumFrom 0).filterMap (fun p =>
      if drawBelow 2147483647 (zeroStream p.1) p.2.2.2 then some p.2.1 else none) = [0] := by
    decide!
  rw [e] at key
  exact key

end MusicTree

namespace MusicTree

/-! ## Pruning a tree with a single low node -/

namespace MTree

theorem survivorOf_concat (i : Nat) (m : List Note) (f : Dbl) (ys : List MTree) (y : MTree) :
    survivorOf (node i m f (ys ++ [y])) = node y.id y.motif y.fit (y.kids ++ ys) := by
  simp [survivorOf]

theorem reparentBelowL_eq_map (x : Nat) : ∀ cs : List MTree,
    reparentBelowL x cs = cs.map (reparentBelow x)
  | [] => by simp [reparentBelowL]
  | c :: cs => by simp [reparentBelowL, reparentBelowL_eq_map x cs]

theorem reparentBelow_some {x i : Nat} {m : List Note} {f : Dbl} {cs : List MTree} {X : MTree}
    (h : cs.find? (fun c => c.id == x) = some X) :
    reparentBelow x (node i m f cs) =
      node i m f (cs.filter (fun c => c.id != x) ++ [survivorOf X]) := by
  rw [reparentBelow, h]

theorem reparentBelow_none {x i : Nat} {m : List Note} {f : Dbl} {cs : List MTree}
    (h : cs.find? (fun c => c.id == x) = none) :
    reparentBelow x (node i m f cs) = node i m f (cs.map (reparentBelow x)) := by
  rw [reparentBelow, h, reparentBelowL_eq_map]

@[simp] theorem reparentBelow_id (x : Nat) (t : MTree) : (reparentBelow x t).id = t.id := by
  cases t with
  | node i m f cs =>
    cases hf : cs.find? (fun c => c.id == x) with
    | none => rw [reparentBelow_none hf]; rfl
    | some X => rw [reparentBelow_some hf]; rfl

/-- Children that are all kept in place: the kept list is their images and
nothing is moved to the end. -/
theorem kids_all_kept (thr : Dbl) (g : MTree → MTree) : ∀ cs : List MTree,
    (∀ c ∈ cs, pruneSub thr c = some (g c) ∧ ¬ c.fit < thr) →
    keptKids thr cs = cs.map g ∧ movedKids thr cs = []
  | [], _ => by simp
  | c :: cs, hall => by
    obtain ⟨h1, h2⟩ := hall c (by simp)
    obtain ⟨k1, k2⟩ := kids_all_kept thr g cs (fun d hd => hall d (List.mem_cons_of_mem _ hd))
    rw [keptKids_cons, movedKids_cons, if_neg h2, if_neg h2, h1, k1, k2]
    simp

end MTree

theorem OnlyBad.kids {thr : Dbl} {x i : Nat} {m : List Note} {f : Dbl} {cs : List MTree}
    (hb : OnlyBad thr x (MTree.node i m f cs)) : ∀ c ∈ cs, OnlyBad thr x c := by
  cases hb with
  | mk _ _ _ _ _ _ h3 => exact h3

theorem OnlyBad.good {thr : Dbl} {x : Nat} {t : MTree} (hb : OnlyBad thr x t) (hne : t.id ≠ x) :
    ¬ t.fit < thr := by
  cases hb with
  | mk i m f cs _ h2 _ => exact Dbl.not_lt_of_le (h2 hne)

theorem OnlyBad.bad {thr : Dbl} {x : Nat} {t : MTree} (hb : OnlyBad thr x t) (he : t.id = x) :
    t.fit < thr ∧ t.kids ≠ [] := by
  cases hb with
  | mk i m f cs h1 _ _ => exact h1 he

namespace MTree

/-- A subtree without the low node is left as it is. -/
theorem pruneSub_all_good (thr : Dbl) (x : Nat) : ∀ s : MTree, OnlyBad thr x s → x ∉ s.ids →
    pruneSub thr s = some s := by
  intro s
  induction s using MTree.ind with
  | step i m f cs ih =>
    intro hb hx
    simp only [ids_node, List.mem_cons, not_or] at hx
    have hf : ¬ f < thr := hb.good (fun e => hx.1 e.symm)
    have hk := kids_all_kept thr (fun c => c) cs (fun c hc => by
      have hxc : x ∉ c.ids := fun hm => hx.2 (ids_subset_idsL hc x hm)
      exact ⟨ih c hc (hb.kids c hc) hxc,
        (hb.kids c hc).good (fun e => hxc (e ▸ id_mem_ids c))⟩)
    rw [pruneSub_ge hf, hk.1, hk.2]
    simp

/-- The low node itself is replaced by its survivor. -/
theorem prune_low_node (thr : Dbl) (x : Nat) (m : List Note) (f : Dbl) (cs : List MTree)
    (hb : OnlyBad thr x (node x m f cs)) (hnd : (node x m f cs).ids.Nodup) :
    pruneSub thr (node x m f cs) = some (survivorOf (node x m f cs)) ∧
    pruneRoot thr (node x m f cs) = survivorOf (node x m f cs) := by
  simp only [ids_node, List.nodup_cons] at hnd
  obtain ⟨hf, hne⟩ := hb.bad rfl
  simp only [fit_node, kids_node] at hf hne
  have hk := kids_all_kept thr (fun c => c) cs (fun c hc => by
    have hxc : x ∉ c.ids := fun hm => hnd.1 (ids_subset_idsL hc x hm)
    exact ⟨pruneSub_all_good thr x c (hb.kids c hc) hxc,
      (hb.kids c hc).good (fun e => hxc (e ▸ id_mem_ids c))⟩)
  obtain ⟨ys, y, hcs⟩ := (List.eq_nil_or_concat cs).resolve_left hne
  rw [List.concat_eq_append] at hcs
  subst hcs
  have he : keptKids thr (ys ++ [y]) ++ movedKids thr (ys ++ [y]) = ys ++ [y] := by
    rw [hk.1, hk.2]; simp
  rw [pruneSub_lt_concat hf he, pruneRoot_lt_concat hf he, survivorOf_concat]
  exact ⟨rfl, rfl⟩

/-- The children of the parent of the low node `X`: `X` leaves its place and
its survivor is appended at the end. -/
theorem kids_with_low (thr : Dbl) (x : Nat) (X : MTree) (hX : X.id = x) : ∀ cs : List MTree,
    (idsL cs).Nodup → (∀ c ∈ cs, OnlyBad thr x c) → X ∈ cs →
    keptKids thr cs = cs.filter (fun c => c.id != x) ∧ movedKids thr cs = [survivorOf X]
  | [], _, _, hm => by cases hm
  | c :: cs, hnd, hall, hm => by
    simp only [idsL_cons, List.nodup_append] at hnd
    obtain ⟨hd1, hd2, hdis⟩ := hnd
    have hbc := hall c (by simp)
    by_cases hc : c.id = x
    · have hXc : X = c := by
        rcases List.mem_cons.mp hm with h1 | h1
        · exact h1
        · exfalso
          exact hdis (hc ▸ id_mem_ids c) (ids_subset_idsL h1 x (hX ▸ id_mem_ids X))
      subst hXc
      have hrest : ∀ d ∈ cs, x ∉ d.ids := fun d hd hmx =>
        hdis (hc ▸ id_mem_ids X) (ids_subset_idsL hd x hmx)
      have hk := kids_all_kept thr (fun c => c) cs (fun d hd =>
        ⟨pruneSub_all_good thr x d (hall d (List.mem_cons_of_mem _ hd)) (hrest d hd),
          (hall d (List.mem_cons_of_mem _ hd)).good
            (fun e => hrest d hd (e ▸ id_mem_ids d))⟩)
      have hfilt : cs.filter (fun c => c.id != x) = cs := by
        rw [List.filter_eq_self]
        intro d hd
        have : d.id ≠ x := fun e => hrest d hd (e ▸ id_mem_ids d)
        simpa using this
      have hlow : pruneSub thr X = some (survivorOf X) := by
        cases X with
        | node i m f ks =>
          simp only [id_node] at hc
          subst hc
          exact (prune_low_node thr i m f ks hbc hd1).1
      rw [keptKids_cons, movedKids_cons, if_pos (hbc.bad hc).1, if_pos (hbc.bad hc).1, hk.1,
        hk.2, hlow]
      simp [hc, hfilt]
    · have hXcs : X ∈ cs := by
        rcases List.mem_cons.mp hm with h1 | h1
        · exact absurd (h1 ▸ hX) hc
        · exact h1
      have hxc : x ∉ c.ids := fun hmx =>
        hdis hmx (ids_subset_idsL hXcs x (hX ▸ id_mem_ids X))
      obtain ⟨k1, k2⟩ := kids_with_low thr x X hX cs hd2
        (fun d hd => hall d (List.mem_cons_of_mem _ hd)) hXcs
      rw [keptKids_cons, movedKids_cons, if_neg (hbc.good hc), if_neg (hbc.good hc),
        pruneSub_all_good thr x c hbc hxc, k1, k2]
      simp [hc]

/-- Below a root that is not the low node, pruning is the re-parenting the claim
describes. -/
theorem pruneSub_reparentBelow (thr : Dbl) (x : Nat) : ∀ s : MTree, OnlyBad thr x s →
    s.ids.Nodup → s.id ≠ x → pruneSub thr s = some (reparentBelow x s) := by
  intro s
  induction s using MTree.ind with
  | step i m f cs ih =>
    intro hb hnd hne
    simp only [ids_node, List.nodup_cons] at hnd
    have hf : ¬ f < thr := hb.good hne
    rw [pruneSub_ge hf]
    cases hfind : cs.find? (fun c => c.id == x) with
    | some X =>
      have hX : X.id = x := by simpa using List.find?_some hfind
      have hXm : X ∈ cs := List.mem_of_find?_eq_some hfind
      obtain ⟨k1, k2⟩ := kids_with_low thr x X hX cs hnd.2 hb.kids hXm
      rw [reparentBelow_some hfind, k1, k2]
    | none =>
      have hno : ∀ c ∈ cs, c.id ≠ x := by
        intro c hc
        simpa using List.find?_eq_none.mp hfind c hc
      have hk := kids_all_kept thr (reparentBelow x) cs (fun c hc =>
        ⟨ih c hc (hb.kids c hc) (nodup_of_mem hnd.2 hc) (hno c hc),
          (hb.kids c hc).good (hno c hc)⟩)
      rw [reparentBelow_none hfind, hk.1, hk.2]
      simp

/-- Pruning a tree whose only low node is `x` yields the tree the claim on
re-parenting describes. -/
theorem pruneRoot_reparent (thr : Dbl) (x : Nat) (t : MTree) (hb : OnlyBad thr x t)
    (hnd : t.ids.Nodup) : pruneRoot thr t = reparent x t := by
  cases t with
  | node i m f cs =>
    unfold reparent
    by_cases hi : i = x
    · subst hi
      simp only [id_node, if_true]
      exact (prune_low_node thr i m f cs hb hnd).2
    · simp only [id_node, hi, if_false]
      have h1 := pruneSub_reparentBelow thr x _ hb hnd (by simpa using hi)
      have hf : ¬ f < thr := hb.good (by simpa using hi)
      rw [pruneSub_ge hf] at h1
      rw [pruneRoot_ge hf]
      exact Option.some.inj h1

end MTree

end MusicTree

namespace MusicTree

/-! ## Re-parenting on the heap -/

theorem TreeAt.onlyBad {h : Heap} {p : Option Nat} {t : MTree} {thr : Dbl} {x : Nat}
    (ht : TreeAt h p t) :
    (∀ y ∈ t.ids, ∀ yd, h y = some yd →
      (y = x → yd.fitness_score_ < thr ∧ yd.children_ ≠ []) ∧
      (y ≠ x → thr ≤ yd.fitness_score_)) → OnlyBad thr x t := by
  induction ht with
  | mk p i m f cs h1 _ ih =>
    intro hall
    obtain ⟨a, b⟩ := hall i (by simp) _ h1
    refine OnlyBad.mk i m f cs ?_ b ?_
    · intro e
      obtain ⟨a1, a2⟩ := a e
      exact ⟨a1, fun hc => a2 (by simp [hc])⟩
    · intro c hc
      exact ih c hc (fun y hy => hall y (by
        simp only [MTree.ids_node, List.mem_cons]
        exact Or.inr (MTree.ids_subset_idsL hc y hy)))

/-- Two heaps that hold the same tree below the same parent pointer agree on
its addresses. -/
theorem TreeAt.agree {h h' : Heap} {p : Option Nat} {t : MTree} (ht : TreeAt h p t) :
    TreeAt h' p t → ∀ y ∈ t.ids, h' y = h y := by
  induction ht with
  | mk p i m f cs h1 _ ih =>
    intro ht' y hy
    simp only [MTree.ids_node, List.mem_cons] at hy
    rcases hy with rfl | hy
    · have := ht'.root
      simp only [MTree.id_node, MTree.motif_node, MTree.kids_node, MTree.fit_node] at this
      rw [this, h1]
    · obtain ⟨c, hc, hyc⟩ := MTree.mem_idsL.mp hy
      exact ih c hc (ht'.kid c hc) y hyc

/-- Two heaps that hold the same tree below different parent pointers: every
node keeps motif, fitness and child list, and every node but the root keeps its
parent reference. -/
theorem TreeAt.agree_moved {h h' : Heap} {p p' : Option Nat} {t : MTree} (ht : TreeAt h p t)
    (ht' : TreeAt h' p' t) : ∀ y ∈ t.ids, ∃ yd yd', h y = some yd ∧ h' y = some yd' ∧
      yd'.motif_ = yd.motif_ ∧ yd'.fitness_score_ = yd.fitness_score_ ∧
      yd'.children_ = yd.children_ ∧ (y ≠ t.id → yd'.parent_ = yd.parent_) := by
  intro y hy
  by_cases e : y = t.id
  · subst e
    exact ⟨_, _, ht.root, ht'.root, rfl, rfl, rfl, fun hne => absurd rfl hne⟩
  · cases t with
    | node i m f cs =>
      simp only [MTree.ids_node, List.mem_cons, MTree.id_node] at hy e
      rcases hy with hy | hy
      · exact absurd hy e
      · obtain ⟨c, hc, hyc⟩ := MTree.mem_idsL.mp hy
        have hc1 := ht.kid c hc
        have hc2 := ht'.kid c hc
        obtain ⟨yd, hyd, _⟩ := hc1.node_data.1 y hyc
        have := hc1.agree hc2 y hyc
        exact ⟨yd, yd, hyd, by rw [this, hyd], rfl, rfl, rfl, fun _ => rfl⟩

theorem erase_id_eq_filter (x : Nat) : ∀ l : List MTree, (l.map MTree.id).Nodup →
    (l.map MTree.id).erase x = (l.filter (fun c => c.id != x)).map MTree.id
  | [], _ => by simp
  | c :: l, hnd => by
    simp only [List.map_cons, List.nodup_cons] at hnd
    by_cases hc : c.id = x
    · have hfilt : l.filter (fun c => c.id != x) = l := by
        rw [List.filter_eq_self]
        intro d hd
        have : d.id ≠ x := fun e => hnd.1 (hc ▸ e ▸ List.mem_map_of_mem _ hd)
        simpa using this
      simp [hc, hfilt]
    · have := erase_id_eq_filter x l hnd.2
      simp [hc, List.erase_cons_tail, this]

theorem map_id_eq_concat {kids : List MTree} {cs : List Nat} {ck : Nat}
    (hk : kids.map MTree.id = cs ++ [ck]) :
    ∃ ys y, kids = ys ++ [y] ∧ ys.map MTree.id = cs ∧ y.id = ck := by
  have hne : kids ≠ [] := by
    intro e
    rw [e] at hk
    simp at hk
  obtain ⟨ys, y, hcs⟩ := (List.eq_nil_or_concat kids).resolve_left hne
  rw [List.concat_eq_append] at hcs
  subst hcs
  rw [List.map_append] at hk
  obtain ⟨h1, h2⟩ := List.append_inj' hk (by simp)
  exact ⟨ys, y, rfl, h1, by simpa using h2⟩

/-- Where the parent of the low node is, and what it looks like afterwards. -/
theorem reparent_parent (x : Nat) : ∀ s : MTree, ∀ (p : Option Nat) (h h' : Heap),
    s.ids.Nodup → s.id ≠ x → x ∈ s.ids → TreeAt h p s →
    TreeAt h' p (MTree.reparentBelow x s) →
    ∃ (P : Nat) (X : MTree) (Pd : MotifNode), X.id = x ∧ TreeAt h (some P) X ∧
      TreeAt h' (some P) (MTree.survivorOf X) ∧ h P = some Pd ∧
      h' P = some { Pd with children_ := Pd.children_.erase x ++ [(MTree.survivorOf X).id] } := by
  intro s
  induction s using MTree.ind with
  | step i m f cs ih =>
    intro p h h' hnd hne hx ht ht'
    simp only [MTree.ids_node, List.nodup_cons, List.mem_cons, MTree.id_node] at hnd hne hx
    have hxcs : x ∈ MTree.idsL cs := hx.resolve_left (fun e => hne e.symm)
    cases hfind : cs.find? (fun c => c.id == x) with
    | some X =>
      have hX : X.id = x := by simpa using List.find?_some hfind
      have hXm : X ∈ cs := List.mem_of_find?_eq_some hfind
      rw [MTree.reparentBelow_some hfind] at ht'
      have r' := ht'.root
      simp only [MTree.id_node, MTree.motif_node, MTree.kids_node, MTree.fit_node] at r'
      refine ⟨i, X, _, hX, ht.kid X hXm, ht'.kid _ (by simp), ht.root, ?_⟩
      rw [r']
      have hmn : (cs.map MTree.id).Nodup :=
        List.Nodup.sublist (MTree.map_id_sublist_idsL cs) hnd.2
      simp [erase_id_eq_filter x cs hmn]
    | none =>
      have hno : ∀ c ∈ cs, c.id ≠ x := by
        intro c hc
        simpa using List.find?_eq_none.mp hfind c hc
      obtain ⟨c, hc, hxc⟩ := MTree.mem_idsL.mp hxcs
      rw [MTree.reparentBelow_none hfind] at ht'
      exact ih c hc (some i) h h' (MTree.nodup_of_mem hnd.2 hc) (hno c hc) hxc (ht.kid c hc)
        (ht'.kid _ (List.mem_map_of_mem _ hc))

/-- What the heap says about the survivor and the subtrees it adopted. -/
theorem survivor_facts {h h' : Heap} {q q' : Option Nat} {x : Nat} {m : List Note} {f : Dbl}
    {ys : List MTree} {y : MTree} (ht : TreeAt h q (MTree.node x m f (ys ++ [y])))
    (ht' : TreeAt h' q' (MTree.survivorOf (MTree.node x m f (ys ++ [y])))) :
    kidsOf h' y.id = kidsOf h y.id ++ ys.map MTree.id ∧ parOf h' y.id = q' ∧
    (∀ c ∈ kidsOf h y.id ++ ys.map MTree.id, parOf h' c = some y.id ∧
      ∀ z, Reach h c z → ∃ zd zd', h z = some zd ∧ h' z = some zd' ∧
        zd'.motif_ = zd.motif_ ∧ zd'.fitness_score_ = zd.fitness_score_ ∧
        zd'.children_ = zd.children_ ∧ (z ≠ c → zd'.parent_ = zd.parent_)) := by
  rw [MTree.survivorOf_concat] at ht'
  have hy : TreeAt h (some x) y := ht.kid y (by simp)
  have ry := hy.root
  have ry' := ht'.root
  simp only [MTree.id_node, MTree.motif_node, MTree.kids_node, MTree.fit_node] at ry'
  have k1 : kidsOf h y.id = y.kids.map MTree.id := by simp [kidsOf, ry]
  have k2 : kidsOf h' y.id = y.kids.map MTree.id ++ ys.map MTree.id := by
    simp [kidsOf, ry']
  refine ⟨by rw [k1, k2], by simp [parOf, ry'], ?_⟩
  intro c hc
  rw [k1, ← List.map_append] at hc
  obtain ⟨ct, hct, rfl⟩ := List.mem_map.mp hc
  have hct' : TreeAt h' (some y.id) ct := by
    have := ht'.kid ct (by simpa using hct)
    simpa using this
  obtain ⟨pc, hcth⟩ : ∃ pc, TreeAt h pc ct := by
    rcases List.mem_append.mp hct with h1 | h1
    · exact ⟨_, hy.kid ct h1⟩
    · exact ⟨_, ht.kid ct (by simp [h1])⟩
  refine ⟨by simp [parOf, hct'.root], ?_⟩
  intro z hz
  exact hcth.agree_moved hct' z ((hcth.reach_iff z).mp hz)

end MusicTree

namespace MusicTree

theorem exHolds2 : HoldsTree exHeap2 exObj exTree2 := by
  refine ⟨?_, rfl, by decide⟩
  refine TreeAt.mk none 0 _ 50 _ (by simp [exHeap2, exNode, MTree.id]) ?_
  intro c hc
  simp only [List.mem_cons, List.mem_singleton, List.not_mem_nil, or_false] at hc
  rcases hc with rfl | rfl
  · refine TreeAt.mk (some 0) 1 _ 5 _ (by simp [exHeap2, exNode, MTree.id]) ?_
    intro c hc
    simp only [List.mem_cons, List.mem_singleton, List.not_mem_nil, or_false] at hc
    rcases hc with rfl | rfl
    · exact TreeAt.mk (some 1) 3 _ 50 [] (by simp [exHeap2, exNode]) (by simp)
    · exact TreeAt.mk (some 1) 4 _ 60 [] (by simp [exHeap2, exNode]) (by simp)
  · exact TreeAt.mk (some 0) 2 _ 50 [] (by simp [exHeap2, exNode]) (by simp)

/-- C16: in a well-formed tree in which node `x` with child list `cs ++ [ck]`
has fitness below `thr` and every other node has fitness at least `thr`,
`PruneNodes(root_, thr)` returns and leaves the tree the claim describes
(`MTree.reparent`).  On the heap: the child list of the survivor `ck` is its
former child list followed by `cs`; each node of that list has parent `ck` and
the subtree below it keeps its motifs, fitness scores, child lists and inner
parent references; if `x` had a parent `P`, the child list of `P` is its former
list with `x` removed and `ck` appended at the end, the parent of `ck` is `P`
and `root_` is unchanged; if `x` was the root, `root_` is `ck` and the parent of
`ck` is absent. -/
theorem PruneNodes_reparent (thr : Dbl) (h : Heap) (tr : MusicalTree) (r x ck : Nat)
    (xd : MotifNode) (cs : List Nat)
    (hroot : tr.root_ = some r) (hwf : WellFormed h r) (hx : Reach h r x)
    (hxd : h x = some xd) (hkids : xd.children_ = cs ++ [ck])
    (hlow : xd.fitness_score_ < thr)
    (hgood : ∀ y yd, Reach h r y → h y = some yd → y ≠ x → thr ≤ yd.fitness_score_) :
    ∃ t, HoldsTree h tr t ∧ ∀ fuel w, t.size ≤ fuel → t.size ≤ w →
      ∃ h' tr', PruneNodes fuel w (h, tr) tr.root_ thr = .ok (h', tr') ∧
        HoldsTree h' tr' (t.reparent x) ∧
        kidsOf h' ck = kidsOf h ck ++ cs ∧
        (∀ c ∈ kidsOf h ck ++ cs, parOf h' c = some ck ∧
          ∀ z, Reach h c z → ∃ zd zd', h z = some zd ∧ h' z = some zd' ∧
            zd'.motif_ = zd.motif_ ∧ zd'.fitness_score_ = zd.fitness_score_ ∧
            zd'.children_ = zd.children_ ∧ (z ≠ c → zd'.parent_ = zd.parent_)) ∧
        (∀ P, xd.parent_ = some P →
          kidsOf h' P = (kidsOf h P).erase x ++ [ck] ∧ parOf h' ck = some P ∧
          tr'.root_ = tr.root_) ∧
        (xd.parent_ = none → tr'.root_ = some ck ∧ parOf h' ck = none) := by
  obtain ⟨t, hT, rfl⟩ := hwf.holds hroot
  refine ⟨t, hT, fun fuel w hf hw => ?_⟩
  obtain ⟨ht, hr, hnd⟩ := hT
  have hxt : x ∈ t.ids := (ht.reach_iff x).mp hx
  have hb : OnlyBad thr x t := by
    refine ht.onlyBad (fun y hy yd hyd => ⟨?_, ?_⟩)
    · intro e
      subst e
      rw [hxd] at hyd
      cases hyd
      exact ⟨hlow, by rw [hkids]; simp⟩
    · intro hne
      exact hgood y yd (ht.reach_of_mem y hy) hyd hne
  obtain ⟨h', e, ht', _⟩ := prune_root thr fuel w t h tr ht hnd hr hf hw
  have hnd' := MTree.pruneRoot_ids_nodup thr t hnd
  rw [MTree.pruneRoot_reparent thr x t hb hnd] at e ht' hnd'
  rw [hroot]
  refine ⟨h', _, e, ⟨ht', rfl, hnd'⟩, ?_⟩
  by_cases hid : t.id = x
  · -- the low node is the root
    cases t with
    | node i m f kids =>
      simp only [MTree.id_node] at hid
      subst hid
      have hrx := ht.root
      simp only [MTree.id_node, MTree.motif_node, MTree.kids_node, MTree.fit_node] at hrx
      rw [hxd] at hrx
      have hxd' := Option.some.inj hrx
      subst hxd'
      obtain ⟨ys, y, rfl, rfl, rfl⟩ := map_id_eq_concat hkids
      have hrep : MTree.reparent i (MTree.node i m f (ys ++ [y])) =
          MTree.survivorOf (MTree.node i m f (ys ++ [y])) := by
        simp [MTree.reparent]
      rw [hrep] at ht'
      obtain ⟨a1, a2, a3⟩ := survivor_facts ht ht'
      refine ⟨a1, a3, ?_, ?_⟩
      · intro P hP
        cases hP
      · intro _
        refine ⟨?_, a2⟩
        show some (MTree.reparent i (MTree.node i m f (ys ++ [y]))).id = some y.id
        rw [hrep, MTree.survivorOf_concat]
        rfl
  · -- the low node has a parent
    have hrep : MTree.reparent x t = MTree.reparentBelow x t := by
      simp [MTree.reparent, hid]
    rw [hrep] at ht'
    obtain ⟨P, X, Pd, hX, hXh, hXh', hP, hP'⟩ := reparent_parent x t none h h' hnd hid hxt ht ht'
    cases X with
    | node i m f kids =>
      simp only [MTree.id_node] at hX
      subst hX
      have hrx := hXh.root
      simp only [MTree.id_node, MTree.motif_node, MTree.kids_node, MTree.fit_node] at hrx
      rw [hxd] at hrx
      have hxd' := Option.some.inj hrx
      subst hxd'
      obtain ⟨ys, y, rfl, rfl, rfl⟩ := map_id_eq_concat hkids
      obtain ⟨a1, a2, a3⟩ := survivor_facts hXh hXh'
      refine ⟨a1, a3, ?_, ?_⟩
      · intro P' hP'e
        have hPP : P = P' := Option.some.inj hP'e
        subst hPP
        refine ⟨?_, a2, ?_⟩
        · simp only [kidsOf, hP, hP', MTree.survivorOf_concat, MTree.id_node]
        · show some (MTree.reparent i t).id = some t.id
          rw [hrep, MTree.reparentBelow_id]
      · intro hn
        cases hn

/-- C16 witness: in the second sample tree only node `1`, with children `3, 4`
and parent `0`, is below threshold 10.  After the call node `4` lists `3`, the
root lists `2, 4`, and nodes `3` and `4` name `4` and `0` as their parents. -/
theorem PruneNodes_reparent_witness :
    ∃ h' tr', PruneNodes 5 5 (exHeap2, exObj) exObj.root_ 10 = .ok (h', tr') ∧
      kidsOf h' 4 = [3] ∧ parOf h' 3 = some 4 ∧ kidsOf h' 0 = [2, 4] ∧
      parOf h' 4 = some 0 ∧ tr'.root_ = some 0 := by
  have hreach : Reach exHeap2 0 1 :=
    Relation.ReflTransGen.single ⟨exNode 0 none [1, 2] 50, rfl, by simp [exNode]⟩
  have hgood : ∀ y yd, Reach exHeap2 0 y → exHeap2 y = some yd → y ≠ 1 →
      (10 : Dbl) ≤ yd.fitness_score_ := by
    intro y yd _ hyd hne
    unfold exHeap2 at hyd
    split at hyd <;> first
      | (cases hyd; simp [exNode]; done)
      | (cases hyd; simp only [exNode, Dbl.ofNat_eq, Dbl.fin_le_fin]; norm_num; done)
      | exact absurd rfl hne
      | cases hyd
  obtain ⟨t, hT, hN⟩ := PruneNodes_reparent 10 exHeap2 exObj 0 1 4
    (exNode 1 (some 0) [3, 4] 5) [3] rfl exHolds2.wellFormed hreach rfl rfl
    (by simp only [exNode, Dbl.ofNat_eq, Dbl.fin_lt_fin]; norm_num) hgood
  have ht : t = exTree2 := hT.unique_tree exHolds2
  subst ht
  obtain ⟨h', tr', e, _, a1, a2, a3, _⟩ := hN 5 5 (by decide) (by decide)
  obtain ⟨b1, b2, b3⟩ := a3 0 rfl
  refine ⟨h', tr', e, ?_, (a2 3 (by simp [kidsOf, exHeap2, exNode])).1, ?_, b2, b3⟩
  · simpa [kidsOf, exHeap2, exNode] using a1
  · simpa [kidsOf, exHeap2, exNode] using b1

end MusicTree

namespace MusicTree

/-! ## Parent walks after any sequence of AddChildNode calls -/

theorem Chain.det {h : Heap} : ∀ {a : Option Nat} {l1 l2 : List Nat},
    Chain h a l1 → Chain h a l2 → l1 = l2 := by
  intro a l1 l2 h1
  induction h1 generalizing l2 with
  | nil => intro h2; cases h2; rfl
  | cons a nd l ha _ ih =>
    intro h2
    cases h2 with
    | cons _ nd' l' ha' hr' =>
      rw [ha] at ha'
      cases ha'
      rw [ih hr']

theorem Chain.suffix {h : Heap} : ∀ {a : Option Nat} {l : List Nat}, Chain h a l →
    ∀ x ∈ l, ∃ l2, Chain h (some x) l2 ∧ l2.length ≤ l.length := by
  intro a l hc
  induction hc with
  | nil => intro x hx; cases hx
  | cons a nd l ha hr ih =>
    intro x hx
    rcases List.mem_cons.mp hx with rfl | hx'
    · exact ⟨x :: l, Chain.cons x nd l ha hr, le_refl _⟩
    · obtain ⟨l2, h2, hlen⟩ := ih x hx'
      exact ⟨l2, h2, by simp only [List.length_cons]; omega⟩

/-- A parent walk that ends never visits a node twice. -/
theorem Chain.nodup {h : Heap} : ∀ {a : Option Nat} {l : List Nat}, Chain h a l → l.Nodup := by
  intro a l hc
  induction hc with
  | nil => exact List.nodup_nil
  | cons a nd l ha hr ih =>
    refine List.nodup_cons.mpr ⟨?_, ih⟩
    intro hm
    obtain ⟨l2, h2, hlen⟩ := hr.suffix a hm
    have := Chain.det h2 (Chain.cons a nd l ha hr)
    rw [this] at hlen
    simp only [List.length_cons] at hlen
    omega

theorem Chain.all_alive {h : Heap} : ∀ {a : Option Nat} {l : List Nat}, Chain h a l →
    ∀ x ∈ l, ∃ xd, h x = some xd := by
  intro a l hc
  induction hc with
  | nil => intro x hx; cases hx
  | cons a nd l ha _ ih =>
    intro x hx
    rcases List.mem_cons.mp hx with rfl | hx'
    · exact ⟨nd, ha⟩
    · exact ih x hx'

/-- A parent walk ends at a parentless node. -/
theorem Chain.last {h : Heap} : ∀ {a : Option Nat} {l : List Nat}, Chain h a l →
    ∀ n, a = some n → ∃ z zd, l.getLast? = some z ∧ h z = some zd ∧ zd.parent_ = none := by
  intro a l hc
  induction hc with
  | nil => intro n hn; cases hn
  | cons a nd l ha hr ih =>
    intro n _
    cases hp : nd.parent_ with
    | none =>
      rw [hp] at hr
      cases hr
      exact ⟨a, nd, rfl, ha, hp⟩
    | some b =>
      obtain ⟨z, zd, h1, h2, h3⟩ := ih b hp
      refine ⟨z, zd, ?_, h2, h3⟩
      cases l with
      | nil => simp at h1
      | cons y ys => simpa [List.getLast?_cons_cons] using h1

theorem onParentChain_false {h : Heap} {c : Nat} : ∀ (w : Nat) {a : Option Nat} {l : List Nat},
    onParentChain w h a c = .ok false → Chain h a l → c ∉ l := by
  intro w
  induction w with
  | zero =>
    intro a l hw hc
    cases hc with
    | nil => simp
    | cons a nd l ha hr => simp [onParentChain] at hw
  | succ k ih =>
    intro a l hw hc
    cases hc with
    | nil => simp
    | cons a nd l ha hr =>
      by_cases e : a = c
      · simp [onParentChain, e] at hw
      · simp only [onParentChain, e, if_false, ha] at hw
        intro hm
        rcases List.mem_cons.mp hm with h1 | h1
        · exact e h1.symm
        · exact ih hw hr h1

/-- What one call of `AddChildNode` does to liveness and to parent references,
whether it returns or throws. -/
theorem AddChildNode_step (w : Nat) (h : Heap) (self : Nat) (c : Option Nat) (hn : Heap)
    (hres : AddChildNode w h self c = .ok hn ∨ ∃ e, AddChildNode w h self c = .error (e, hn)) :
    (∀ n, (hn n).isSome = (h n).isSome) ∧
    ((∀ n, parOf hn n = parOf h n) ∨
      ∃ c', c = some c' ∧ (∃ sd, h self = some sd) ∧
        onParentChain w h (some self) c' = .ok false ∧
        ∀ n, parOf hn n = if n = c' then some self else parOf h n) := by
  cases c with
  | none =>
    have : hn = h := by
      rcases hres with h1 | ⟨e, h1⟩
      · simp [AddChildNode] at h1
      · simp only [AddChildNode, Except.error.injEq, Prod.mk.injEq] at h1
        exact h1.2.symm
    subst this
    exact ⟨fun _ => rfl, Or.inl fun _ => rfl⟩
  | some c' =>
    cases hs : h self with
    | none =>
      have : hn = h := by
        rcases hres with h1 | ⟨e, h1⟩
        · simp [AddChildNode, hs] at h1
        · simp only [AddChildNode, hs, Except.error.injEq, Prod.mk.injEq] at h1
          exact h1.2.symm
      subst this
      exact ⟨fun _ => rfl, Or.inl fun _ => rfl⟩
    | some sd =>
      by_cases hm : c' ∈ sd.children_
      · have : hn = h := by
          rcases hres with h1 | ⟨e, h1⟩
          · simp [AddChildNode, hs, hm] at h1
          · simp only [AddChildNode, hs, hm, if_true, Except.error.injEq, Prod.mk.injEq] at h1
            exact h1.2.symm
        subst this
        exact ⟨fun _ => rfl, Or.inl fun _ => rfl⟩
      · cases hch : onParentChain w h (some self) c' with
        | error e0 =>
          have : hn = h := by
            rcases hres with h1 | ⟨e, h1⟩
            · simp [AddChildNode, hs, hm, hch] at h1
            · simp only [AddChildNode, hs, hm, if_false, hch, Except.error.injEq,
                Prod.mk.injEq] at h1
              exact h1.2.symm
          subst this
          exact ⟨fun _ => rfl, Or.inl fun _ => rfl⟩
        | ok b =>
          cases b with
          | true =>
            have : hn = h := by
              rcases hres with h1 | ⟨e, h1⟩
              · simp [AddChildNode, hs, hm, hch] at h1
              · simp only [AddChildNode, hs, hm, if_false, hch, Except.error.injEq,
                  Prod.mk.injEq] at h1
                exact h1.2.symm
            subst this
            exact ⟨fun _ => rfl, Or.inl fun _ => rfl⟩
          | false =>
            have hne : c' ≠ self := by
              intro e
              subst e
              cases w <;> simp [onParentChain] at hch
            cases hc : h c' with
            | none =>
              have : hn = h.set self { sd with children_ := sd.children_ ++ [c'] } := by
                rcases hres with h1 | ⟨e, h1⟩
                · simp [AddChildNode, hs, hm, hch, Heap.set_ne _ _ hne, hc] at h1
                · simp only [AddChildNode, hs, hm, if_false, hch, Heap.set_ne _ _ hne, hc,
                    Except.error.injEq, Prod.mk.injEq] at h1
                  exact h1.2.symm
              subst this
              refine ⟨fun n => ?_, Or.inl fun n => ?_⟩
              · by_cases e : n = self
                · simp [e, hs]
                · simp [Heap.set_ne _ _ e]
              · by_cases e : n = self
                · simp [parOf, e, hs]
                · simp [parOf, Heap.set_ne _ _ e]
            | some cd =>
              have : hn = (h.set self { sd with children_ := sd.children_ ++ [c'] }).set c'
                  { cd with parent_ := some self } := by
                rcases hres with h1 | ⟨e, h1⟩
                · simp only [AddChildNode, hs, hm, if_false, hch, Heap.set_ne _ _ hne, hc,
                    Except.ok.injEq] at h1
                  exact h1.symm
                · simp [AddChildNode, hs, hm, hch, Heap.set_ne _ _ hne, hc] at h1
              subst this
              refine ⟨fun n => ?_, Or.inr ⟨c', rfl, ⟨sd, rfl⟩, hch, fun n => ?_⟩⟩
              · by_cases e1 : n = c'
                · simp [e1, hc]
                · by_cases e2 : n = self
                  · subst e2
                    simp [Heap.set_ne _ _ e1, hs]
                  · simp [Heap.set_ne _ _ e1, Heap.set_ne _ _ e2]
              · by_cases e1 : n = c'
                · simp [parOf, e1]
                · by_cases e2 : n = self
                  · subst e2
                    simp [parOf, Heap.set_ne _ _ e1, hs, e1]
                  · simp [parOf, Heap.set_ne _ _ e1, Heap.set_ne _ _ e2, e1]

end MusicTree

namespace MusicTree

theorem length_le_of_nodup_lt {l : List Nat} {N : Nat} (hnd : l.Nodup)
    (hlt : ∀ x ∈ l, x < N) : l.length ≤ N := by
  have hsub : l.toFinset ⊆ Finset.range N := by
    intro x hx
    simp only [List.mem_toFinset] at hx
    simpa using hlt x hx
  have := Finset.card_le_card hsub
  rwa [List.toFinset_card_of_nodup hnd, Finset.card_range] at this

theorem alive_of_isSome {h hn : Heap} (hlive : ∀ n, (hn n).isSome = (h n).isSome) {n : Nat}
    {nd : MotifNode} (hn' : h n = some nd) : ∃ nd', hn n = some nd' := by
  have := hlive n
  rw [hn'] at this
  exact Option.isSome_iff_exists.mp this

theorem parOf_of_some {h : Heap} {n : Nat} {nd : MotifNode} (hn : h n = some nd) :
    parOf h n = nd.parent_ := by
  simp [parOf, hn]

/-- One call of `AddChildNode`, returning or throwing, keeps every parent walk
finite. -/
theorem walks_step {w : Nat} {h hn : Heap} {self : Nat} {c : Option Nat}
    (hres : AddChildNode w h self c = .ok hn ∨ ∃ e, AddChildNode w h self c = .error (e, hn))
    (hinv : ∀ n nd, h n = some nd → ∃ l, Chain h (some n) l) :
    ∀ n nd, hn n = some nd → ∃ l, Chain hn (some n) l := by
  obtain ⟨hlive, hpar⟩ := AddChildNode_step w h self c hn hres
  have hlive' : ∀ n, (h n).isSome = (hn n).isSome := fun n => (hlive n).symm
  have key : ∀ (a : Option Nat) (l : List Nat), Chain h a l → ∃ l', Chain hn a l' := by
    rcases hpar with hsame | ⟨c', _, ⟨sd, hs⟩, hch, hmove⟩
    · intro a l hc
      refine ⟨l, hc.congr (fun x _ nd hx => ?_)⟩
      obtain ⟨nd', hx'⟩ := alive_of_isSome hlive hx
      refine ⟨nd', hx', ?_⟩
      rw [← parOf_of_some hx', ← parOf_of_some hx, hsame]
    · obtain ⟨ls, hls⟩ := hinv self sd hs
      have hcls : c' ∉ ls := onParentChain_false w hch hls
      have hls' : Chain hn (some self) ls := by
        refine hls.congr (fun x hxl nd hx => ?_)
        obtain ⟨nd', hx'⟩ := alive_of_isSome hlive hx
        refine ⟨nd', hx', ?_⟩
        have hne : x ≠ c' := fun e => hcls (e ▸ hxl)
        rw [← parOf_of_some hx', ← parOf_of_some hx, hmove, if_neg hne]
      intro a l hc
      induction hc with
      | nil => exact ⟨[], Chain.nil⟩
      | cons a nd l ha _ ih =>
        obtain ⟨nd', ha'⟩ := alive_of_isSome hlive ha
        have hp : nd'.parent_ = if a = c' then some self else nd.parent_ := by
          rw [← parOf_of_some ha', ← parOf_of_some ha, hmove]
        by_cases e : a = c'
        · rw [if_pos e] at hp
          exact ⟨a :: ls, Chain.cons a nd' ls ha' (by rw [hp]; exact hls')⟩
        · rw [if_neg e] at hp
          obtain ⟨l', hl'⟩ := ih
          exact ⟨a :: l', Chain.cons a nd' l' ha' (by rw [hp]; exact hl')⟩
  intro n nd hn'
  obtain ⟨nd0, h0⟩ := alive_of_isSome hlive' hn'
  obtain ⟨l, hl⟩ := hinv n nd0 h0
  exact key _ l hl

theorem attachSeq_inv (w : Nat) : ∀ (calls : List (Nat × Option Nat)) (h : Heap),
    (∀ n nd, h n = some nd → ∃ l, Chain h (some n) l) →
    (∀ n nd, attachSeq w h calls n = some nd → ∃ l, Chain (attachSeq w h calls) (some n) l) ∧
    (∀ n, (attachSeq w h calls n).isSome = (h n).isSome)
  | [], h, hinv => ⟨hinv, fun _ => rfl⟩
  | call :: rest, h, hinv => by
    cases hres : AddChildNode w h call.1 call.2 with
    | ok h' =>
      have hstep := walks_step (Or.inl hres) hinv
      have hl := (AddChildNode_step w h call.1 call.2 h' (Or.inl hres)).1
      obtain ⟨a, b⟩ := attachSeq_inv w rest h' hstep
      simp only [attachSeq, hres]
      exact ⟨a, fun n => (b n).trans (hl n)⟩
    | error e =>
      have hres' : ∃ e', AddChildNode w h call.1 call.2 = .error (e', e.2) := ⟨e.1, hres⟩
      have hstep := walks_step (Or.inr hres') hinv
      have hl := (AddChildNode_step w h call.1 call.2 e.2 (Or.inr hres')).1
      obtain ⟨a, b⟩ := attachSeq_inv w rest e.2 hstep
      simp only [attachSeq, hres]
      exact ⟨a, fun n => (b n).trans (hl n)⟩

/-- With fuel for as many steps as there are addresses, a call of `AddChildNode`
on live arguments either returns or throws `invalid_argument` and changes
nothing: the ancestor walk never runs out of fuel. -/
theorem AddChildNode_total {w N : Nat} {h : Heap}
    (hinv : ∀ n nd, h n = some nd → ∃ l, Chain h (some n) l)
    (hbound : ∀ n, N ≤ n → h n = none) (hw : N ≤ w) (self : Nat) (c : Option Nat)
    (sd : MotifNode) (hs : h self = some sd) (hc : ∀ c', c = some c' → ∃ cd, h c' = some cd) :
    (∃ h', AddChildNode w h self c = .ok h') ∨
      AddChildNode w h self c = .error (.invalid_argument, h) := by
  obtain ⟨ls, hls⟩ := hinv self sd hs
  have hlen : ls.length ≤ w := by
    refine le_trans (length_le_of_nodup_lt hls.nodup (fun x hx => ?_)) hw
    obtain ⟨xd, hxd⟩ := hls.all_alive x hx
    by_contra hge
    rw [hbound x (not_lt.mp hge)] at hxd
    cases hxd
  cases c with
  | none => exact Or.inr (by simp [AddChildNode])
  | some c' =>
    obtain ⟨cd, hcd⟩ := hc c' rfl
    by_cases hm : c' ∈ sd.children_
    · exact Or.inr (by simp [AddChildNode, hs, hm])
    · by_cases hl : c' ∈ ls
      · exact Or.inr (by simp [AddChildNode, hs, hm, onParentChain_mem hls hl w hlen])
      · exact Or.inl ⟨_, AddChildNode_ok hs hcd hls hlen hm hl⟩

theorem freshNodes_freshHeap : FreshNodes freshHeap := by
  intro n nd hn
  unfold freshHeap at hn
  split at hn
  · cases hn
    exact ⟨rfl, rfl⟩
  · cases hn

/-- C17: in every state reached from freshly constructed (parentless,
childless) nodes by any sequence of `AddChildNode` calls, the walk along parent
references from any live node is a finite list `l` of nodes (`Chain`: each
entry is the parent of the one before, the walk stops at an absent parent) that
visits no node twice and ends at a parentless node.  With fuel for as many
steps as there are addresses, a further call on live arguments returns or throws
`invalid_argument` with the heap unchanged: the ancestor walk always ends. -/
theorem attachSeq_parent_walk (w : Nat) (h0 : Heap) (calls : List (Nat × Option Nat))
    (hfresh : FreshNodes h0) :
    (∀ n nd, attachSeq w h0 calls n = some nd →
      ∃ l z zd, Chain (attachSeq w h0 calls) (some n) l ∧ l.Nodup ∧ l.getLast? = some z ∧
        attachSeq w h0 calls z = some zd ∧ zd.parent_ = none) ∧
    (∀ N, (∀ n, N ≤ n → h0 n = none) → N ≤ w → ∀ self c sd,
      attachSeq w h0 calls self = some sd →
      (∀ c', c = some c' → ∃ cd, attachSeq w h0 calls c' = some cd) →
      (∃ h', AddChildNode w (attachSeq w h0 calls) self c = .ok h') ∨
        AddChildNode w (attachSeq w h0 calls) self c =
          .error (.invalid_argument, attachSeq w h0 calls)) := by
  have hinv0 : ∀ n nd, h0 n = some nd → ∃ l, Chain h0 (some n) l := by
    intro n nd hn
    refine ⟨[n], Chain.cons n nd [] hn ?_⟩
    rw [(hfresh n nd hn).1]
    exact Chain.nil
  obtain ⟨hinv, hlive⟩ := attachSeq_inv w calls h0 hinv0
  refine ⟨?_, ?_⟩
  · intro n nd hn
    obtain ⟨l, hl⟩ := hinv n nd hn
    obtain ⟨z, zd, h1, h2, h3⟩ := hl.last n rfl
    exact ⟨l, z, zd, hl, hl.nodup, h1, h2, h3⟩
  · intro N hbound hw self c sd hs hc
    refine AddChildNode_total hinv (fun n hn => ?_) hw self c sd hs hc
    have := hlive n
    rw [hbound n hn] at this
    cases hx : attachSeq w h0 calls n with
    | none => rfl
    | some v => rw [hx] at this; simp at this

/-- C17 witness: three fresh nodes and the calls `0.Add(2)`, `1.Add(2)`,
`2.Add(0)`; afterwards the walk from node `0` ends without a repetition. -/
theorem attachSeq_parent_walk_witness :
    ∃ l, Chain (attachSeq 3 freshHeap [(0, some 2), (1, some 2), (2, some 0)]) (some 0) l ∧
      l.Nodup := by
  obtain ⟨l, _, _, hl, hnd, _⟩ := (attachSeq_parent_walk 3 freshHeap
    [(0, some 2), (1, some 2), (2, some 0)] freshNodes_freshHeap).1 0 _ rfl
  exact ⟨l, hl, hnd⟩

end MusicTree

namespace MusicTree

/-! ## The escalating-threshold prune loops -/

theorem MTree.pruneRoot_nodes_subset (thr : Dbl) (t : MTree) :
    ∀ x ∈ (MTree.pruneRoot thr t).nodes, x ∈ t.nodes := by
  intro x hx
  by_cases hex : ∃ y ∈ t.nodes, ¬ y.2.2 < thr
  · have := (MTree.pruneRoot_nodes_perm thr t hex).mem_iff.mp hx
    exact (List.mem_filter.mp this).1
  · have hno : ∀ y ∈ t.nodes, y.2.2 < thr := by
      intro y hy
      by_contra hlt
      exact hex ⟨y, hy, hlt⟩
    rw [MTree.pruneRoot_alone thr t hno] at hx
    rw [MTree.nodes_eq t]
    simp only [MTree.nodes_node, MTree.nodesL_nil, List.mem_singleton] at hx
    rw [hx]
    exact List.mem_cons_self _ _

theorem Dbl.lt_fin_mono {a : Dbl} {p q : ℚ} (h1 : a < .fin p) (h2 : p ≤ q) : a < .fin q :=
  Dbl.lt_le_trans h1 ((Dbl.fin_le_fin p q).mpr h2)

/-- Fitness scores other than NaN and plus infinity all lie below the threshold
after enough passes. -/
theorem exists_pass_bound (step thr : ℚ) (hstep : 0 < step) :
    ∀ l : List (Nat × List Note × Dbl), (∀ x ∈ l, x.2.2 ≠ .nan ∧ x.2.2 ≠ .pinf) →
      ∃ n : Nat, ∀ x ∈ l, x.2.2 < Dbl.fin (thr + (n : ℚ) * step)
  | [], _ => ⟨0, fun x hx => by cases hx⟩
  | x :: xs, hfin => by
    obtain ⟨n1, h1⟩ := exists_pass_bound step thr hstep xs
      (fun y hy => hfin y (List.mem_cons_of_mem _ hy))
    obtain ⟨n2, h2⟩ : ∃ n2 : Nat, x.2.2 < Dbl.fin (thr + (n2 : ℚ) * step) := by
      have hx := hfin x (List.mem_cons_self _ _)
      cases hq : x.2.2 with
      | nan => exact absurd hq hx.1
      | pinf => exact absurd hq hx.2
      | ninf => exact ⟨0, by simp [Dbl.lt_def, Dbl.lt]⟩
      | fin q =>
        obtain ⟨n2, h2⟩ := exists_nat_gt ((q - thr) / step)
        refine ⟨n2, (Dbl.fin_lt_fin _ _).mpr ?_⟩
        have h3 : q - thr < (n2 : ℚ) * step := (div_lt_iff₀ hstep).mp h2
        linarith
    refine ⟨max n1 n2, fun y hy => ?_⟩
    have hm1 : (n1 : ℚ) ≤ ((max n1 n2 : Nat) : ℚ) := by exact_mod_cast le_max_left n1 n2
    have hm2 : (n2 : ℚ) ≤ ((max n1 n2 : Nat) : ℚ) := by exact_mod_cast le_max_right n1 n2
    rcases List.mem_cons.mp hy with rfl | hy'
    · have h4 : (n2 : ℚ) * step ≤ ((max n1 n2 : Nat) : ℚ) * step :=
        mul_le_mul_of_nonneg_right hm2 (le_of_lt hstep)
      exact Dbl.lt_fin_mono h2 (by linarith)
    · have h3 := h1 y hy'
      have h4 : (n1 : ℚ) * step ≤ ((max n1 n2 : Nat) : ℚ) * step :=
        mul_le_mul_of_nonneg_right hm1 (le_of_lt hstep)
      exact Dbl.lt_fin_mono h3 (by linarith)

/-- The loop test fails: the loop is left at once. -/
theorem pruneWhile_exit (b : Int) (step thr : ℚ) (k fuel w : Nat) (st : Heap × MusicalTree)
    (hle : ¬ st.2.size_ > b) :
    pruneWhile b step (k + 1) fuel w st thr = .ok (st, thr) := by
  rw [pruneWhile, if_neg hle]

/-- One pass of the loop body on a held tree. -/
theorem pruneWhile_pass (b : Int) (step thr : ℚ) (k fuel w : Nat) (h : Heap) (tr : MusicalTree)
    (t : MTree) (hT : HoldsTree h tr t) (hgt : tr.size_ > b) (hf : t.size ≤ fuel)
    (hw : t.size ≤ w) :
    ∃ h1 tr1, HoldsTree h1 tr1 (MTree.pruneRoot (.fin thr) t) ∧
      tr1.size_ = ((MTree.pruneRoot (.fin thr) t).size : Int) ∧
      pruneWhile b step (k + 1) fuel w (h, tr) thr =
        pruneWhile b step k fuel w (h1, tr1) (thr + step) := by
  obtain ⟨ht, hroot, hnd⟩ := hT
  obtain ⟨h', e, ht', _⟩ := prune_root (.fin thr) fuel w t h tr ht hnd hroot hf hw
  have hc := CountNodes_spec h' fuel _ none ht'
    (le_trans (MTree.pruneRoot_size_le (.fin thr) t) hf)
  refine ⟨h', { root_ := some (MTree.pruneRoot (.fin thr) t).id,
                size_ := ((MTree.pruneRoot (.fin thr) t).size : Int), verbose_ := tr.verbose_ },
    ⟨ht', rfl, MTree.pruneRoot_ids_nodup (.fin thr) t hnd⟩, rfl, ?_⟩
  rw [pruneWhile, if_pos hgt]
  simp only [hroot, e, bind_ok, hc]

theorem pruneWhile_bound (b : Int) (step : ℚ) (hb : 1 ≤ b) : ∀ (n : Nat) (t : MTree)
    (h : Heap) (tr : MusicalTree) (thr : ℚ), HoldsTree h tr t →
    (∀ x ∈ t.nodes, x.2.2 < Dbl.fin (thr + (n : ℚ) * step)) →
    (tr.size_ > b ∨ tr.size_ = (t.size : Int)) →
    ∀ k fuel w, n + 2 ≤ k → t.size ≤ fuel → t.size ≤ w →
    ∃ (h' : Heap) (tr' : MusicalTree) (t' : MTree) (passes : Nat),
      pruneWhile b step k fuel w (h, tr) thr = .ok ((h', tr'), thr + (passes : ℚ) * step) ∧
      passes ≤ n + 1 ∧ HoldsTree h' tr' t' ∧ ((t'.size : Nat) : Int) ≤ b ∧
      tr'.size_ = (t'.size : Int) ∧ t'.size ≤ t.size := by
  intro n
  induction n with
  | zero =>
    intro t h tr thr hT hbound hsize k fuel w hk hf hw
    obtain ⟨k1, rfl⟩ : ∃ k1, k = k1 + 1 := ⟨k - 1, by omega⟩
    by_cases hgt : tr.size_ > b
    · obtain ⟨h1, tr1, hT1, hs1, e1⟩ := pruneWhile_pass b step thr k1 fuel w h tr t hT hgt hf hw
      obtain ⟨k2, rfl⟩ : ∃ k2, k1 = k2 + 1 := ⟨k1 - 1, by omega⟩
      have hno : ∀ x ∈ t.nodes, x.2.2 < Dbl.fin thr := by
        intro x hx
        have := hbound x hx
        simpa using this
      have hone : (MTree.pruneRoot (.fin thr) t).size = 1 := by
        rw [MTree.pruneRoot_alone (.fin thr) t hno]; simp
      have hle : ¬ (h1, tr1).2.size_ > b := by
        show ¬ tr1.size_ > b
        rw [hs1, hone]
        simp only [Nat.cast_one, gt_iff_lt, not_lt]
        exact hb
      refine ⟨h1, tr1, _, 1, ?_, by omega, hT1, ?_, hs1, MTree.pruneRoot_size_le (.fin thr) t⟩
      · rw [e1, pruneWhile_exit b step _ k2 fuel w _ hle]
        simp
      · rw [hone]; exact_mod_cast hb
    · have hex : tr.size_ = (t.size : Int) := hsize.resolve_left hgt
      refine ⟨h, tr, t, 0, ?_, by omega, hT, ?_, hex, le_refl _⟩
      · rw [pruneWhile_exit b step thr k1 fuel w (h, tr) hgt]
        simp
      · rw [← hex]
        exact not_lt.mp hgt
  | succ n ih =>
    intro t h tr thr hT hbound hsize k fuel w hk hf hw
    obtain ⟨k1, rfl⟩ : ∃ k1, k = k1 + 1 := ⟨k - 1, by omega⟩
    by_cases hgt : tr.size_ > b
    · obtain ⟨h1, tr1, hT1, hs1, e1⟩ := pruneWhile_pass b step thr k1 fuel w h tr t hT hgt hf hw
      have hsz := MTree.pruneRoot_size_le (.fin thr) t
      have hbound1 : ∀ x ∈ (MTree.pruneRoot (.fin thr) t).nodes,
          x.2.2 < Dbl.fin ((thr + step) + (n : ℚ) * step) := by
        intro x hx
        have := hbound x (MTree.pruneRoot_nodes_subset (.fin thr) t x hx)
        refine Dbl.lt_fin_mono this (le_of_eq ?_)
        push_cast
        ring
      obtain ⟨h', tr', t', p, e2, hp, hT', hle', hs', hsz'⟩ := ih _ h1 tr1 (thr + step) hT1
        hbound1 (Or.inr hs1) k1 fuel w (by omega) (by omega) (by omega)
      refine ⟨h', tr', t', p + 1, ?_, by omega, hT', hle', hs', by omega⟩
      rw [e1, e2]
      push_cast
      congr 2
      ring
    · have hex : tr.size_ = (t.size : Int) := hsize.resolve_left hgt
      refine ⟨h, tr, t, 0, ?_, by omega, hT, ?_, hex, le_refl _⟩
      · rw [pruneWhile_exit b step thr k1 fuel w (h, tr) hgt]
        simp
      · rw [← hex]
        exact not_lt.mp hgt

/-- C18: for every well-formed tree whose fitness scores are taken as exact
values (none is NaN or plus infinity), every starting threshold, every positive
step and every budget `b ≥ 1`, the loop
`while (size_ > b) { PruneNodes(root_, prune); size_ = CountNodes(root_); prune += step; }`
entered with `size_ > b` or with `size_` equal to the node count stops after
finitely many passes (fewer than some `N`, given fuel for `N` tests), with the
threshold raised once per pass, a well-formed tree of at least 1 and at most `b`
nodes, and `size_` equal to that count. -/
theorem pruneWhile_terminates (b : Int) (step thr : ℚ) (h : Heap) (tr : MusicalTree)
    (r : Nat) (hroot : tr.root_ = some r) (hwf : WellFormed h r) (hb : 1 ≤ b)
    (hstep : 0 < step)
    (hfin : ∀ x nd, Reach h r x → h x = some nd →
      nd.fitness_score_ ≠ .nan ∧ nd.fitness_score_ ≠ .pinf) :
    ∃ t, HoldsTree h tr t ∧ ((tr.size_ > b ∨ tr.size_ = (t.size : Int)) →
      ∃ N, ∀ k fuel w, N ≤ k → t.size ≤ fuel → t.size ≤ w →
        ∃ (h' : Heap) (tr' : MusicalTree) (r' : Nat) (passes : Nat) (c : Int),
          pruneWhile b step k fuel w (h, tr) thr =
            .ok ((h', tr'), thr + (passes : ℚ) * step) ∧
          passes < N ∧ tr'.root_ = some r' ∧ WellFormed h' r' ∧
          CountNodes fuel h' (some r') = .ok c ∧ 1 ≤ c ∧ c ≤ b ∧ tr'.size_ = c) := by
  obtain ⟨t, hT, rfl⟩ := hwf.holds hroot
  refine ⟨t, hT, fun hsize => ?_⟩
  have hfin' : ∀ e ∈ t.nodes, e.2.2 ≠ .nan ∧ e.2.2 ≠ .pinf := by
    intro e he
    obtain ⟨nd, hx, _, hf⟩ := hT.1.node_data.2 e he
    rw [← hf]
    exact hfin e.1 nd ((hT.1.reach_iff _).mpr (List.mem_map_of_mem _ he)) hx
  obtain ⟨n, hn⟩ := exists_pass_bound step thr hstep t.nodes hfin'
  refine ⟨n + 2, fun k fuel w hk hf hw => ?_⟩
  obtain ⟨h', tr', t', p, e, hp, hT', hle, hs, hsz⟩ :=
    pruneWhile_bound b step hb n t h tr thr hT hn hsize k fuel w hk hf hw
  refine ⟨h', tr', t'.id, p, (t'.size : Int), e, by omega, hT'.2.1, hT'.wellFormed,
    CountNodes_spec h' fuel t' none hT'.1 (by omega), ?_, hle, hs⟩
  have := t'.size_pos
  exact_mod_cast this

theorem exFinite : ∀ x nd, Reach exHeap 0 x → exHeap x = some nd →
    nd.fitness_score_ ≠ .nan ∧ nd.fitness_score_ ≠ .pinf := by
  intro x nd _ hx
  unfold exHeap at hx
  split at hx <;> simp at hx <;> subst hx <;> simp [exNode]

/-- C18 witness: the final loop (`b = 2`, step `0.01`) on the sample tree with
`size_ = 5`, starting at threshold 10. -/
theorem pruneWhile_terminates_witness :
    ∃ (k : Nat) (h' : Heap) (tr' : MusicalTree) (thr' : ℚ) (c : Int),
      pruneWhile 2 (1 / 100) k 5 5 (exHeap, exObj) 10 = .ok ((h', tr'), thr') ∧
      CountNodes 5 h' tr'.root_ = .ok c ∧ 1 ≤ c ∧ c ≤ 2 := by
  obtain ⟨t, hT, hN⟩ := pruneWhile_terminates 2 (1 / 100) 10 exHeap exObj 0 rfl exWellFormed
    (by decide) (by norm_num) exFinite
  obtain ⟨N, hk⟩ := hN (Or.inl (by decide))
  have ht : t = exTree := hT.unique_tree exHolds
  subst ht
  obtain ⟨h', tr', r', p, c, e, _, hr, _, hc, h1, h2, _⟩ :=
    hk N 5 5 (le_refl _) (by decide) (by decide)
  exact ⟨N, h', tr', _, c, e, by rw [hr]; exact hc, h1, h2⟩

end MusicTree

namespace MusicTree

/-! ## A second call of PruneNodes at the same threshold -/

/-- On a held tree all of whose nodes reach the threshold `PruneNodes` returns
the state it was given. -/
theorem prune_noop (thr : Dbl) (h : Heap) (tr : MusicalTree) :
    ∀ (fuel w : Nat) (t : MTree) (p : Option Nat), TreeAt h p t →
      (∀ x ∈ t.nodes, ¬ x.2.2 < thr) → t.size ≤ fuel →
      PruneNodes fuel w (h, tr) (some t.id) thr = .ok (h, tr) := by
  intro fuel
  induction fuel with
  | zero =>
    intro w t p _ _ hs
    have := t.size_pos
    omega
  | succ k ih =>
    intro w t p ht hall hs
    cases ht with
    | mk p i m f cs h1 h2 =>
      have hloop : ∀ l : List MTree, (∀ c ∈ l, c ∈ cs) →
          List.foldlM (fun s child => PruneNodes k w s (some child) thr) (h, tr)
            (l.map MTree.id) = .ok (h, tr) := by
        intro l
        induction l with
        | nil => intro _; simp [pure, Except.pure]
        | cons d ds ihd =>
          intro hsub
          have hd : d ∈ cs := hsub d (by simp)
          have hsz : d.size ≤ k := by
            have := MTree.size_le_of_mem hd
            simp at hs
            omega
          have hdall : ∀ x ∈ d.nodes, ¬ x.2.2 < thr := by
            intro x hx
            refine hall x ?_
            simp only [MTree.nodes_node, List.mem_cons]
            exact Or.inr (MTree.mem_nodesL.mpr ⟨d, hd, hx⟩)
          simp only [List.map_cons, List.foldlM_cons]
          rw [ih w d (some i) (h2 d hd) hdall hsz]
          simp only [bind, Except.bind]
          exact ihd (fun c hc => hsub c (List.mem_cons_of_mem _ hc))
      have hf : ¬ f < thr := hall (i, m, f) (by simp)
      rw [MTree.id_node, PruneNodes]
      simp only [h1]
      split_ifs with hc
      · rfl
      · rw [hloop cs (fun c hc => hc)]
        simp only [bind_ok, h1, hf, if_false]
        rfl

/-- C19: on a well-formed tree, a second call `PruneNodes(root_, thr)` right
after the first returns and leaves the heap (root, shape, child order, motifs,
fitness scores) and the tree object (`root_`, `size_`) exactly as the first call
left them. -/
theorem PruneNodes_idempotent (thr : Dbl) (h : Heap) (tr : MusicalTree) (r : Nat)
    (hroot : tr.root_ = some r) (hwf : WellFormed h r) :
    ∃ t, HoldsTree h tr t ∧ ∀ fuel w, t.size ≤ fuel → t.size ≤ w →
      ∃ h' tr', PruneNodes fuel w (h, tr) tr.root_ thr = .ok (h', tr') ∧
        PruneNodes fuel w (h', tr') tr'.root_ thr = .ok (h', tr') := by
  obtain ⟨t, hT, _⟩ := hwf.holds hroot
  refine ⟨t, hT, fun fuel w hf hw => ?_⟩
  obtain ⟨ht, hr, hnd⟩ := hT
  obtain ⟨h', e, ht', _⟩ := prune_root thr fuel w t h tr ht hnd hr hf hw
  have hsz := MTree.pruneRoot_size_le thr t
  refine ⟨h', _, by rw [hr]; exact e, ?_⟩
  show PruneNodes fuel w (h', _) (some (MTree.pruneRoot thr t).id) thr = _
  by_cases hex : ∃ y ∈ t.nodes, ¬ y.2.2 < thr
  · refine prune_noop thr h' _ fuel w _ none ht' (fun x hx => ?_) (by omega)
    have := (MTree.pruneRoot_nodes_perm thr t hex).mem_iff.mp hx
    simpa using (List.mem_filter.mp this).2
  · have hno : ∀ y ∈ t.nodes, y.2.2 < thr := by
      intro y hy
      by_contra hlt
      exact hex ⟨y, hy, hlt⟩
    have hal := MTree.pruneRoot_alone thr t hno
    rw [hal] at ht' ⊢
    have hroot' := ht'.root
    simp only [MTree.id_node, MTree.motif_node, MTree.kids_node, MTree.fit_node,
      List.map_nil] at hroot'
    cases fuel with
    | zero => have := t.size_pos; omega
    | succ k =>
      rw [MTree.id_node, PruneNodes]
      simp [hroot']

/-- C19 witness: pruning the sample tree twice at threshold 10. -/
theorem PruneNodes_idempotent_witness :
    ∃ h' tr', PruneNodes 5 5 (exHeap, exObj) exObj.root_ 10 = .ok (h', tr') ∧
      PruneNodes 5 5 (h', tr') tr'.root_ 10 = .ok (h', tr') := by
  obtain ⟨t, hT, hN⟩ := PruneNodes_idempotent 10 exHeap exObj 0 rfl exWellFormed
  have ht : t = exTree := hT.unique_tree exHolds
  subst ht
  exact hN 5 5 (by decide) (by decide)

end MusicTree

namespace MusicTree

/-! ## Inputs outside the contracts -/

/-- On two nodes that name each other as parent, the ancestor walk never ends. -/
theorem onParentChain_cycle {h : Heap} {a b c : Nat} {ad bd : MotifNode}
    (ha : h a = some ad) (hb : h b = some bd) (hpa : ad.parent_ = some b)
    (hpb : bd.parent_ = some a) (hac : a ≠ c) (hbc : b ≠ c) :
    ∀ w, onParentChain w h (some a) c = .error .out_of_fuel ∧
      onParentChain w h (some b) c = .error .out_of_fuel := by
  intro w
  induction w with
  | zero => simp [onParentChain]
  | succ k ih =>
    constructor
    · rw [onParentChain, if_neg hac]
      simp only [ha, hpa]
      exact ih.2
    · rw [onParentChain, if_neg hbc]
      simp only [hb, hpb]
      exact ih.1

/-- A call of `AddChildNode` on a node of such a pair never returns. -/
theorem AddChildNode_cycle_stuck {h : Heap} {a b c : Nat} {ad bd : MotifNode}
    (ha : h a = some ad) (hb : h b = some bd) (hpa : ad.parent_ = some b)
    (hpb : bd.parent_ = some a) (hac : a ≠ c) (hbc : b ≠ c) (hnot : c ∉ ad.children_) :
    ∀ w, AddChildNode w h a (some c) = .error (.out_of_fuel, h) := by
  intro w
  simp only [AddChildNode, ha, hnot, if_false,
    (onParentChain_cycle ha hb hpa hpb hac hbc w).1]

/-- C5 counterexample: three fresh nodes `0`, `1`, `2` and the calls
`0.AddChildNode(1)`, `1.AddChildNode(2)`, `1.ReplaceChildNode(0, 2)`, which all
succeed.  Now node `0` has parent `1` and node `1` has parent `0`.  Node `2` is
present, is not node `0`, is not listed by node `0`, and is not met on the
parent walk of node `0`; yet `0.AddChildNode(2)` neither throws nor attaches
node `2`: the ancestor walk runs for ever (out of fuel for every bound `w`). -/
theorem AddChildNode_cyclic_parents_counterexample :
    ∃ h1 h2 h3, AddChildNode 3 freshHeap 0 (some 1) = .ok h1 ∧
      AddChildNode 3 h1 1 (some 2) = .ok h2 ∧
      ReplaceChildNode h2 1 (some 0) (some 2) = .ok (h3, true) ∧
      kidsOf h3 0 = [1] ∧ parOf h3 0 = some 1 ∧ parOf h3 1 = some 0 ∧
      (∃ cd, h3 2 = some cd) ∧
      ∀ w, AddChildNode w h3 0 (some 2) = .error (.out_of_fuel, h3) := by
  refine ⟨_, _, _, rfl, rfl, rfl, rfl, rfl, rfl, ⟨_, rfl⟩, fun w => ?_⟩
  exact AddChildNode_cycle_stuck (b := 1) rfl rfl rfl rfl (by decide) (by decide)
    (by decide) w

theorem nanNoBelow (thr : Dbl) (t : MTree) (hthr : thr = .nan) :
    ∀ x ∈ t.nodes, ¬ x.2.2 < thr := by
  intro x _
  rw [hthr]
  exact Dbl.not_lt_nan _

/-- C1 counterexample: the sample tree (five nodes, fitness `5` or `50`) pruned
at the threshold NaN.  No node has fitness at least NaN (no comparison with NaN
holds), so the claim has the original root left alone with no children; but the
call changes nothing: the root still lists its children `1` and `2` and five
nodes are counted. -/
theorem PruneNodes_nan_threshold_counterexample :
    WellFormed exHeap 0 ∧
    (∀ x nd, Reach exHeap 0 x → exHeap x = some nd → ¬ Dbl.nan ≤ nd.fitness_score_) ∧
    PruneNodes 5 5 (exHeap, exObj) exObj.root_ .nan = .ok (exHeap, exObj) ∧
    kidsOf exHeap 0 = [1, 2] ∧ CountNodes 5 exHeap (some 0) = .ok 5 := by
  refine ⟨exWellFormed, fun x nd _ _ => Dbl.not_nan_le _, ?_, rfl, ?_⟩
  · exact prune_noop .nan exHeap exObj 5 5 exTree none exHolds.1
      (nanNoBelow .nan exTree rfl) (by decide)
  · exact CountNodes_spec exHeap 5 exTree none exHolds.1 (by decide)

/-- C2 counterexample: the tree of `nanHeap`, a root of fitness `50` with one
child whose fitness was set to NaN, pruned at threshold `10`.  The root has
fitness at least `10`.  The call changes nothing, so the child is reachable
afterwards, although its fitness is not at least `10`. -/
theorem PruneNodes_nan_fitness_counterexample :
    WellFormed nanHeap 0 ∧
    (∃ x nd, Reach nanHeap 0 x ∧ nanHeap x = some nd ∧ (10 : Dbl) ≤ nd.fitness_score_) ∧
    PruneNodes 2 2 (nanHeap, nanObj) nanObj.root_ 10 = .ok (nanHeap, nanObj) ∧
    Reach nanHeap 0 1 ∧
    ∃ nd, nanHeap 1 = some nd ∧ ¬ (10 : Dbl) ≤ nd.fitness_score_ := by
  refine ⟨nanHolds.wellFormed, ⟨0, _, Relation.ReflTransGen.refl, rfl, by decide!⟩, ?_,
    Relation.ReflTransGen.single ⟨_, rfl, by simp [exNode]⟩, _, rfl, by decide!⟩
  exact prune_noop 10 nanHeap nanObj 2 2 nanTree none nanHolds.1
    (by decide!) (by decide)

end MusicTree
